import Mathlib

/-!
Voxel world model: visibility, sectors, ray picking and collision.

A shallow embedding of `math.go`, `batch.go`, `texture.go`, `model.go` and the
collision part of `window.go`.

Modelling conventions.

* `float32` values are modelled by rationals `ℚ`.  Every constant of the
  program (`0.5`, `0.25`, `1/8`, `1/16`, unit offsets) is a dyadic rational, and
  on block coordinates and quarter-block offsets of ordinary magnitude `float32`
  arithmetic is exact, so there the operations are the exact ones.  The ray of
  `hit_test` accumulates arbitrary steps: its additions are rounded with `f32`,
  the round-to-nearest-even of IEEE-754 binary32.  Infinities and NaN are not
  modelled.
* Go's `int` is modelled by `Int` (no wrap-around: loop counts stay far below
  `2^63`).
* A Go `map[K]V` is a function `K → Option V`; reading an absent key yields the
  zero value of `V`, written with `Option.getD`.
* A run-time panic (nil dereference, index out of range, explicit `panic`) is
  the result `none` of an `Option`-valued function.
* The OpenGL display-list store is an external collaborator.  It is modelled by
  `GLState`: `gl.GenLists(1)` hands out the fresh name `next_list` and the
  commands recorded between `gl.NewList` and `gl.EndList` are kept under it.
-/

namespace Minecraft

/-! ## math.go -/

/-- Vertex of `math.go`: three coordinates and the flag telling a real vertex
from the zero value `nilVertex`. -/
structure Vertex where
  x : ℚ
  y : ℚ
  z : ℚ
  isNotNil : Bool
deriving DecidableEq

def NewVertex (x y z : ℚ) : Vertex := ⟨x, y, z, true⟩

def NewVertexInt (x y z : Int) : Vertex := NewVertex (x : ℚ) (y : ℚ) (z : ℚ)

def nilVertex : Vertex := ⟨0, 0, 0, false⟩

def Vertex.isNil (v : Vertex) : Bool := !v.isNotNil

/-- Component accessor `Vertex.get`; `none` is the panic on an unknown index. -/
def Vertex.get (v : Vertex) (i : Int) : Option ℚ :=
  if i = 0 then some v.x
  else if i = 1 then some v.y
  else if i = 2 then some v.z
  else none

/-- Component update `Vertex.set`; `none` is the panic on a bad index. -/
def Vertex.set (v : Vertex) (i : Int) (f : ℚ) : Option Vertex :=
  if i = 0 then some { v with x := f }
  else if i = 1 then some { v with y := f }
  else if i = 2 then some { v with z := f }
  else none

/-- Rounding of `math.go`: `Ceil(x - 0.5)` below zero, `Floor(x + 0.5)` otherwise. -/
def round (x : ℚ) : ℚ :=
  if x < 0 then ((Int.ceil (x - 1 / 2) : Int) : ℚ)
  else ((Int.floor (x + 1 / 2) : Int) : ℚ)

def normalize (position : Vertex) : Vertex :=
  NewVertex (round position.x) (round position.y) (round position.z)

/-! ### float32 rounding -/

/-- Power of two `2^e` as a rational. -/
def pow2 (e : Int) : ℚ :=
  if 0 ≤ e then ((2 ^ e.toNat : Nat) : ℚ) else 1 / ((2 ^ (-e).toNat : Nat) : ℚ)

/-- Round to the nearest integer, ties to the even one. -/
def round_even (x : ℚ) : Int :=
  let f := Int.floor x
  let r := x - (f : ℚ)
  if r < 1 / 2 then f
  else if 1 / 2 < r then f + 1
  else if f % 2 = 0 then f else f + 1

/-- Number of halvings that bring `n` below 2, that is `⌊log2 n⌋` for `n ≥ 1`
(and 0 for `n = 0`), when `fuel ≥ n`. -/
def halvings : Nat → Nat → Nat
  | 0, _ => 0
  | fuel + 1, n => if n < 2 then 0 else halvings fuel (n / 2) + 1

/-- Binary exponent of `a ≥ 0` on the binary32 grid: the `e` with
`2^e ≤ a < 2^(e+1)`, and `-126` (the subnormal range) below `2^-126`.  With
`a = n / d` the exponent is `⌊log2 n⌋ - ⌊log2 d⌋` or one less. -/
def f32_exponent (a : ℚ) : Int :=
  let e0 : Int :=
    (halvings a.num.natAbs a.num.natAbs : Int) - (halvings a.den a.den : Int)
  let e := if pow2 e0 ≤ a then e0 else e0 - 1
  max e (-126)

/-- Rounding of a real result to `float32` (IEEE-754 binary32, round to nearest,
ties to even): the nearest multiple of the spacing `2^(e-23)` of the binade of
`x`.  Overflow to an infinity (results beyond about `3.4e38`) is not modelled:
there the grid of exponent 127 is continued. -/
def f32 (x : ℚ) : ℚ :=
  let q := pow2 (f32_exponent |x| - 23)
  (round_even (x / q) : ℚ) * q

/-- Constant `SECTOR_SIZE` of `window.go`. -/
def SECTOR_SIZE : ℚ := 16

def sectorize (position : Vertex) : Vertex :=
  let normal := normalize position
  NewVertex (normal.x / SECTOR_SIZE) 0 (normal.z / SECTOR_SIZE)

/-- Loop `for x := start; x < end; x += step` of `xrange`, with the number of
iterations still allowed as first argument. -/
def xrange_loop (stop step : Int) : Nat → Int → List Int
  | 0, _ => []
  | fuel + 1, x => if x < stop then x :: xrange_loop stop step fuel (x + step) else []

/-- Function `xrange(start, end, step)`.  Every caller passes `step = 1`, for
which `end - start` iterations are enough; with `step ≤ 0` and `start < end`
the Go loop does not terminate and the model stops after `end - start` items.
The capacity hint of `make` is not modelled: it is negative, and `make` panics,
only for `end < start - step`, which no use below reaches. -/
def xrange (start stop step : Int) : List Int :=
  xrange_loop stop step (stop - start).toNat start

/-! ## texture.go, batch.go -/

structure Point2f where
  x : ℚ
  y : ℚ
deriving DecidableEq

def tex_coord (x y : ℚ) : List Point2f :=
  let n : ℚ := 4
  let m := 1 / n
  let dx := x * m
  let dy := y * m
  [⟨dx, dy⟩, ⟨dx + m, dy⟩, ⟨dx + m, dy + m⟩, ⟨dx, dy + m⟩]

def tex_coords (topx topy bottomx bottomy sidex sidey : ℚ) : List Point2f :=
  let top := tex_coord topx topy
  let bottom := tex_coord bottomx bottomy
  let side := tex_coord sidex sidey
  top ++ bottom ++ side ++ side ++ side ++ side

def cube_vertices (block : Vertex) (n : ℚ) : List Vertex :=
  [ NewVertex (block.x - n) (block.y + n) (block.z - n), NewVertex (block.x - n) (block.y + n) (block.z + n),
    NewVertex (block.x + n) (block.y + n) (block.z + n), NewVertex (block.x + n) (block.y + n) (block.z - n),
    NewVertex (block.x - n) (block.y - n) (block.z - n), NewVertex (block.x + n) (block.y - n) (block.z - n),
    NewVertex (block.x + n) (block.y - n) (block.z + n), NewVertex (block.x - n) (block.y - n) (block.z + n),
    NewVertex (block.x - n) (block.y - n) (block.z - n), NewVertex (block.x - n) (block.y - n) (block.z + n),
    NewVertex (block.x - n) (block.y + n) (block.z + n), NewVertex (block.x - n) (block.y + n) (block.z - n),
    NewVertex (block.x + n) (block.y - n) (block.z + n), NewVertex (block.x + n) (block.y - n) (block.z - n),
    NewVertex (block.x + n) (block.y + n) (block.z - n), NewVertex (block.x + n) (block.y + n) (block.z + n),
    NewVertex (block.x - n) (block.y - n) (block.z + n), NewVertex (block.x + n) (block.y - n) (block.z + n),
    NewVertex (block.x + n) (block.y + n) (block.z + n), NewVertex (block.x - n) (block.y + n) (block.z + n),
    NewVertex (block.x + n) (block.y - n) (block.z - n), NewVertex (block.x - n) (block.y - n) (block.z - n),
    NewVertex (block.x - n) (block.y + n) (block.z - n), NewVertex (block.x + n) (block.y + n) (block.z - n) ]

/-- Handle `CallList` of `batch.go`.  The program owns a single `Batch`, so the
pointer `parent` is either nil (`none`, as in the zero value) or that batch. -/
structure CallList where
  parent : Option Unit
  list_index : Nat
deriving DecidableEq

structure Batch where
  lists : List CallList

/-- Recorded display list: the `TexCoord2f` / `Vertex3f` pairs issued by
`CallList.draw` between `gl.NewList` and `gl.EndList`. -/
abbrev DisplayList := List (Point2f × Vertex)

/-- OpenGL display-list store (external): names from `next_list` on are unused,
`lists` holds what was compiled under each name. -/
structure GLState where
  next_list : Nat
  lists : Nat → Option DisplayList

/-- Body of `CallList.draw`: pairs vertex `i` with `texture_data[i]`; `none` is
the index-out-of-range panic when the texture table is too short. -/
def CallList.draw : List Vertex → List Point2f → Option DisplayList
  | [], _ => some []
  | _ :: _, [] => none
  | v :: vl, t :: texture_data => (CallList.draw vl texture_data).map (fun r => (t, v) :: r)

/-! ## model.go -/

def FACES : List Vertex :=
  [ NewVertex 0 1 0, NewVertex 0 (-1) 0, NewVertex (-1) 0 0,
    NewVertex 1 0 0, NewVertex 0 0 1, NewVertex 0 0 (-1) ]

inductive TextureType where
  | GRASS
  | SAND
  | BRICK
  | STONE
deriving DecidableEq

open TextureType

def grass : List Point2f := tex_coords 1 0 0 1 0 0
def sand : List Point2f := tex_coords 1 1 1 1 1 1
def brick : List Point2f := tex_coords 2 0 2 0 2 0
def stone : List Point2f := tex_coords 2 1 2 1 2 1

/-- Table `textures`; all four block types have an entry. -/
def textures : TextureType → List Point2f
  | GRASS => grass
  | SAND => sand
  | BRICK => brick
  | STONE => stone

/-- State of `Model`, together with the display-list store `gl` its batch
talks to. -/
structure Model where
  world : Vertex → Option TextureType
  shown : Vertex → Option TextureType
  _shown : Vertex → Option CallList
  sectors : Vertex → Option (List Vertex)
  batch : Batch
  gl : GLState

/-- State right after the four `make` calls and `NewBatch()` of `NewModel`,
before `build_world`. -/
def Model.empty : Model :=
  { world := fun _ => none
    shown := fun _ => none
    _shown := fun _ => none
    sectors := fun _ => none
    batch := ⟨[]⟩
    gl := ⟨1, fun _ => none⟩ }

/-- Zero value of `CallList`, which a read of an absent `_shown` key yields. -/
def CallList.zero : CallList := ⟨none, 0⟩

/-- Constructor `NewCallList`: `gl.GenLists(1)`, then the drawing commands are
compiled under the new name. -/
def NewCallList (self : Model) (vertex_data : List Vertex) (texture_data : List Point2f) :
    Option (Model × CallList) :=
  let list_index := self.gl.next_list
  match CallList.draw vertex_data texture_data with
  | none => none
  | some cmds =>
    some ({ self with gl := ⟨list_index + 1, Function.update self.gl.lists list_index (some cmds)⟩ },
          ⟨some (), list_index⟩)

/-- Method `Batch.add`. -/
def Batch.add (self : Model) (vertex_data : List Vertex) (texture_data : List Point2f) :
    Option (Model × CallList) :=
  match NewCallList self vertex_data texture_data with
  | none => none
  | some (self, bvl) => some ({ self with batch := ⟨self.batch.lists ++ [bvl]⟩ }, bvl)

/-- Method `CallList.delete`: a nil `parent` panics on `b.lists`; otherwise the
first handle of the batch with the same `list_index` is spliced out and the
method returns; only when there is none is `gl.DeleteLists` reached. -/
def CallList.delete (bvl : CallList) (self : Model) : Option Model :=
  match bvl.parent with
  | none => none
  | some _ =>
    if self.batch.lists.any (fun bvl1 => bvl.list_index = bvl1.list_index) then
      some { self with
        batch := ⟨self.batch.lists.eraseP (fun bvl1 => bvl.list_index = bvl1.list_index)⟩ }
    else
      some { self with
        gl := ⟨self.gl.next_list, Function.update self.gl.lists bvl.list_index none⟩ }

def Model.exposed (self : Model) (position : Vertex) : Bool :=
  FACES.any (fun d =>
    (self.world (NewVertex (position.x + d.x) (position.y + d.y) (position.z + d.z))).isNone)

def Model._show_block (self : Model) (position : Vertex) (texture : TextureType) : Option Model :=
  let vertex_data := cube_vertices position (1 / 2)
  let texture_data := textures texture
  match Batch.add self vertex_data texture_data with
  | none => none
  | some (self, bvl) => some { self with _shown := Function.update self._shown position (some bvl) }

def Model.show_block (self : Model) (position : Vertex) : Option Model :=
  let texture := (self.world position).getD GRASS
  let self := { self with shown := Function.update self.shown position (some texture) }
  self._show_block position texture

def Model._hide_block (self : Model) (position : Vertex) : Option Model :=
  match ((self._shown position).getD CallList.zero).delete self with
  | none => none
  | some self => some { self with _shown := Function.update self._shown position none }

def Model.hide_block (self : Model) (position : Vertex) : Option Model :=
  let self := { self with shown := Function.update self.shown position none }
  self._hide_block position

/-- Body of the loop of `check_neighbors` for one face offset `d`. -/
def Model.check_neighbor (self : Model) (position d : Vertex) : Option Model :=
  let key := NewVertex (position.x + d.x) (position.y + d.y) (position.z + d.z)
  if (self.world key).isNone then some self
  else if self.exposed key then
    if (self.shown key).isNone then self.show_block key else some self
  else
    if (self.shown key).isSome then self.hide_block key else some self

/-- Loop of `check_neighbors` over a list of face offsets. -/
def Model.check_neighbors_loop (position : Vertex) : List Vertex → Model → Option Model
  | [], self => some self
  | d :: rest, self =>
    match self.check_neighbor position d with
    | none => none
    | some self => Model.check_neighbors_loop position rest self

def Model.check_neighbors (self : Model) (position : Vertex) : Option Model :=
  Model.check_neighbors_loop position FACES self

def Model.remove_block (self : Model) (position : Vertex) : Option Model :=
  let self := { self with world := Function.update self.world position none }
  let sector_id := sectorize position
  let sector_data := (self.sectors sector_id).getD []
  let self :=
    if position ∈ sector_data then
      { self with sectors := Function.update self.sectors sector_id (some (sector_data.erase position)) }
    else self
  match (if (self.shown position).isSome then self.hide_block position else some self) with
  | none => none
  | some self => self.check_neighbors position

def Model.add_block (self : Model) (position : Vertex) (texture : TextureType) : Option Model :=
  match (if (self.world position).isSome then self.remove_block position else some self) with
  | none => none
  | some self =>
    let self := { self with world := Function.update self.world position (some texture) }
    let s := sectorize position
    let self :=
      match self.sectors s with
      | none => { self with sectors := Function.update self.sectors s (some [position]) }
      | some l => { self with sectors := Function.update self.sectors s (some (l ++ [position])) }
    match (if self.exposed position then self.show_block position else some self) with
    | none => none
    | some self => self.check_neighbors position

/-- Loop of `hit_test` over the remaining iterations: `previous` is the last
discretised key, `(x, y, z)` the current sample point.  The update
`x + vector.x/float32(m)` is a `float32` division followed by a `float32`
addition, each rounded. -/
def Model.hit_test_loop (self : Model) (vector : Vertex) :
    List Int → Vertex → ℚ → ℚ → ℚ → Vertex × Vertex
  | [], _, _, _, _ => (nilVertex, nilVertex)
  | _ :: rest, previous, x, y, z =>
    let key := normalize (NewVertex x y z)
    if key ≠ previous ∧ (self.world key).isSome then (key, previous)
    else
      Model.hit_test_loop self vector rest key
        (f32 (x + f32 (vector.x / 8))) (f32 (y + f32 (vector.y / 8)))
        (f32 (z + f32 (vector.z / 8)))

def Model.hit_test (self : Model) (position vector : Vertex) (max_distance : Int) :
    Vertex × Vertex :=
  let m : Int := 8
  self.hit_test_loop vector (xrange 0 (max_distance * m) 1) nilVertex
    position.x position.y position.z

/-! ## Auxiliary definitions for the proofs -/

/-- Neighbour key `NewVertex(position.x+d.x, position.y+d.y, position.z+d.z)`
as computed by `exposed` and `check_neighbors`. -/
abbrev nb (p d : Vertex) : Vertex := NewVertex (p.x + d.x) (p.y + d.y) (p.z + d.z)

/-- Display list compiled for the block at `p` with texture `t`. -/
def block_display (p : Vertex) (t : TextureType) : DisplayList :=
  (textures t).zip (cube_vertices p (1 / 2))

/-- State after a successful `show_block(key)`. -/
def show_result (m : Model) (key : Vertex) : Model :=
  { world := m.world
    shown := Function.update m.shown key (some ((m.world key).getD GRASS))
    _shown := Function.update m._shown key (some ⟨some (), m.gl.next_list⟩)
    sectors := m.sectors
    batch := ⟨m.batch.lists ++ [⟨some (), m.gl.next_list⟩]⟩
    gl := ⟨m.gl.next_list + 1,
      Function.update m.gl.lists m.gl.next_list
        (some (block_display key ((m.world key).getD GRASS)))⟩ }

/-- State after a successful `hide_block(key)` that found the handle `c` in the batch. -/
def hide_result (m : Model) (key : Vertex) (c : CallList) : Model :=
  { world := m.world
    shown := Function.update m.shown key none
    _shown := Function.update m._shown key none
    sectors := m.sectors
    batch := ⟨m.batch.lists.eraseP (fun bvl1 => c.list_index = bvl1.list_index)⟩
    gl := m.gl }

/-- Consistency of `_shown`, the batch and the display-list store with `shown`:
same keys, every recorded handle is live in the batch and was compiled from its
block, the batch holds no other handle and no name twice. -/
structure RenderOk (m : Model) : Prop where
  keys : ∀ q, m._shown q = none ↔ m.shown q = none
  handle : ∀ q c, m._shown q = some c →
    c.parent = some () ∧ c ∈ m.batch.lists ∧
      ∃ t, m.gl.lists c.list_index = some (block_display q t)
  nodup : (m.batch.lists.map CallList.list_index).Nodup
  owned : ∀ c ∈ m.batch.lists, ∃ q, m._shown q = some c
  fresh : ∀ c ∈ m.batch.lists, c.list_index < m.gl.next_list
  inj : ∀ q q' c c', m._shown q = some c → m._shown q' = some c' →
    c.list_index = c'.list_index → q = q'

/-- Every shown block is a block of the world, with the same type. -/
def SubWorld (m : Model) : Prop := ∀ q t, m.shown q = some t → m.world q = some t

/-- The visual state of `q` is current: it is shown exactly when it is a block
of the world that is exposed, and then with its type. -/
def GoodAt (m : Model) (q : Vertex) : Prop :=
  m.shown q = if m.exposed q = true then m.world q else none

/-- Each block of the world is listed once under its own sector key and under
no other key; nothing else is listed. -/
def SectorsOk (m : Model) : Prop :=
  ∀ s q, ((m.sectors s).getD []).count q =
    if m.world q ≠ none ∧ s = sectorize q then 1 else 0

/-- Display-list names only grow: a handle of the batch of `m'` was already in
the batch of `m` or has a name `m` had not handed out yet. -/
structure BatchMono (m m' : Model) : Prop where
  next_le : m.gl.next_list ≤ m'.gl.next_list
  batch : ∀ c ∈ m'.batch.lists, c ∈ m.batch.lists ∨ m.gl.next_list ≤ c.list_index

/-- Invariant of the model between two calls of `add_block` / `remove_block`. -/
structure Inv (m : Model) : Prop where
  render : RenderOk m
  good : ∀ q, GoodAt m q
  nonnil : ∀ q, m.world q ≠ none → q.isNotNil = true
  sectors : SectorsOk m

/-- States reachable from the empty model by calls of `add_block` and
`remove_block`.  A position handed to `add_block` is a real vertex: every caller
builds it with `NewVertexInt` or guards the call with `!previous.isNil()`. -/
inductive Reachable : Model → Prop
  | empty : Reachable Model.empty
  | add {m m' : Model} (position : Vertex) (texture : TextureType) :
      Reachable m → position.isNil = false → m.add_block position texture = some m' →
      Reachable m'
  | remove {m m' : Model} (position : Vertex) :
      Reachable m → m.remove_block position = some m' → Reachable m'

/-- First part of `remove_block`: the state after `delete(self.world, position)`
and the splice of the sector list, before any hiding. -/
def remove_ws (m : Model) (p : Vertex) : Model :=
  let self := { m with world := Function.update m.world p none }
  let sector_id := sectorize p
  let sector_data := (self.sectors sector_id).getD []
  if p ∈ sector_data then
    { self with sectors := Function.update self.sectors sector_id (some (sector_data.erase p)) }
  else self

/-- Middle part of `add_block`: the state after `self.world[position] = texture`
and the append to the sector list, before any showing. -/
def add_ws (m : Model) (p : Vertex) (texture : TextureType) : Model :=
  let self := { m with world := Function.update m.world p (some texture) }
  let s := sectorize p
  match self.sectors s with
  | none => { self with sectors := Function.update self.sectors s (some [p]) }
  | some l => { self with sectors := Function.update self.sectors s (some (l ++ [p])) }

/-- World of the 3×3×3 example: the 27 block keys with coordinates in `{-1, 0, 1}`. -/
def cube_positions : List Vertex :=
  ([-1, 0, 1] : List Int).flatMap fun x =>
    ([-1, 0, 1] : List Int).flatMap fun y =>
      ([-1, 0, 1] : List Int).map fun z => NewVertexInt x y z

/-- Model whose world is the fully filled 3×3×3 cube of STONE. -/
def cube_model : Model :=
  { Model.empty with world := fun v => if v ∈ cube_positions then some STONE else none }

/-- Test whether the display list behind handle `c` was compiled from the cube of
the block at `p` (with any of the four textures): `c` is a drawable for `p`. -/
def draws_block (m : Model) (p : Vertex) (c : CallList) : Bool :=
  [GRASS, SAND, BRICK, STONE].any fun t =>
    decide (m.gl.lists c.list_index = some (block_display p t))

/-- State after `add_block((0,0,0), STONE)` on the empty model. -/
def one_block : Model :=
  (Model.empty.add_block (NewVertex 0 0 0) STONE).getD Model.empty

/-- State after a further `add_block((0,1,0), GRASS)`. -/
def two_blocks : Model :=
  (one_block.add_block (NewVertex 0 1 0) GRASS).getD Model.empty

/-- Sample point number `k` of `hit_test`: the point `(x, y, z)` the loop holds
at the start of iteration `k`, accumulated from `origin` in `float32`. -/
def sample (origin direction : Vertex) : Nat → Vertex
  | 0 => NewVertex origin.x origin.y origin.z
  | k + 1 =>
    NewVertex (f32 ((sample origin direction k).x + f32 (direction.x / 8)))
      (f32 ((sample origin direction k).y + f32 (direction.y / 8)))
      (f32 ((sample origin direction k).z + f32 (direction.z / 8)))

/-- Point `origin + k * direction / 8` of the ray in exact arithmetic. -/
def exact_sample (origin direction : Vertex) (k : Nat) : Vertex :=
  NewVertex (origin.x + k * (direction.x / 8)) (origin.y + k * (direction.y / 8))
    (origin.z + k * (direction.z / 8))

/-! ## window.go: collision -/

/-- Constant `PAD` of `window.go`. -/
def PAD : ℚ := 1 / 4

/-- Physics state of `Window` (the GLFW handle, the reticle and the inventory
are left out).  `pushed` is a ghost field, absent from the source: `collide`
appends to it the face, the axis index and the occupied probe cell of every
push-back it applies. -/
structure Window where
  flying : Bool
  strafe : Int × Int
  position : Vertex
  rotation : ℚ × ℚ
  sector : Vertex
  dy : ℚ
  model : Model
  pushed : List (Vertex × Int × Vertex)

/-- Loop `for _, dy := range xrange(0, height, 1)` of `collide` for one face and
one axis `i` with overlap `d`; the first occupied probe cell pushes `p` back and
breaks out of the loop. -/
def Window.collide_heights (self : Window) (np face : Vertex) (i : Int) (d : ℚ) :
    List Int → Vertex → Option (Window × Vertex)
  | [], p => some (self, p)
  | dy :: rest, p => do
    let op := np
    let op ← op.set 1 ((← op.get 1) - (dy : ℚ))
    let op ← op.set i ((← op.get i) + (← face.get i))
    if (self.model.world op).isNone then
      Window.collide_heights self np face i d rest p
    else
      let p ← p.set i ((← p.get i) - (d - PAD) * (← face.get i))
      let self :=
        if face = NewVertex 0 (-1) 0 ∨ face = NewVertex 0 1 0 then { self with dy := 0 }
        else self
      some ({ self with pushed := self.pushed ++ [(face, i, op)] }, p)

/-- Body of the loop over the dimensions `i` of `collide`. -/
def Window.collide_axis (self : Window) (np face : Vertex) (height : Int) (p : Vertex)
    (i : Int) : Option (Window × Vertex) := do
  if (← face.get i) = 0 then
    some (self, p)
  else
    let d := ((← p.get i) - (← np.get i)) * (← face.get i)
    if d < PAD then
      some (self, p)
    else
      self.collide_heights np face i d (xrange 0 height 1) p

/-- Loop `for _, i := range xrange(0, 3, 1)` of `collide`. -/
def Window.collide_axes (np face : Vertex) (height : Int) :
    List Int → Window → Vertex → Option (Window × Vertex)
  | [], self, p => some (self, p)
  | i :: rest, self, p =>
    match self.collide_axis np face height p i with
    | none => none
    | some (self, p) => Window.collide_axes np face height rest self p

/-- Loop `for _, face := range FACES` of `collide`. -/
def Window.collide_faces (np : Vertex) (height : Int) :
    List Vertex → Window → Vertex → Option (Window × Vertex)
  | [], self, p => some (self, p)
  | face :: rest, self, p =>
    match Window.collide_axes np face height (xrange 0 3 1) self p with
    | none => none
    | some (self, p) => Window.collide_faces np height rest self p

/-- Method `collide`: returns the corrected position together with the window,
whose `dy` the method may have reset. -/
def Window.collide (self : Window) (position : Vertex) (height : Int) :
    Option (Window × Vertex) :=
  let p := position
  let np := normalize position
  Window.collide_faces np height FACES self p

/-- Component `i` of `v` as a total function (`z` for any other index); agrees
with `Vertex.get` on the indices 0, 1, 2. -/
def Vertex.coord (v : Vertex) (i : Int) : ℚ :=
  if i = 0 then v.x else if i = 1 then v.y else v.z

/-- Probe cell of `collide` for face `face`, axis `i` and height slice `dy`:
`np` stepped down by `dy` and outward by the face direction on axis `i`. -/
def probe (np face : Vertex) (i : Int) (dy : Int) : Option Vertex := do
  let op := np
  let op ← op.set 1 ((← op.get 1) - (dy : ℚ))
  op.set i ((← op.get i) + (← face.get i))

/-- What the push-back record guarantees for one entry `(face, i, op)` when the
current position is `p`: `op` is an occupied probe cell of a height slice
`dy ≥ 0`, and coordinate `i` of `p` sits `PAD` away from the rounded coordinate
on the side of the face. -/
def EntryOk (world : Vertex → Option TextureType) (np p : Vertex)
    (e : Vertex × Int × Vertex) : Prop :=
  e.1 ∈ FACES ∧ (e.2.1 = 0 ∨ e.2.1 = 1 ∨ e.2.1 = 2) ∧
    (e.1.coord e.2.1 = 1 ∨ e.1.coord e.2.1 = -1) ∧
    p.coord e.2.1 = np.coord e.2.1 + PAD * e.1.coord e.2.1 ∧
    (∃ dy : Int, 0 ≤ dy ∧ probe np e.1 e.2.1 dy = some e.2.2) ∧
    world e.2.2 ≠ none

/-- Every entry of the push-back record `log` is sound for the position `p`. -/
def LogOk (world : Vertex → Option TextureType) (np p : Vertex)
    (log : List (Vertex × Int × Vertex)) : Prop :=
  ∀ e ∈ log, EntryOk world np p e

/-- Coordinate `i` of `r` lies within the extent `centre ± 0.5` of the block `op`
on axis `i`. -/
def inside_extent (r op : Vertex) (i : Int) : Prop :=
  ∃ ri oi : ℚ, r.get i = some ri ∧ op.get i = some oi ∧ oi - 1 / 2 ≤ ri ∧ ri ≤ oi + 1 / 2

/-- Window standing in the model `m`, at rest at the origin, with an empty
push-back record. -/
def Window.standing (m : Model) : Window :=
  { flying := false, strafe := (0, 0), position := NewVertex 0 0 0, rotation := (0, 0),
    sector := nilVertex, dy := 0, model := m, pushed := [] }

/-- Total form of `Vertex.set`: agrees with it on the indices 0, 1, 2 (any other
index updates `z`). -/
def Vertex.setc (v : Vertex) (i : Int) (f : ℚ) : Vertex :=
  if i = 0 then { v with x := f } else if i = 1 then { v with y := f } else { v with z := f }

/-- First occupied probe cell met by the height loop of `collide` for one face
and one axis, if any. -/
def first_probe (world : Vertex → Option TextureType) (np face : Vertex) (i : Int) :
    List Int → Option Vertex
  | [] => none
  | dy :: rest =>
    match probe np face i dy with
    | none => none
    | some op => if (world op).isNone then first_probe world np face i rest else some op

/-- Window after a push-back for `face` on axis `i` triggered by the probe `op`. -/
def pushed_window (w : Window) (face : Vertex) (i : Int) (op : Vertex) : Window :=
  { (if face = NewVertex 0 (-1) 0 ∨ face = NewVertex 0 1 0 then { w with dy := 0 } else w) with
    pushed := (if face = NewVertex 0 (-1) 0 ∨ face = NewVertex 0 1 0 then { w with dy := 0 }
      else w).pushed ++ [(face, i, op)] }

/-- Effect of the body of `collide` for one face on its own axis `i` (the axis
where the face has a non-zero component), as a total function of the window and
the current position. -/
def push_step (np face : Vertex) (i : Int) (heights : List Int) (s : Window × Vertex) :
    Window × Vertex :=
  let d := (s.2.coord i - np.coord i) * face.coord i
  if d < PAD then s
  else
    match first_probe s.1.model.world np face i heights with
    | none => s
    | some op => (pushed_window s.1 face i op, s.2.setc i (s.2.coord i - (d - PAD) * face.coord i))

/-- Summary of what `collide` does on one axis `i`, whose two faces `fa`, `fb`
are handled in this order, from the state `s` to the state `s2`: `L` is what was
appended to the push-back record, empty or a single entry. -/
structure AxisOutcome (np : Vertex) (hs : List Int) (fa fb : Vertex) (i : Int)
    (s s2 : Window × Vertex) (L : List (Vertex × Int × Vertex)) : Prop where
  model : s2.1.model = s.1.model
  flag : s2.2.isNotNil = s.2.isNotNil
  others : ∀ j : Int, (j = 0 ∨ j = 1 ∨ j = 2) → j ≠ i → s2.2.coord j = s.2.coord j
  pushed : s2.1.pushed = s.1.pushed ++ L
  none_case : L = [] → s2.1.dy = s.1.dy ∧ s2.2.coord i = s.2.coord i ∧
    ∀ f, (f = fa ∨ f = fb) →
      ¬ (PAD ≤ (s.2.coord i - np.coord i) * f.coord i ∧
        ∃ op, first_probe s.1.model.world np f i hs = some op)
  some_case : ∀ e ∈ L, L = [e] ∧ (e.1 = fa ∨ e.1 = fb) ∧ e.2.1 = i ∧
    PAD ≤ (s.2.coord i - np.coord i) * e.1.coord i ∧
    first_probe s.1.model.world np e.1 i hs = some e.2.2 ∧
    s2.1.dy = (if e.1 = NewVertex 0 (-1) 0 ∨ e.1 = NewVertex 0 1 0 then 0 else s.1.dy) ∧
    s2.2.coord i = np.coord i + PAD * e.1.coord i

/-- Facts about axis `i` of the corrected position `r` of `collide(position)`,
`L` being the push-backs recorded for that axis. -/
def AxisFacts (position r : Vertex) (i : Int) (L : List (Vertex × Int × Vertex)) : Prop :=
  |r.coord i - position.coord i| ≤ 1 / 4 ∧ round (r.coord i) = round (position.coord i) ∧
    L.length ≤ 1 ∧
    (∀ e ∈ L, e.2.1 = i ∧ (e.1.coord i = 1 ∨ e.1.coord i = -1) ∧
      r.coord i = round (position.coord i) + PAD * e.1.coord i) ∧
    (L = [] → r.coord i = position.coord i)

/-! ## model.go: sector sweeps -/

/-- Function `PowInt` of `math.go`, `int(math.Pow(float64(x), float64(y)))`: the
exact power for the exponents `y ≥ 0` and the small bases used here. -/
def PowInt (x y : Int) : Int := x ^ y.toNat

/-- Type `VertexSet` (`map[Vertex]bool`), kept as the list of its keys in
insertion order.  A Go `range` over the map visits the keys in an unspecified
order: see `Model.change_sectors_run`. -/
abbrev VertexSet := List Vertex

def NewVertexSet : VertexSet := []

/-- Method `VertexSet.add`: setting a key that is present adds no key. -/
def VertexSet.add (vs : VertexSet) (v : Vertex) : VertexSet :=
  if v ∈ vs then vs else vs ++ [v]

/-- Method `VertexSet.Remove`: the keys of `vs1` that are not keys of `vs2`. -/
def VertexSet.Remove (vs1 vs2 : VertexSet) : VertexSet :=
  vs1.filter fun v => decide (v ∉ vs2)

/-- Body of the loop of `show_sector` for one listed position. -/
def Model.show_sector_step (self : Model) (position : Vertex) : Option Model :=
  if (self.shown position).isNone ∧ self.exposed position = true then
    self.show_block position
  else some self

/-- Loop of `show_sector` over the positions listed for the sector. -/
def Model.show_sector_loop : List Vertex → Model → Option Model
  | [], self => some self
  | position :: rest, self =>
    match self.show_sector_step position with
    | none => none
    | some self => Model.show_sector_loop rest self

def Model.show_sector (self : Model) (sector : Vertex) : Option Model :=
  Model.show_sector_loop ((self.sectors sector).getD []) self

/-- Body of the loop of `hide_sector` for one listed position. -/
def Model.hide_sector_step (self : Model) (position : Vertex) : Option Model :=
  if (self.shown position).isSome then self.hide_block position else some self

/-- Loop of `hide_sector` over the positions listed for the sector. -/
def Model.hide_sector_loop : List Vertex → Model → Option Model
  | [], self => some self
  | position :: rest, self =>
    match self.hide_sector_step position with
    | none => none
    | some self => Model.hide_sector_loop rest self

def Model.hide_sector (self : Model) (sector : Vertex) : Option Model :=
  Model.hide_sector_loop ((self.sectors sector).getD []) self

/-- Loop `for sector := range show { self.show_sector(sector) }`, the sectors
taken in the order of the list. -/
def Model.show_sectors : List Vertex → Model → Option Model
  | [], self => some self
  | sector :: rest, self =>
    match self.show_sector sector with
    | none => none
    | some self => Model.show_sectors rest self

/-- Loop `for sector := range hide { self.hide_sector(sector) }`, the sectors
taken in the order of the list. -/
def Model.hide_sectors : List Vertex → Model → Option Model
  | [], self => some self
  | sector :: rest, self =>
    match self.hide_sector sector with
    | none => none
    | some self => Model.hide_sectors rest self

/-- Body of the inner loop (over `dz`) of `change_sectors`, on the pair
`(before_set, after_set)`. -/
def sector_sets_step (before after : Vertex) (pad dx : Int) (s : VertexSet × VertexSet)
    (dz : Int) : VertexSet × VertexSet :=
  let dy : Int := 0
  if PowInt dx 2 + PowInt dy 2 + PowInt dz 2 > PowInt (pad + 1) 2 then s
  else
    let before_set :=
      if !before.isNil then
        s.1.add (NewVertex (before.x + (dx : ℚ)) (before.y + (dy : ℚ)) (before.z + (dz : ℚ)))
      else s.1
    let after_set :=
      if !after.isNil then
        s.2.add (NewVertex (after.x + (dx : ℚ)) (after.y + (dy : ℚ)) (after.z + (dz : ℚ)))
      else s.2
    (before_set, after_set)

/-- The two nested loops of `change_sectors`: the sets `(before_set, after_set)`. -/
def sector_sets (before after : Vertex) : VertexSet × VertexSet :=
  let pad : Int := 4
  (xrange (-pad) (pad + 1) 1).foldl
    (fun s dx => (xrange (-pad) (pad + 1) 1).foldl (sector_sets_step before after pad dx) s)
    (NewVertexSet, NewVertexSet)

/-- Second half of `change_sectors`, with the iteration orders `show` and `hide`
of the two `range` loops made explicit. -/
def Model.change_sectors_in (self : Model) (show_order hide_order : List Vertex) :
    Option Model :=
  match Model.show_sectors show_order self with
  | none => none
  | some self => Model.hide_sectors hide_order self

/-- Method `change_sectors`, iterating over both sets in insertion order. -/
def Model.change_sectors (self : Model) (before after : Vertex) : Option Model :=
  let sets := sector_sets before after
  let show_set := sets.2.Remove sets.1
  let hide_set := sets.1.Remove sets.2
  self.change_sectors_in show_set hide_set

/-- Every behaviour of `change_sectors`: `result` is what the method yields for
some iteration order of the map `show` and some iteration order of the map
`hide`. -/
def Model.change_sectors_run (self : Model) (before after : Vertex) (result : Option Model) :
    Prop :=
  ∃ show_order hide_order : List Vertex,
    show_order.Perm ((sector_sets before after).2.Remove (sector_sets before after).1) ∧
    hide_order.Perm ((sector_sets before after).1.Remove (sector_sets before after).2) ∧
    result = self.change_sectors_in show_order hide_order

/-- Padded neighbourhood of the sector `c`: the keys `c + (dx, 0, dz)` with
`-4 ≤ dx, dz ≤ 4` and `dx² + dz² ≤ 25`. -/
def in_neighbourhood (c s : Vertex) : Prop :=
  ∃ dx dz : Int, -4 ≤ dx ∧ dx ≤ 4 ∧ -4 ≤ dz ∧ dz ≤ 4 ∧ dx ^ 2 + dz ^ 2 ≤ 25 ∧
    s = NewVertex (c.x + (dx : ℚ)) (c.y + 0) (c.z + (dz : ℚ))

/-- A sweep from `m` to `m'` left the world and the sector lists alone, and the
shown status and drawable of every position outside `touched`. -/
structure Frame (m m' : Model) (touched : Vertex → Prop) : Prop where
  world : m'.world = m.world
  sectors : m'.sectors = m.sectors
  keep : ∀ q, ¬ touched q → m'.shown q = m.shown q ∧ m'._shown q = m._shown q

/-- Position `q` is listed in one of the sectors of `L`. -/
def listed (m : Model) (L : List Vertex) (q : Vertex) : Prop :=
  ∃ s ∈ L, q ∈ (m.sectors s).getD []

/-- State after `add_block((80,0,0), STONE)` on the empty model: one block, listed
under the sector key `(5, 0, 0)`. -/
def far_block : Model :=
  (Model.empty.add_block (NewVertex 80 0 0) STONE).getD Model.empty

/-- State of `one_block` after `change_sectors((0,0,0), nil)`: the block
`(0,0,0)` is still listed under the sector `(0,0,0)` and exposed, but hidden. -/
def hidden_block : Model :=
  (one_block.change_sectors (NewVertex 0 0 0) nilVertex).getD Model.empty

/-! ## model.go: world generation -/

/-- State of the pseudo-random source of `math/rand` (external): an arbitrary
stream of naturals still to be drawn. -/
abbrev Rand := Nat → Nat

/-- Function `rand.Intn(n)` (external): panics for `n ≤ 0`, otherwise yields a
value of `[0, n)` and advances the source.  Every value of `[0, n)` is the
outcome for some stream. -/
def rand_Intn (g : Rand) (n : Int) : Option (Int × Rand) :=
  if n ≤ 0 then none else some (((g 0 : Nat) : Int) % n, fun k => g (k + 1))

def random_randint (g : Rand) (start stop : Int) : Option (Int × Rand) :=
  match rand_Intn g (stop - start) with
  | none => none
  | some (v, g) => some (v + start, g)

/-- Function `random_choice`; `none` is the index-out-of-range panic of `types[n]`. -/
def random_choice (g : Rand) (types : List TextureType) : Option (TextureType × Rand) :=
  match random_randint g 0 (types.length : Int) with
  | none => none
  | some (n, g) =>
    match types.get? n.toNat with
    | none => none
    | some t => some (t, g)

/-- Loop `for _, a := range l { body }` over a state that the body may fail to
return. -/
def for_each {α σ : Type} (f : α → σ → Option σ) : List α → σ → Option σ
  | [], s => some s
  | a :: rest, s =>
    match f a s with
    | none => none
    | some s => for_each f rest s

/-- Body of the `dy` loop of `build_world` that raises the outer wall. -/
def Model.build_wall (x y z : Int) (self : Model) : Option Model :=
  for_each (fun dy (m : Model) => m.add_block (NewVertexInt x (y + dy) z) STONE)
    (xrange (-2) 3 1) self

/-- Body of the first double loop of `build_world` for one column `(x, z)`. -/
def Model.build_column (n y x z : Int) (self : Model) : Option Model :=
  match self.add_block (NewVertexInt x (y - 2) z) GRASS with
  | none => none
  | some self =>
    match self.add_block (NewVertexInt x (y - 3) z) STONE with
    | none => none
    | some self =>
      if x = -n ∨ x = n ∨ z = -n ∨ z = n then self.build_wall x y z else some self

/-- First double loop of `build_world`: floor layers and outer walls. -/
def Model.build_floor (n s y : Int) (self : Model) : Option Model :=
  for_each (fun x (m : Model) =>
      for_each (fun z (m : Model) => m.build_column n y x z) (xrange (-n) (n + 1) s) m)
    (xrange (-n) (n + 1) s) self

/-- Body of the innermost loop of the hill generation. -/
def Model.hill_cell (a b s y x z : Int) (t : TextureType) (self : Model) : Option Model :=
  if PowInt (x - a) 2 + PowInt (z - b) 2 > PowInt (s + 1) 2 then some self
  else if PowInt (x - 0) 2 + PowInt (z - 0) 2 < PowInt 5 2 then some self
  else self.add_block (NewVertexInt x y z) t

/-- One layer `y` of a hill of half side `s`. -/
def Model.hill_layer (a b s y : Int) (t : TextureType) (self : Model) : Option Model :=
  for_each (fun x (m : Model) =>
      for_each (fun z (m : Model) => m.hill_cell a b s y x z t) (xrange (b - s) (b + s + 1) 1) m)
    (xrange (a - s) (a + s + 1) 1) self

/-- Loop over the layers `y` of one hill; `s` shrinks by `d` after each layer. -/
def Model.hill_layers (a b d : Int) (t : TextureType) : List Int → Int → Model → Option Model
  | [], _, self => some self
  | y :: rest, s, self =>
    match self.hill_layer a b s y t with
    | none => none
    | some self => Model.hill_layers a b d t rest (s - d) self

/-- Body of the loop over the 120 hills: five draws from the random source, then
the layers. -/
def Model.build_hill (o : Int) (st : Rand × Model) : Option (Rand × Model) :=
  match random_randint st.1 (-o) o with
  | none => none
  | some (a, g) =>
    match random_randint g (-o) o with
    | none => none
    | some (b, g) =>
      let c : Int := -1
      match random_randint g 1 6 with
      | none => none
      | some (h, g) =>
        match random_randint g 4 8 with
        | none => none
        | some (s, g) =>
          let d : Int := 1
          match random_choice g [GRASS, SAND, BRICK] with
          | none => none
          | some (t, g) =>
            match Model.hill_layers a b d t (xrange c (c + h) 1) s st.2 with
            | none => none
            | some self => some (g, self)

/-- Method `build_world`, on a model and a state of the random source. -/
def Model.build_world (self : Model) (g : Rand) : Option (Rand × Model) :=
  let n : Int := 80
  let s : Int := 1
  let y : Int := 0
  match self.build_floor n s y with
  | none => none
  | some self =>
    let o := n - 10
    for_each (fun (_ : Int) st => Model.build_hill o st) (xrange 0 120 1) (g, self)

/-- Function `NewModel`: the empty maps, then `build_world`. -/
def NewModel (g : Rand) : Option (Rand × Model) := Model.empty.build_world g

/-- Positions the floor-and-wall loop of `build_world` may write: the two base
layers and the columns of the perimeter. -/
def FloorW (q : Vertex) : Prop :=
  q.y = -2 ∨ q.y = -3 ∨ q.x = -80 ∨ q.x = 80 ∨ q.z = -80 ∨ q.z = 80

/-- Positions the hill loop of `build_world` may write. -/
def HillW (q : Vertex) : Prop :=
  -1 ≤ q.y ∧ 25 ≤ q.x ^ 2 + q.z ^ 2 ∧ -80 < q.x ∧ q.x < 80 ∧ -80 < q.z ∧ q.z < 80

/-- Content of the column `(x, z)` right after the floor-and-wall loop. -/
def ColSpec (x z : Int) (w : Vertex → Option TextureType) : Prop :=
  w (NewVertexInt x (-3) z) = some STONE ∧
  ((-80 < x ∧ x < 80 ∧ -80 < z ∧ z < 80) → w (NewVertexInt x (-2) z) = some GRASS) ∧
  ((x = -80 ∨ x = 80 ∨ z = -80 ∨ z = 80) →
    ∀ y : Int, -2 ≤ y → y ≤ 2 → w (NewVertexInt x y z) = some STONE)

/-- The worlds of two models agree outside the set `W`. -/
def SameOff (W : Vertex → Prop) (m m' : Model) : Prop :=
  ∀ q, ¬ W q → m'.world q = m.world q

/-! ## window.go: motion, gravity and the update loop -/

def WALKING_SPEED : ℚ := 5

def FLYING_SPEED : ℚ := 15

def GRAVITY : ℚ := 20

def TERMINAL_VELOCITY : ℚ := 50

def PLAYER_HEIGHT : Int := 2

/-- Method `get_motion_vector`.  With a non-zero strafe the source computes the
vector with `math.Atan2`, `math.Cos` and `math.Sin` (external); `motion` stands
for that branch.  Without strafe input the vector is zero. -/
def Window.get_motion_vector (motion : Window → Vertex) (self : Window) : Vertex :=
  if self.strafe.1 ≠ 0 ∨ self.strafe.2 ≠ 0 then motion self else NewVertex 0 0 0

/-- Method `_update`: one sub-step of motion, gravity and collision. -/
def Window._update (motion : Window → Vertex) (self : Window) (dt : ℚ) : Option Window :=
  let speed : ℚ := if self.flying then FLYING_SPEED else WALKING_SPEED
  let d := dt * speed
  let dv := self.get_motion_vector motion
  let dx := dv.x * d
  let dy := dv.y * d
  let dz := dv.z * d
  let self1 : Window :=
    if !self.flying then
      { self with dy := max (self.dy - dt * GRAVITY) (-TERMINAL_VELOCITY) }
    else self
  let dy := if !self.flying then dy + self1.dy * dt else dy
  match self1.collide (NewVertex (self1.position.x + dx) (self1.position.y + dy)
      (self1.position.z + dz)) PLAYER_HEIGHT with
  | none => none
  | some (self2, p) => some { self2 with position := p }

/-- Method `update` cut after the first `r` iterations of its loop (all of it
for `r ≥ 8`): the state a sub-step leaves behind. -/
def Window.update_steps (motion : Window → Vertex) (self : Window) (dt : ℚ) (r : Nat) :
    Option Window :=
  let sector := sectorize self.position
  let self := if sector ≠ self.sector then { self with sector := sector } else self
  let m : Int := 8
  let dt := min dt (1 / 5)
  for_each (fun (_ : Int) (w : Window) => w._update motion (dt / (m : ℚ)))
    ((xrange 0 m 1).take r) self

/-- Method `update`. -/
def Window.update (motion : Window → Vertex) (self : Window) (dt : ℚ) : Option Window :=
  let sector := sectorize self.position
  let self := if sector ≠ self.sector then { self with sector := sector } else self
  let m : Int := 8
  let dt := min dt (1 / 5)
  for_each (fun (_ : Int) (w : Window) => w._update motion (dt / (m : ℚ)))
    (xrange 0 m 1) self

/-- Repeated calls `update(dt)`, `k` of them. -/
def Window.updates (motion : Window → Vertex) (dt : ℚ) : Nat → Window → Option Window
  | 0, w => some w
  | k + 1, w =>
    match w.update motion dt with
    | none => none
    | some w => Window.updates motion dt k w

/-- Height of a body in free fall from `y = 5` at rest after `j` sub-steps of
length `h` of `_update`. -/
def fall_y (h : ℚ) (j : Nat) : ℚ := 5 - 10 * h ^ 2 * (j : ℚ) * ((j : ℚ) + 1)

/-- The fields of a non-flying window without strafe input that the fall reads
and writes: the model, the position `(x, y, z)` and the vertical velocity `v`. -/
structure Falling (m : Model) (x z y v : ℚ) (w : Window) : Prop where
  flying : w.flying = false
  strafe : w.strafe = (0, 0)
  model : w.model = m
  position : w.position = NewVertex x y z
  dy : w.dy = v

/-- State of the fall after `j` sub-steps of length `h`: still in free fall above
`y = 3/4`, or at rest at `y = 3/4`. -/
def FallState (m : Model) (x z h : ℚ) (j : Nat) (w : Window) : Prop :=
  (Falling m x z (fall_y h j) (-(20 * h * (j : ℚ))) w ∧ 3 / 4 < fall_y h j) ∨
    Falling m x z (3 / 4) 0 w

/-- World of the collision scenario: STONE at every integer position
`(x, -1, z)` with `|x|, |z| ≤ 80` and nothing else.  Only the `world` map, the
one map `update` reads, is filled. -/
def flat_floor : Model :=
  { Model.empty with
    world := fun q =>
      if q.isNotNil = true ∧ q.y = -1 ∧ q.x.den = 1 ∧ q.z.den = 1 ∧
          |q.x| ≤ 80 ∧ |q.z| ≤ 80 then some STONE
      else none }

/-- Entity of the collision scenario: not flying, no strafe input, at `y = 5`
with zero vertical velocity. -/
def Window.falling (m : Model) : Window :=
  { Window.standing m with position := NewVertex 0 5 0 }

/-! ## Showing and hiding one block -/

theorem draw_cube (p : Vertex) (t : TextureType) :
    CallList.draw (cube_vertices p (1 / 2)) (textures t) = some (block_display p t) := by
  cases t <;> rfl

theorem show_block_eq (m : Model) (key : Vertex) :
    m.show_block key = some (show_result m key) := by
  simp only [Model.show_block, Model._show_block, Batch.add, NewCallList, draw_cube]
  rfl

theorem hide_block_eq (m : Model) (key : Vertex) (c : CallList)
    (hc : m._shown key = some c) (hp : c.parent = some ()) (hmem : c ∈ m.batch.lists) :
    m.hide_block key = some (hide_result m key c) := by
  have hany : (m.batch.lists.any fun bvl1 => decide (c.list_index = bvl1.list_index)) = true := by
    simp only [List.any_eq_true, decide_eq_true_eq]
    exact ⟨c, hmem, rfl⟩
  simp only [Model.hide_block, Model._hide_block, hc, Option.getD_some, CallList.delete, hp, hany,
    if_true]
  rfl

theorem hide_block_none (m : Model) (key : Vertex) (hc : m._shown key = none) :
    m.hide_block key = none := by
  simp [Model.hide_block, Model._hide_block, hc, CallList.delete, CallList.zero]

theorem eraseP_index_ne (c : CallList) :
    ∀ (l : List CallList), (l.map CallList.list_index).Nodup → c ∈ l →
      ∀ x ∈ l.eraseP (fun bvl1 => c.list_index = bvl1.list_index),
        x.list_index ≠ c.list_index := by
  intro l
  induction l with
  | nil => intro _ hc; simp at hc
  | cons a l ih =>
    intro hnd hc x hx
    rw [List.map_cons, List.nodup_cons] at hnd
    by_cases ha : c.list_index = a.list_index
    · rw [List.eraseP_cons_of_pos (by simpa using ha)] at hx
      intro hxc
      apply hnd.1
      rw [← ha, ← hxc]
      exact List.mem_map_of_mem _ hx
    · rw [List.eraseP_cons_of_neg (by simpa using ha)] at hx
      have hc' : c ∈ l := by
        rcases List.mem_cons.1 hc with h | h
        · exact absurd (by rw [h]) ha
        · exact h
      rcases List.mem_cons.1 hx with h | h
      · rw [h]; exact fun e => ha e.symm
      · exact ih hnd.2 hc' x h

theorem RenderOk.after_show {m : Model} (h : RenderOk m) (key : Vertex) (hk : m._shown key = none) :
    RenderOk (show_result m key) := by
  have hfresh : ∀ q c, m._shown q = some c → c.list_index ≠ m.gl.next_list := by
    intro q c hq
    exact Nat.ne_of_lt (h.fresh c (h.handle q c hq).2.1)
  refine ⟨?_, ?_, ?_, ?_, ?_, ?_⟩
  · intro q
    by_cases hq : q = key
    · subst hq; simp [show_result]
    · simpa [show_result, Function.update_noteq hq] using h.keys q
  · intro q c hc
    by_cases hq : q = key
    · subst hq
      simp only [show_result, Function.update_same, Option.some.injEq] at hc
      subst hc
      simp [show_result]
    · simp only [show_result, Function.update_noteq hq] at hc
      obtain ⟨h1, h2, t, h3⟩ := h.handle q c hc
      refine ⟨h1, ?_, t, ?_⟩
      · simp [show_result, h2]
      · simp only [show_result, Function.update_noteq (hfresh q c hc)]
        exact h3
  · simp only [show_result, List.map_append, List.map_cons, List.map_nil]
    rw [List.nodup_append]
    refine ⟨h.nodup, List.nodup_singleton _, ?_⟩
    intro a ha hb
    simp only [List.mem_singleton] at hb
    obtain ⟨c, hc, rfl⟩ := List.mem_map.1 ha
    exact absurd hb (Nat.ne_of_lt (h.fresh c hc))
  · intro c hc
    simp only [show_result, List.mem_append, List.mem_singleton] at hc
    rcases hc with hc | hc
    · obtain ⟨q, hq⟩ := h.owned c hc
      have hne : q ≠ key := by
        intro e; rw [e, hk] at hq; exact Option.noConfusion hq
      exact ⟨q, by simp [show_result, Function.update_noteq hne, hq]⟩
    · exact ⟨key, by simp [show_result, hc]⟩
  · intro c hc
    simp only [show_result, List.mem_append, List.mem_singleton] at hc
    rcases hc with hc | hc
    · exact Nat.lt_succ_of_lt (h.fresh c hc)
    · subst hc; exact Nat.lt_succ_self _
  · intro q q' c c' hq hq' hidx
    by_cases e : q = key <;> by_cases e' : q' = key
    · rw [e, e']
    · exfalso
      subst e
      simp only [show_result, Function.update_same, Option.some.injEq] at hq
      simp only [show_result, Function.update_noteq e'] at hq'
      subst hq
      exact hfresh q' c' hq' hidx.symm
    · exfalso
      subst e'
      simp only [show_result, Function.update_same, Option.some.injEq] at hq'
      simp only [show_result, Function.update_noteq e] at hq
      subst hq'
      exact hfresh q c hq hidx
    · simp only [show_result, Function.update_noteq e] at hq
      simp only [show_result, Function.update_noteq e'] at hq'
      exact h.inj q q' c c' hq hq' hidx

theorem RenderOk.after_hide {m : Model} (h : RenderOk m) (key : Vertex) (c : CallList)
    (hk : m._shown key = some c) : RenderOk (hide_result m key c) := by
  have hcmem : c ∈ m.batch.lists := (h.handle key c hk).2.1
  refine ⟨?_, ?_, ?_, ?_, ?_, ?_⟩
  · intro q
    by_cases hq : q = key
    · subst hq; simp [hide_result]
    · simpa [hide_result, Function.update_noteq hq] using h.keys q
  · intro q c' hc'
    by_cases hq : q = key
    · subst hq; simp [hide_result] at hc'
    · simp only [hide_result, Function.update_noteq hq] at hc'
      obtain ⟨h1, h2, h3⟩ := h.handle q c' hc'
      refine ⟨h1, ?_, h3⟩
      have hne : ¬ c.list_index = c'.list_index := fun e => hq (h.inj q key c' c hc' hk e.symm)
      simp only [hide_result]
      rw [List.mem_eraseP_of_neg (by simpa using hne)]
      exact h2
  · simp only [hide_result]
    exact h.nodup.sublist ((List.eraseP_sublist _).map _)
  · intro c' hc'
    simp only [hide_result] at hc'
    have hidx := eraseP_index_ne c m.batch.lists h.nodup hcmem c' hc'
    obtain ⟨q, hq⟩ := h.owned c' (List.mem_of_mem_eraseP hc')
    have hne : q ≠ key := by
      intro e; rw [e, hk] at hq
      exact hidx (by rw [Option.some.inj hq])
    exact ⟨q, by simp [hide_result, Function.update_noteq hne, hq]⟩
  · intro c' hc'
    simp only [hide_result] at hc'
    exact h.fresh c' (List.mem_of_mem_eraseP hc')
  · intro q q' c1 c2 hq hq' hidx
    by_cases e : q = key
    · subst e; simp [hide_result] at hq
    by_cases e' : q' = key
    · subst e'; simp [hide_result] at hq'
    simp only [hide_result, Function.update_noteq e] at hq
    simp only [hide_result, Function.update_noteq e'] at hq'
    exact h.inj q q' c1 c2 hq hq' hidx

/-! ## Exposure depends on the six neighbours only -/

theorem exposed_congr {m m' : Model} (h : m'.world = m.world) (q : Vertex) :
    m'.exposed q = m.exposed q := by
  simp only [Model.exposed, h]

theorem nb_ne_self (p d : Vertex) (hd : d ∈ FACES) : nb p d ≠ p := by
  intro h
  have hx : p.x + d.x = p.x := congrArg Vertex.x h
  have hy : p.y + d.y = p.y := congrArg Vertex.y h
  have hz : p.z + d.z = p.z := congrArg Vertex.z h
  simp only [FACES, List.mem_cons, List.mem_singleton, List.not_mem_nil, or_false] at hd
  rcases hd with rfl | rfl | rfl | rfl | rfl | rfl <;>
    simp [NewVertex] at hx hy hz

theorem nb_symm (p q d : Vertex) (hq : q.isNotNil = true) (hd : d ∈ FACES)
    (h : nb q d = p) : ∃ d' ∈ FACES, q = nb p d' := by
  obtain ⟨qx, qy, qz, qn⟩ := q
  simp only at hq
  subst hq
  subst h
  simp only [FACES, List.mem_cons, List.mem_singleton, List.not_mem_nil, or_false] at hd
  rcases hd with rfl | rfl | rfl | rfl | rfl | rfl
  · exact ⟨NewVertex 0 (-1) 0, by simp [FACES], by simp [nb, NewVertex]⟩
  · exact ⟨NewVertex 0 1 0, by simp [FACES], by simp [nb, NewVertex]⟩
  · exact ⟨NewVertex 1 0 0, by simp [FACES], by simp [nb, NewVertex]⟩
  · exact ⟨NewVertex (-1) 0 0, by simp [FACES], by simp [nb, NewVertex]⟩
  · exact ⟨NewVertex 0 0 (-1), by simp [FACES], by simp [nb, NewVertex]⟩
  · exact ⟨NewVertex 0 0 1, by simp [FACES], by simp [nb, NewVertex]⟩

theorem exposed_update {m m' : Model} (p : Vertex) (v : Option TextureType)
    (h : m'.world = Function.update m.world p v) (q : Vertex)
    (hq : ∀ d ∈ FACES, nb q d ≠ p) : m'.exposed q = m.exposed q := by
  rw [Bool.eq_iff_iff]
  simp only [Model.exposed, h, List.any_eq_true]
  constructor
  · rintro ⟨d, hd, hx⟩
    exact ⟨d, hd, by rwa [Function.update_noteq (hq d hd)] at hx⟩
  · rintro ⟨d, hd, hx⟩
    exact ⟨d, hd, by rwa [Function.update_noteq (hq d hd)]⟩

/-! ## One step of `check_neighbors` -/

theorem BatchMono.refl (m : Model) : BatchMono m m :=
  ⟨Nat.le_refl _, fun _ hc => Or.inl hc⟩

theorem BatchMono.trans {m1 m2 m3 : Model} (h12 : BatchMono m1 m2) (h23 : BatchMono m2 m3) :
    BatchMono m1 m3 := by
  refine ⟨Nat.le_trans h12.next_le h23.next_le, ?_⟩
  intro c hc
  rcases h23.batch c hc with h | h
  · exact h12.batch c h
  · exact Or.inr (Nat.le_trans h12.next_le h)

theorem BatchMono.of_show (m : Model) (key : Vertex) : BatchMono m (show_result m key) := by
  refine ⟨Nat.le_succ _, ?_⟩
  intro c hc
  simp only [show_result, List.mem_append, List.mem_singleton] at hc
  rcases hc with hc | hc
  · exact Or.inl hc
  · subst hc; exact Or.inr (Nat.le_refl _)

theorem BatchMono.of_hide (m : Model) (key : Vertex) (c : CallList) :
    BatchMono m (hide_result m key c) :=
  ⟨Nat.le_refl _, fun _ hx => Or.inl (List.mem_of_mem_eraseP hx)⟩

theorem check_neighbor_spec (m : Model) (p d : Vertex) (hr : RenderOk m) (hs : SubWorld m) :
    ∃ m', m.check_neighbor p d = some m' ∧ RenderOk m' ∧ SubWorld m' ∧
      m'.world = m.world ∧ m'.sectors = m.sectors ∧ BatchMono m m' ∧
      GoodAt m' (nb p d) ∧
      (∀ q, q ≠ nb p d → m'.shown q = m.shown q ∧ m'._shown q = m._shown q) := by
  unfold Model.check_neighbor
  simp only []
  by_cases hw : m.world (nb p d) = none
  · refine ⟨m, by simp [hw], hr, hs, rfl, rfl, BatchMono.refl m, ?_, fun _ _ => ⟨rfl, rfl⟩⟩
    have hsh : m.shown (nb p d) = none := by
      cases h : m.shown (nb p d) with
      | none => rfl
      | some t => rw [hs _ t h] at hw; exact Option.noConfusion hw
    simp [GoodAt, hw, hsh]
  · obtain ⟨t, ht⟩ := Option.ne_none_iff_exists'.1 hw
    by_cases he : m.exposed (nb p d) = true
    · cases hsh : m.shown (nb p d) with
      | none =>
        have hk : m._shown (nb p d) = none := (hr.keys _).2 hsh
        refine ⟨show_result m (nb p d), ?_, hr.after_show _ hk, ?_, rfl, rfl, BatchMono.of_show m _, ?_, ?_⟩
        · simp [ht, he, hsh, show_block_eq]
        · intro q t' hq
          by_cases e : q = nb p d
          · subst e
            simp only [show_result, Function.update_same, ht, Option.getD_some] at hq
            simpa [show_result, ht] using hq
          · simp only [show_result, Function.update_noteq e] at hq
            exact hs q t' hq
        · have he' : (show_result m (nb p d)).exposed (nb p d) = true := by
            rw [@exposed_congr m (show_result m (nb p d)) rfl _]; exact he
          simp only [GoodAt, he', if_true]
          simp [show_result, ht]
        · intro q hq
          simp [show_result, Function.update_noteq hq]
      | some t' =>
        refine ⟨m, by simp [ht, he, hsh], hr, hs, rfl, rfl, BatchMono.refl m, ?_,
          fun _ _ => ⟨rfl, rfl⟩⟩
        simp only [GoodAt, he, if_true, hsh]
        exact (hs _ t' hsh).symm
    · cases hsh : m.shown (nb p d) with
      | none =>
        refine ⟨m, by simp [ht, he, hsh], hr, hs, rfl, rfl, BatchMono.refl m, ?_,
          fun _ _ => ⟨rfl, rfl⟩⟩
        simp [GoodAt, he, hsh]
      | some t' =>
        have hk : m._shown (nb p d) ≠ none := by
          intro hk; rw [(hr.keys _).1 hk] at hsh; exact Option.noConfusion hsh
        obtain ⟨c, hc⟩ := Option.ne_none_iff_exists'.1 hk
        obtain ⟨hp, hmem, _⟩ := hr.handle _ c hc
        refine ⟨hide_result m (nb p d) c, ?_, hr.after_hide _ c hc, ?_, rfl, rfl,
          BatchMono.of_hide m _ c, ?_, ?_⟩
        · simp [ht, he, hsh, hide_block_eq m _ c hc hp hmem]
        · intro q t'' hq
          by_cases e : q = nb p d
          · subst e; simp [hide_result] at hq
          · simp only [hide_result, Function.update_noteq e] at hq
            exact hs q t'' hq
        · have he' : ¬ (hide_result m (nb p d) c).exposed (nb p d) = true := by
            rw [@exposed_congr m (hide_result m (nb p d) c) rfl _]; exact he
          simp only [GoodAt, he', if_false]
          simp [hide_result]
        · intro q hq
          simp [hide_result, Function.update_noteq hq]

theorem GoodAt.congr {m m' : Model} (q : Vertex) (hw : m'.world = m.world)
    (hs : m'.shown q = m.shown q) (h : GoodAt m q) : GoodAt m' q := by
  unfold GoodAt at *
  rw [hs, exposed_congr hw, hw]
  exact h

theorem check_neighbor_noop (m : Model) (p d : Vertex) (h : GoodAt m (nb p d)) :
    m.check_neighbor p d = some m := by
  unfold GoodAt at h
  unfold Model.check_neighbor
  simp only []
  cases hw : m.world (nb p d) with
  | none => simp
  | some t =>
    by_cases he : m.exposed (nb p d) = true
    · rw [if_pos he, hw] at h
      simp [he, h]
    · rw [if_neg he] at h
      simp [he, h]

theorem check_neighbors_loop_noop (p : Vertex) (m : Model) :
    ∀ l : List Vertex, (∀ d ∈ l, GoodAt m (nb p d)) →
      Model.check_neighbors_loop p l m = some m := by
  intro l
  induction l with
  | nil => intro _; rfl
  | cons d l ih =>
    intro h
    simp only [Model.check_neighbors_loop, check_neighbor_noop m p d (h d (List.mem_cons_self _ _))]
    exact ih (fun d' hd' => h d' (List.mem_cons_of_mem _ hd'))

theorem check_neighbors_loop_spec (p : Vertex) :
    ∀ (l : List Vertex) (m : Model), RenderOk m → SubWorld m →
      ∃ m', Model.check_neighbors_loop p l m = some m' ∧ RenderOk m' ∧ SubWorld m' ∧
        m'.world = m.world ∧ m'.sectors = m.sectors ∧ BatchMono m m' ∧
        (∀ d ∈ l, GoodAt m' (nb p d)) ∧ (∀ q, GoodAt m q → GoodAt m' q) ∧
        (∀ q, (∀ d ∈ l, q ≠ nb p d) → m'.shown q = m.shown q ∧ m'._shown q = m._shown q) := by
  intro l
  induction l with
  | nil =>
    intro m hr hs
    exact ⟨m, rfl, hr, hs, rfl, rfl, BatchMono.refl m, fun _ hd => by simp at hd,
      fun _ h => h, fun _ _ => ⟨rfl, rfl⟩⟩
  | cons d l ih =>
    intro m hr hs
    obtain ⟨m1, h1, hr1, hs1, hw1, hsec1, hb1, hg1, hsame1⟩ := check_neighbor_spec m p d hr hs
    obtain ⟨m2, h2, hr2, hs2, hw2, hsec2, hb2, hg2, hpres2, hsame2⟩ := ih m1 hr1 hs1
    have hpres1 : ∀ q, GoodAt m q → GoodAt m1 q := by
      intro q hq
      by_cases e : q = nb p d
      · rw [e]; exact hg1
      · exact GoodAt.congr q hw1 (hsame1 q e).1 hq
    refine ⟨m2, ?_, hr2, hs2, hw2.trans hw1, hsec2.trans hsec1, hb1.trans hb2, ?_, ?_, ?_⟩
    · simp only [Model.check_neighbors_loop, h1]
      exact h2
    · intro d' hd'
      rcases List.mem_cons.1 hd' with e | hmem
      · rw [e]; exact hpres2 _ hg1
      · exact hg2 d' hmem
    · exact fun q hq => hpres2 q (hpres1 q hq)
    · intro q hq
      have hq1 := hsame1 q (hq d (List.mem_cons_self _ _))
      have hq2 := hsame2 q (fun d' hd' => hq d' (List.mem_cons_of_mem _ hd'))
      exact ⟨hq2.1.trans hq1.1, hq2.2.trans hq1.2⟩

/-- After the world changed at `p` only, `check_neighbors(p)` makes every block current again. -/
theorem check_neighbors_spec (m : Model) (p : Vertex) (hr : RenderOk m) (hs : SubWorld m)
    (hn : ∀ q, m.world q ≠ none → q.isNotNil = true)
    (hg : ∀ q, (∀ d ∈ FACES, nb q d ≠ p) → GoodAt m q) :
    ∃ m', m.check_neighbors p = some m' ∧ RenderOk m' ∧ (∀ q, GoodAt m' q) ∧
      m'.world = m.world ∧ m'.sectors = m.sectors ∧ BatchMono m m' ∧
      (∀ q, (∀ d ∈ FACES, q ≠ nb p d) → m'.shown q = m.shown q ∧ m'._shown q = m._shown q) := by
  obtain ⟨m', h, hr', hs', hw, hsec, hb, hg', hpres, hsame⟩ :=
    check_neighbors_loop_spec p FACES m hr hs
  refine ⟨m', h, hr', ?_, hw, hsec, hb, hsame⟩
  intro q
  by_cases hq : ∃ d ∈ FACES, q = nb p d
  · obtain ⟨d, hd, rfl⟩ := hq
    exact hg' d hd
  · by_cases hwq : m.world q = none
    · have hsh : m'.shown q = none := by
        cases h' : m'.shown q with
        | none => rfl
        | some t => rw [← hw, hs' q t h'] at hwq; exact Option.noConfusion hwq
      simp [GoodAt, hsh, hw, hwq]
    · apply hpres q
      apply hg q
      intro d hd hnd
      obtain ⟨d', hd', e⟩ := nb_symm p q d (hn q hwq) hd hnd
      exact hq ⟨d', hd', e⟩

/-! ## `remove_block` and `add_block` keep the invariant -/

theorem remove_block_eq (m : Model) (p : Vertex) :
    m.remove_block p =
      match (if ((remove_ws m p).shown p).isSome then (remove_ws m p).hide_block p
             else some (remove_ws m p)) with
      | none => none
      | some s => s.check_neighbors p := rfl

theorem add_block_eq (m : Model) (p : Vertex) (t : TextureType) :
    m.add_block p t =
      match (if (m.world p).isSome then m.remove_block p else some m) with
      | none => none
      | some m0 =>
        match (if (add_ws m0 p t).exposed p then (add_ws m0 p t).show_block p
               else some (add_ws m0 p t)) with
        | none => none
        | some s => s.check_neighbors p := rfl

theorem remove_ws_frame (m : Model) (p : Vertex) :
    (remove_ws m p).world = Function.update m.world p none ∧
      (remove_ws m p).shown = m.shown ∧ (remove_ws m p)._shown = m._shown ∧
      (remove_ws m p).batch = m.batch ∧ (remove_ws m p).gl = m.gl := by
  unfold remove_ws
  simp only []
  split <;> exact ⟨rfl, rfl, rfl, rfl, rfl⟩

theorem add_ws_frame (m : Model) (p : Vertex) (t : TextureType) :
    (add_ws m p t).world = Function.update m.world p (some t) ∧
      (add_ws m p t).shown = m.shown ∧ (add_ws m p t)._shown = m._shown ∧
      (add_ws m p t).batch = m.batch ∧ (add_ws m p t).gl = m.gl := by
  unfold add_ws
  simp only []
  split <;> exact ⟨rfl, rfl, rfl, rfl, rfl⟩

theorem RenderOk.transfer {m m' : Model} (h : RenderOk m) (h1 : m'.shown = m.shown)
    (h2 : m'._shown = m._shown) (h3 : m'.batch = m.batch) (h4 : m'.gl = m.gl) :
    RenderOk m' := by
  refine ⟨?_, ?_, ?_, ?_, ?_, ?_⟩
  · rw [h1, h2]; exact h.keys
  · rw [h2, h3, h4]; exact h.handle
  · rw [h3]; exact h.nodup
  · rw [h2, h3]; exact h.owned
  · rw [h3, h4]; exact h.fresh
  · rw [h2]; exact h.inj

theorem remove_ws_sectors (m : Model) (p : Vertex) (h : SectorsOk m) :
    SectorsOk (remove_ws m p) := by
  intro s q
  have hcp := h (sectorize p) p
  have hw : (remove_ws m p).world = Function.update m.world p none := (remove_ws_frame m p).1
  rw [hw]
  by_cases hmem : p ∈ (m.sectors (sectorize p)).getD []
  · have hsec : (remove_ws m p).sectors = Function.update m.sectors (sectorize p)
        (some (((m.sectors (sectorize p)).getD []).erase p)) := by
      unfold remove_ws; simp only []; rw [if_pos hmem]
    rw [hsec]
    by_cases hs : s = sectorize p
    · subst hs
      rw [Function.update_same, Option.getD_some]
      by_cases hq : q = p
      · subst hq
        rw [List.count_erase_self, Function.update_same]
        have : List.count q ((m.sectors (sectorize q)).getD []) ≤ 1 := by
          rw [hcp]; split <;> simp
        simp only [ne_eq, not_true_eq_false, false_and, if_false]
        omega
      · rw [List.count_erase_of_ne hq, Function.update_noteq hq]
        exact h (sectorize p) q
    · rw [Function.update_noteq hs]
      by_cases hq : q = p
      · subst hq
        rw [Function.update_same, h s q]
        simp [hs]
      · rw [Function.update_noteq hq]
        exact h s q
  · have hsec : (remove_ws m p).sectors = m.sectors := by
      unfold remove_ws; simp only []; rw [if_neg hmem]
    rw [hsec]
    by_cases hq : q = p
    · subst hq
      rw [Function.update_same]
      simp only [ne_eq, not_true_eq_false, false_and, if_false]
      by_cases hs : s = sectorize q
      · subst hs; exact List.count_eq_zero_of_not_mem hmem
      · rw [h s q]; simp [hs]
    · rw [Function.update_noteq hq]
      exact h s q

theorem add_ws_sectors (m : Model) (p : Vertex) (t : TextureType) (h : SectorsOk m)
    (hp : m.world p = none) : SectorsOk (add_ws m p t) := by
  intro s q
  have hw : (add_ws m p t).world = Function.update m.world p (some t) := (add_ws_frame m p t).1
  have hsec : (add_ws m p t).sectors = Function.update m.sectors (sectorize p)
      (some (((m.sectors (sectorize p)).getD []) ++ [p])) := by
    unfold add_ws; simp only []
    cases hl : m.sectors (sectorize p) <;> simp
  rw [hw, hsec]
  by_cases hs : s = sectorize p
  · subst hs
    rw [Function.update_same, Option.getD_some, List.count_append, h (sectorize p) q]
    by_cases hq : q = p
    · subst hq
      simp [hp]
    · rw [Function.update_noteq hq]
      have hq' : ¬ p = q := fun e => hq e.symm
      simp [List.count_singleton, hq']
  · rw [Function.update_noteq hs, h s q]
    by_cases hq : q = p
    · subst hq; simp [hs, hp]
    · rw [Function.update_noteq hq]

theorem Inv.sub {m : Model} (h : Inv m) : SubWorld m := by
  intro q t hq
  have hg := h.good q
  unfold GoodAt at hg
  rw [hq] at hg
  by_cases he : m.exposed q = true
  · rw [if_pos he] at hg; exact hg.symm
  · rw [if_neg he] at hg; exact Option.noConfusion hg

theorem Inv.shown_none {m : Model} (h : Inv m) (p : Vertex) (hp : m.world p = none) :
    m.shown p = none ∧ m._shown p = none := by
  have hs : m.shown p = none := by
    cases hsh : m.shown p with
    | none => rfl
    | some t => rw [h.sub p t hsh] at hp; exact Option.noConfusion hp
  exact ⟨hs, (h.render.keys p).2 hs⟩

theorem SectorsOk.carry {m m' : Model} (h : SectorsOk m) (hw : m'.world = m.world)
    (hs : m'.sectors = m.sectors) : SectorsOk m' := by
  intro s q
  rw [hw, hs]
  exact h s q

/-- Hiding part of `remove_block`, after the world and sector updates. -/
theorem remove_hide_spec (m : Model) (p : Vertex) (h : Inv m) :
    ∃ m3, (if ((remove_ws m p).shown p).isSome then (remove_ws m p).hide_block p
           else some (remove_ws m p)) = some m3 ∧
      RenderOk m3 ∧ m3.world = Function.update m.world p none ∧
      m3.sectors = (remove_ws m p).sectors ∧ m3.shown p = none ∧
      (∀ q, q ≠ p → m3.shown q = m.shown q) ∧ BatchMono m m3 ∧
      m3.gl.next_list = m.gl.next_list ∧
      (∀ c, m._shown p = some c → ∀ x ∈ m3.batch.lists, x.list_index ≠ c.list_index) := by
  obtain ⟨hw, hsh, hsh', hb, hgl⟩ := remove_ws_frame m p
  have hr2 : RenderOk (remove_ws m p) := h.render.transfer hsh hsh' hb hgl
  cases hp : m.shown p with
  | none =>
    have hk : m._shown p = none := (h.render.keys p).2 hp
    refine ⟨remove_ws m p, by simp [hsh, hp], hr2, hw, rfl, by rw [hsh, hp],
      fun q _ => by rw [hsh], ⟨by rw [hgl], fun c hc => Or.inl (by rwa [hb] at hc)⟩,
      by rw [hgl], ?_⟩
    intro c hc
    rw [hk] at hc
    exact Option.noConfusion hc
  | some t =>
    have hk : m._shown p ≠ none := by
      intro hk; rw [(h.render.keys p).1 hk] at hp; exact Option.noConfusion hp
    obtain ⟨c, hc⟩ := Option.ne_none_iff_exists'.1 hk
    have hc2 : (remove_ws m p)._shown p = some c := by rw [hsh', hc]
    obtain ⟨hpar, hmem, _⟩ := hr2.handle p c hc2
    refine ⟨hide_result (remove_ws m p) p c, ?_, hr2.after_hide p c hc2, hw, rfl, ?_, ?_, ?_, ?_, ?_⟩
    · simp [hsh, hp, hide_block_eq _ p c hc2 hpar hmem]
    · simp [hide_result]
    · intro q hq
      simp [hide_result, Function.update_noteq hq, hsh]
    · refine ⟨by simp [hide_result, hgl], ?_⟩
      intro x hx
      simp only [hide_result, hb] at hx
      exact Or.inl (List.mem_of_mem_eraseP hx)
    · simp [hide_result, hgl]
    · intro c' hc' x hx
      rw [hc] at hc'
      cases Option.some.inj hc'
      exact eraseP_index_ne c _ hr2.nodup hmem x hx

theorem remove_block_spec (m : Model) (p : Vertex) (h : Inv m) :
    ∃ m', m.remove_block p = some m' ∧ Inv m' ∧
      m'.world = Function.update m.world p none ∧ BatchMono m m' ∧
      (∀ c, m._shown p = some c → ∀ x ∈ m'.batch.lists, x.list_index ≠ c.list_index) := by
  obtain ⟨m3, h3, hr3, hw3, hsec3, hp3, hsame3, hb3, hnext3, hgone3⟩ := remove_hide_spec m p h
  have hs3 : SubWorld m3 := by
    intro q t hq
    by_cases e : q = p
    · rw [e, hp3] at hq; exact Option.noConfusion hq
    · rw [hsame3 q e] at hq
      rw [hw3, Function.update_noteq e]
      exact h.sub q t hq
  have hn3 : ∀ q, m3.world q ≠ none → q.isNotNil = true := by
    intro q hq
    by_cases e : q = p
    · rw [hw3, e, Function.update_same] at hq; exact absurd rfl hq
    · rw [hw3, Function.update_noteq e] at hq; exact h.nonnil q hq
  have hg3 : ∀ q, (∀ d ∈ FACES, nb q d ≠ p) → GoodAt m3 q := by
    intro q hq
    by_cases e : q = p
    · subst e
      simp [GoodAt, hp3, hw3]
    · have hg := h.good q
      unfold GoodAt at hg ⊢
      rw [hsame3 q e, exposed_update p none hw3 q hq, hw3, Function.update_noteq e]
      exact hg
  obtain ⟨m', h', hr', hg', hw', hsec', hb', _⟩ := check_neighbors_spec m3 p hr3 hs3 hn3 hg3
  refine ⟨m', ?_, ⟨hr', hg', ?_, ?_⟩, hw'.trans hw3, hb3.trans hb', ?_⟩
  · rw [remove_block_eq, h3]
    exact h'
  · intro q hq
    rw [hw'] at hq
    exact hn3 q hq
  · exact (remove_ws_sectors m p h.sectors).carry (hw'.trans (hw3.trans (remove_ws_frame m p).1.symm))
      (hsec'.trans hsec3)
  · intro c hc x hx
    rcases hb'.batch x hx with hx3 | hx3
    · exact hgone3 c hc x hx3
    · have hlt : c.list_index < m.gl.next_list := h.render.fresh c (h.render.handle p c hc).2.1
      rw [hnext3] at hx3
      omega

/-- Optional `remove_block` at the start of `add_block`. -/
theorem add_clear_spec (m : Model) (p : Vertex) (h : Inv m) :
    ∃ m0, (if (m.world p).isSome then m.remove_block p else some m) = some m0 ∧ Inv m0 ∧
      m0.world = Function.update m.world p none ∧ BatchMono m m0 ∧
      (∀ c, m._shown p = some c → ∀ x ∈ m0.batch.lists, x.list_index ≠ c.list_index) := by
  cases hp : m.world p with
  | some t =>
    obtain ⟨m0, h0, hi0, hw0, hb0, hgone0⟩ := remove_block_spec m p h
    exact ⟨m0, by simp [h0], hi0, hw0, hb0, hgone0⟩
  | none =>
    refine ⟨m, by simp, h, ?_, BatchMono.refl m, ?_⟩
    · rw [← hp, Function.update_eq_self]
    · intro c hc
      rw [(h.shown_none p hp).2] at hc
      exact Option.noConfusion hc

/-- Showing part of `add_block`, after the world and sector updates. -/
theorem add_show_spec (m0 : Model) (p : Vertex) (t : TextureType) (h : Inv m0)
    (hp : m0.world p = none) :
    ∃ m3, (if (add_ws m0 p t).exposed p then (add_ws m0 p t).show_block p
           else some (add_ws m0 p t)) = some m3 ∧
      RenderOk m3 ∧ m3.world = Function.update m0.world p (some t) ∧
      m3.sectors = (add_ws m0 p t).sectors ∧ GoodAt m3 p ∧
      (∀ q, q ≠ p → m3.shown q = m0.shown q) ∧ BatchMono m0 m3 := by
  obtain ⟨hw, hsh, hsh', hb, hgl⟩ := add_ws_frame m0 p t
  have hr1 : RenderOk (add_ws m0 p t) := h.render.transfer hsh hsh' hb hgl
  obtain ⟨hs0, hk0⟩ := h.shown_none p hp
  by_cases he : (add_ws m0 p t).exposed p = true
  · have hk1 : (add_ws m0 p t)._shown p = none := by rw [hsh', hk0]
    have hmono : BatchMono m0 (show_result (add_ws m0 p t) p) := by
      have hm := BatchMono.of_show (add_ws m0 p t) p
      refine ⟨?_, ?_⟩
      · have := hm.next_le; rwa [hgl] at this
      · intro c hc
        have := hm.batch c hc
        rwa [hb, hgl] at this
    refine ⟨show_result (add_ws m0 p t) p, by simp [he, show_block_eq], hr1.after_show p hk1, hw, rfl,
      ?_, ?_, hmono⟩
    · have he' : (show_result (add_ws m0 p t) p).exposed p = true := by
        rw [@exposed_congr (add_ws m0 p t) (show_result (add_ws m0 p t) p) rfl _]
        exact he
      simp only [GoodAt, he', if_true]
      simp [show_result, hw]
    · intro q hq
      simp [show_result, Function.update_noteq hq, hsh]
  · refine ⟨add_ws m0 p t, by simp [he], hr1, hw, rfl, ?_, fun q _ => by rw [hsh],
      ⟨by rw [hgl], fun c hc => Or.inl (by rwa [hb] at hc)⟩⟩
    unfold GoodAt
    rw [if_neg he, hsh, hs0]

theorem add_block_spec (m : Model) (p : Vertex) (t : TextureType) (h : Inv m)
    (hnn : p.isNotNil = true) :
    ∃ m', m.add_block p t = some m' ∧ Inv m' ∧
      m'.world = Function.update m.world p (some t) ∧ BatchMono m m' ∧
      (∀ c, m._shown p = some c → ∀ x ∈ m'.batch.lists, x.list_index ≠ c.list_index) := by
  obtain ⟨m0, h0, hi0, hw0, hb0, hgone0⟩ := add_clear_spec m p h
  have hp0 : m0.world p = none := by rw [hw0, Function.update_same]
  obtain ⟨m3, h3, hr3, hw3, hsec3, hgp3, hsame3, hb3⟩ := add_show_spec m0 p t hi0 hp0
  have hs3 : SubWorld m3 := by
    intro q t' hq
    by_cases e : q = p
    · subst e
      unfold GoodAt at hgp3
      rw [hq] at hgp3
      by_cases he : m3.exposed q = true
      · rw [if_pos he] at hgp3; exact hgp3.symm
      · rw [if_neg he] at hgp3; exact Option.noConfusion hgp3
    · rw [hsame3 q e] at hq
      rw [hw3, Function.update_noteq e]
      exact hi0.sub q t' hq
  have hn3 : ∀ q, m3.world q ≠ none → q.isNotNil = true := by
    intro q hq
    by_cases e : q = p
    · rw [e]; exact hnn
    · rw [hw3, Function.update_noteq e] at hq; exact hi0.nonnil q hq
  have hg3 : ∀ q, (∀ d ∈ FACES, nb q d ≠ p) → GoodAt m3 q := by
    intro q hq
    by_cases e : q = p
    · rw [e]; exact hgp3
    · have hg := hi0.good q
      unfold GoodAt at hg ⊢
      rw [hsame3 q e, exposed_update p (some t) hw3 q hq, hw3, Function.update_noteq e]
      exact hg
  obtain ⟨m', h', hr', hg', hw', hsec', hb', _⟩ := check_neighbors_spec m3 p hr3 hs3 hn3 hg3
  refine ⟨m', ?_, ⟨hr', hg', ?_, ?_⟩, ?_, hb0.trans (hb3.trans hb'), ?_⟩
  · rw [add_block_eq, h0]
    simp only []
    rw [h3]
    exact h'
  · intro q hq
    rw [hw'] at hq
    exact hn3 q hq
  · exact (add_ws_sectors m0 p t hi0.sectors hp0).carry
      (hw'.trans (hw3.trans (add_ws_frame m0 p t).1.symm)) (hsec'.trans hsec3)
  · rw [hw', hw3, hw0, Function.update_idem]
  · intro c hc x hx
    have hlt : c.list_index < m.gl.next_list := h.render.fresh c (h.render.handle p c hc).2.1
    rcases (hb3.trans hb').batch x hx with hx0 | hx0
    · exact hgone0 c hc x hx0
    · have := hb0.next_le
      omega

theorem inv_empty : Inv Model.empty := by
  refine ⟨⟨?_, ?_, ?_, ?_, ?_, ?_⟩, ?_, ?_, ?_⟩
  · intro q; simp [Model.empty]
  · intro q c hc; simp [Model.empty] at hc
  · simp [Model.empty]
  · intro c hc; simp [Model.empty] at hc
  · intro c hc; simp [Model.empty] at hc
  · intro q q' c c' hc; simp [Model.empty] at hc
  · intro q; simp [GoodAt, Model.empty]
  · intro q hq; simp [Model.empty] at hq
  · intro s q; simp [Model.empty]

theorem Reachable.inv {m : Model} (h : Reachable m) : Inv m := by
  induction h with
  | empty => exact inv_empty
  | add position texture _ hnil hadd ih =>
    have hnn : position.isNotNil = true := by
      simpa [Vertex.isNil] using hnil
    obtain ⟨m', h', hi', _⟩ := add_block_spec _ position texture ih hnn
    rw [h'] at hadd
    cases Option.some.inj hadd
    exact hi'
  | remove position _ hrem ih =>
    obtain ⟨m', h', hi', _⟩ := remove_block_spec _ position ih
    rw [h'] at hrem
    cases Option.some.inj hrem
    exact hi'

theorem some_getD_of_isSome {α : Type} {o : Option α} (d : α) (h : o.isSome = true) :
    o = some (o.getD d) := by
  cases o with
  | none => exact absurd h (by simp)
  | some v => rfl

theorem one_block_eq : Model.empty.add_block (NewVertex 0 0 0) STONE = some one_block :=
  some_getD_of_isSome _ (by decide!)

theorem two_blocks_eq : one_block.add_block (NewVertex 0 1 0) GRASS = some two_blocks :=
  some_getD_of_isSome _ (by decide!)

theorem reachable_one_block : Reachable one_block :=
  Reachable.add (NewVertex 0 0 0) STONE Reachable.empty rfl one_block_eq

theorem reachable_two_blocks : Reachable two_blocks :=
  Reachable.add (NewVertex 0 1 0) GRASS reachable_one_block rfl two_blocks_eq

/-! ## The claims -/

/-- C1 (shown-set consistency): in every state reachable from the empty model by
`add_block` / `remove_block` calls, `shown` is exactly the restriction of `world`
to the exposed positions (same keys, same block types), and `_shown` has the same
key set as `shown`; from such a state every further call completes. -/
theorem shown_set_consistency (m : Model) (h : Reachable m) :
    (∀ p, m.shown p = if m.exposed p = true then m.world p else none) ∧
      (∀ p, (m._shown p).isSome = (m.shown p).isSome) ∧
      (∀ p t, p.isNil = false → ∃ m', m.add_block p t = some m') ∧
      (∀ p, ∃ m', m.remove_block p = some m') := by
  have hi := h.inv
  refine ⟨hi.good, ?_, ?_, ?_⟩
  · intro p
    have hk := hi.render.keys p
    cases h1 : m._shown p <;> cases h2 : m.shown p <;> simp_all
  · intro p t hp
    obtain ⟨m', h', _⟩ := add_block_spec m p t hi (by simpa [Vertex.isNil] using hp)
    exact ⟨m', h'⟩
  · intro p
    obtain ⟨m', h', _⟩ := remove_block_spec m p hi
    exact ⟨m', h'⟩

theorem shown_set_consistency_witness :
    Reachable two_blocks ∧
      (∀ p, two_blocks.shown p = if two_blocks.exposed p = true then two_blocks.world p else none) ∧
      (∀ p, (two_blocks._shown p).isSome = (two_blocks.shown p).isSome) ∧
      (∀ p t, p.isNil = false → ∃ m', two_blocks.add_block p t = some m') ∧
      (∀ p, ∃ m', two_blocks.remove_block p = some m') :=
  ⟨reachable_two_blocks, shown_set_consistency two_blocks reachable_two_blocks⟩

/-- C2 (exposure): `exposed(p)` is true exactly when one of the six positions
`p+(0,1,0)`, `p+(0,-1,0)`, `p+(-1,0,0)`, `p+(1,0,0)`, `p+(0,0,1)`, `p+(0,0,-1)` is
absent from the world; in the filled 3×3×3 cube the centre is not exposed and the
26 other blocks are. -/
theorem exposed_iff_absent_neighbor :
    (∀ (m : Model) (p : Vertex), m.exposed p = true ↔
      (m.world (NewVertex (p.x + 0) (p.y + 1) (p.z + 0)) = none ∨
       m.world (NewVertex (p.x + 0) (p.y + -1) (p.z + 0)) = none ∨
       m.world (NewVertex (p.x + -1) (p.y + 0) (p.z + 0)) = none ∨
       m.world (NewVertex (p.x + 1) (p.y + 0) (p.z + 0)) = none ∨
       m.world (NewVertex (p.x + 0) (p.y + 0) (p.z + 1)) = none ∨
       m.world (NewVertex (p.x + 0) (p.y + 0) (p.z + -1)) = none)) ∧
    (cube_positions.length = 27 ∧ cube_model.exposed (NewVertex 0 0 0) = false ∧
      ∀ p ∈ cube_positions, p ≠ NewVertex 0 0 0 → cube_model.exposed p = true) := by
  constructor
  · intro m p
    simp [Model.exposed, FACES, NewVertex, Option.isNone_iff_eq_none]
  · decide!

/-- C3 (sector partition): in every reachable state a position is a key of the
world iff it occurs in some sector list; it then occurs exactly once in the list
stored under `sectorize(position)` and in no list of another sector. -/
theorem sector_partition (m : Model) (h : Reachable m) (p : Vertex) :
    (m.world p ≠ none ↔ ∃ s l, m.sectors s = some l ∧ p ∈ l) ∧
      (m.world p ≠ none →
        (∃ l, m.sectors (sectorize p) = some l ∧ l.count p = 1) ∧
        ∀ s l, s ≠ sectorize p → m.sectors s = some l → p ∉ l) := by
  have hs := h.inv.sectors
  have hown : m.world p ≠ none → ∃ l, m.sectors (sectorize p) = some l ∧ l.count p = 1 := by
    intro hw
    have hc := hs (sectorize p) p
    rw [if_pos ⟨hw, rfl⟩] at hc
    cases hl : m.sectors (sectorize p) with
    | none => rw [hl] at hc; simp at hc
    | some l => rw [hl] at hc; exact ⟨l, rfl, hc⟩
  refine ⟨⟨?_, ?_⟩, fun hw => ⟨hown hw, ?_⟩⟩
  · intro hw
    obtain ⟨l, hl, hc⟩ := hown hw
    exact ⟨sectorize p, l, hl, List.count_pos_iff.1 (by omega)⟩
  · rintro ⟨s, l, hl, hmem⟩ hw
    have hc := hs s p
    rw [hl, Option.getD_some, if_neg (fun hh => hh.1 hw)] at hc
    exact (List.count_eq_zero.1 hc) hmem
  · intro s l hne hl hmem
    have hc := hs s p
    rw [hl, Option.getD_some, if_neg (fun hh => hne hh.2)] at hc
    exact (List.count_eq_zero.1 hc) hmem

theorem sector_partition_witness :
    Reachable two_blocks ∧
      ((two_blocks.world (NewVertex 0 1 0) ≠ none ↔
          ∃ s l, two_blocks.sectors s = some l ∧ NewVertex 0 1 0 ∈ l) ∧
        (two_blocks.world (NewVertex 0 1 0) ≠ none →
          (∃ l, two_blocks.sectors (sectorize (NewVertex 0 1 0)) = some l ∧
            l.count (NewVertex 0 1 0) = 1) ∧
          ∀ s l, s ≠ sectorize (NewVertex 0 1 0) → two_blocks.sectors s = some l →
            NewVertex 0 1 0 ∉ l)) :=
  ⟨reachable_two_blocks, sector_partition two_blocks reachable_two_blocks (NewVertex 0 1 0)⟩

/-- C4 (sector key): the code does not floor.  For the block `(1, 0, 0)`, whose
rounded coordinates satisfy `0 ≤ x' < 16` and `0 ≤ z' < 16`, `sectorize` returns
`(1/16, 0, 0)`, not the key `(floor(1/16), 0, floor(0/16)) = (0, 0, 0)` the claim
states; in general it returns `(x'/16, 0, z'/16)` with an exact quotient. -/
theorem sectorize_not_floored :
    sectorize (NewVertex 1 0 0) = NewVertex (1 / 16) 0 0 ∧
      sectorize (NewVertex 1 0 0) ≠
        NewVertex ((Int.floor ((1 : ℚ) / 16) : Int) : ℚ) 0 ((Int.floor ((0 : ℚ) / 16) : Int) : ℚ) ∧
      ∀ p : Vertex, sectorize p = NewVertex (round p.x / 16) 0 (round p.z / 16) := by
  refine ⟨by decide!, by decide!, fun p => rfl⟩

theorem block_display_inj (p q : Vertex) (t t' : TextureType)
    (h : block_display p t = block_display q t') :
    p.x = q.x ∧ p.y = q.y ∧ p.z = q.z := by
  have hhead : ∀ (r : Vertex) (s : TextureType),
      ((block_display r s).map Prod.snd).head? =
        some (NewVertex (r.x - 1 / 2) (r.y + 1 / 2) (r.z - 1 / 2)) := by
    intro r s; cases s <;> rfl
  have h2 := congrArg (fun l => (l.map Prod.snd).head?) h
  simp only [hhead, Option.some.injEq, NewVertex, Vertex.mk.injEq, and_true] at h2
  obtain ⟨hx, hy, hz⟩ := h2
  exact ⟨by linarith, by linarith, by linarith⟩

theorem filter_eq_singleton (P : CallList → Bool) (c : CallList) :
    ∀ l : List CallList, (l.map CallList.list_index).Nodup → c ∈ l →
      (∀ x ∈ l, P x = true ↔ x = c) → l.filter P = [c] := by
  intro l
  induction l with
  | nil => intro _ hc; simp at hc
  | cons a l ih =>
    intro hnd hc hP
    rw [List.map_cons, List.nodup_cons] at hnd
    by_cases ha : a = c
    · subst ha
      have hPa : P a = true := (hP a (List.mem_cons_self _ _)).2 rfl
      rw [List.filter_cons_of_pos hPa]
      congr 1
      rw [List.filter_eq_nil_iff]
      intro x hx hPx
      have hxa : x = a := (hP x (List.mem_cons_of_mem _ hx)).1 hPx
      apply hnd.1
      rw [← hxa]
      exact List.mem_map_of_mem _ hx
    · have hPa : ¬ P a = true := fun hh => ha ((hP a (List.mem_cons_self _ _)).1 hh)
      rw [List.filter_cons_of_neg hPa]
      have hc' : c ∈ l := by
        rcases List.mem_cons.1 hc with e | e
        · exact absurd e.symm ha
        · exact e
      exact ih hnd.2 hc' (fun x hx => hP x (List.mem_cons_of_mem _ hx))

/-- In a consistent state the batch holds exactly one drawable per shown block. -/
theorem one_drawable {m : Model} (h : Inv m) (p : Vertex) (c : CallList)
    (hc : m._shown p = some c) : m.batch.lists.filter (draws_block m p) = [c] := by
  have hkey : ∀ q c', m._shown q = some c' → q.isNotNil = true := by
    intro q c' hq
    apply h.nonnil q
    intro hw
    rw [(h.shown_none q hw).2] at hq
    exact Option.noConfusion hq
  obtain ⟨_, hmem, t, ht⟩ := h.render.handle p c hc
  apply filter_eq_singleton _ c _ h.render.nodup hmem
  intro x hx
  constructor
  · intro hd
    obtain ⟨q, hq⟩ := h.render.owned x hx
    obtain ⟨_, _, t', ht'⟩ := h.render.handle q x hq
    simp only [draws_block, List.any_eq_true, decide_eq_true_eq] at hd
    obtain ⟨s, _, hs⟩ := hd
    rw [ht'] at hs
    obtain ⟨hx1, hy1, hz1⟩ := block_display_inj q p t' s (Option.some.inj hs)
    have hqp : q = p := by
      have h1 := hkey q x hq
      have h2 := hkey p c hc
      obtain ⟨qx, qy, qz, qn⟩ := q
      obtain ⟨px, py, pz, pn⟩ := p
      simp only at hx1 hy1 hz1 h1 h2
      subst hx1 hy1 hz1 h1 h2
      rfl
    rw [hqp, hc] at hq
    exact (Option.some.inj hq).symm
  · intro hxc
    subst hxc
    simp only [draws_block, List.any_eq_true, decide_eq_true_eq]
    exact ⟨t, by cases t <;> simp, ht⟩

/-- C5 (replacement): from a reachable state, for a position `p` with at least
one absent neighbour, `add_block(p, A)` followed by `add_block(p, B)` both
complete and leave `world[p] = B`, `shown[p] = B`; the drawable of the first add
is no longer in the batch, and the batch holds exactly one drawable for `p`, the
one recorded in `_shown[p]`. -/
theorem replacement_semantics (m : Model) (h : Reachable m) (p : Vertex)
    (hp : p.isNil = false)
    (hn : ∃ d ∈ FACES, m.world (NewVertex (p.x + d.x) (p.y + d.y) (p.z + d.z)) = none)
    (A B : TextureType) :
    ∃ m1 m2 c1 c2, m.add_block p A = some m1 ∧ m1.add_block p B = some m2 ∧
      m2.world p = some B ∧ m2.shown p = some B ∧
      m1._shown p = some c1 ∧ m2._shown p = some c2 ∧
      (∀ x ∈ m2.batch.lists, x.list_index ≠ c1.list_index) ∧
      m2.batch.lists.filter (draws_block m2 p) = [c2] := by
  have hnn : p.isNotNil = true := by simpa [Vertex.isNil] using hp
  obtain ⟨d, hd, hdw⟩ := hn
  obtain ⟨m1, h1, hi1, hw1, _, _⟩ := add_block_spec m p A h.inv hnn
  obtain ⟨m2, h2, hi2, hw2, _, hgone⟩ := add_block_spec m1 p B hi1 hnn
  have hexp : ∀ (m' : Model) (T : TextureType), Inv m' →
      m'.world = Function.update m.world p (some T) → m'.shown p = some T := by
    intro m' T hinv hw'
    have he : m'.exposed p = true := by
      simp only [Model.exposed, List.any_eq_true, Option.isNone_iff_eq_none]
      refine ⟨d, hd, ?_⟩
      rw [hw', Function.update_noteq (nb_ne_self p d hd)]
      exact hdw
    have hg := hinv.good p
    unfold GoodAt at hg
    rw [if_pos he, hw', Function.update_same] at hg
    exact hg
  have hkey : ∀ (m' : Model) (T : TextureType), Inv m' → m'.shown p = some T →
      ∃ c, m'._shown p = some c := by
    intro m' T hinv hsh
    apply Option.ne_none_iff_exists'.1
    intro hk
    rw [(hinv.render.keys p).1 hk] at hsh
    exact Option.noConfusion hsh
  have hs1 : m1.shown p = some A := hexp m1 A hi1 hw1
  have hs2 : m2.shown p = some B := hexp m2 B hi2 (by rw [hw2, hw1, Function.update_idem])
  obtain ⟨c1, hc1⟩ := hkey m1 A hi1 hs1
  obtain ⟨c2, hc2⟩ := hkey m2 B hi2 hs2
  exact ⟨m1, m2, c1, c2, h1, h2, by rw [hw2, Function.update_same], hs2, hc1, hc2,
    hgone c1 hc1, one_drawable hi2 p c2 hc2⟩

theorem replacement_semantics_witness :
    Reachable one_block ∧ (NewVertex 0 1 0).isNil = false ∧
      (∃ d ∈ FACES, one_block.world
        (NewVertex ((NewVertex 0 1 0).x + d.x) ((NewVertex 0 1 0).y + d.y)
          ((NewVertex 0 1 0).z + d.z)) = none) ∧
      ∃ m1 m2 c1 c2, one_block.add_block (NewVertex 0 1 0) SAND = some m1 ∧
        m1.add_block (NewVertex 0 1 0) BRICK = some m2 ∧
        m2.world (NewVertex 0 1 0) = some BRICK ∧ m2.shown (NewVertex 0 1 0) = some BRICK ∧
        m1._shown (NewVertex 0 1 0) = some c1 ∧ m2._shown (NewVertex 0 1 0) = some c2 ∧
        (∀ x ∈ m2.batch.lists, x.list_index ≠ c1.list_index) ∧
        m2.batch.lists.filter (draws_block m2 (NewVertex 0 1 0)) = [c2] :=
  ⟨reachable_one_block, rfl, ⟨NewVertex 0 1 0, by decide!, by decide!⟩,
    replacement_semantics one_block reachable_one_block (NewVertex 0 1 0) rfl
      ⟨NewVertex 0 1 0, by decide!, by decide!⟩ SAND BRICK⟩

theorem remove_block_absent (m : Model) (p : Vertex) (h : Inv m) (hp : m.world p = none) :
    m.remove_block p = some m := by
  have hnot : p ∉ (m.sectors (sectorize p)).getD [] := by
    apply List.count_eq_zero.1
    rw [h.sectors (sectorize p) p, if_neg (fun hh => hh.1 hp)]
  have hws : remove_ws m p = m := by
    unfold remove_ws
    simp only []
    rw [if_neg hnot]
    have : Function.update m.world p none = m.world := by
      rw [← hp, Function.update_eq_self]
    rw [this]
  rw [remove_block_eq, hws, (h.shown_none p hp).1]
  simp only [Option.isSome_none, Bool.false_eq_true, if_false]
  exact check_neighbors_loop_noop p m FACES (fun d _ => h.good (nb p d))

/-- C6 (idempotence of remove): from a reachable state `remove_block(p)`
completes, and calling it again returns the very same state (world, sectors,
shown, `_shown`, batch and display lists all unchanged); a single
`remove_block(p)` on a position absent from the world changes nothing either. -/
theorem remove_block_idempotent (m : Model) (h : Reachable m) (p : Vertex) :
    (∃ m1, m.remove_block p = some m1 ∧ m1.remove_block p = some m1) ∧
      (m.world p = none → m.remove_block p = some m) := by
  refine ⟨?_, remove_block_absent m p h.inv⟩
  obtain ⟨m1, h1, hi1, hw1, _⟩ := remove_block_spec m p h.inv
  exact ⟨m1, h1, remove_block_absent m1 p hi1 (by rw [hw1, Function.update_same])⟩

theorem remove_block_idempotent_witness :
    Reachable two_blocks ∧
      ((∃ m1, two_blocks.remove_block (NewVertex 0 0 0) = some m1 ∧
          m1.remove_block (NewVertex 0 0 0) = some m1) ∧
        (two_blocks.world (NewVertex 0 0 0) = none →
          two_blocks.remove_block (NewVertex 0 0 0) = some two_blocks)) :=
  ⟨reachable_two_blocks, remove_block_idempotent two_blocks reachable_two_blocks (NewVertex 0 0 0)⟩

/-- C7, counterexample: in the empty model the position `(0,0,0)` is not shown,
yet `hide_block((0,0,0))` does not complete: the read of `_shown` yields the zero
`CallList`, whose nil `parent` is dereferenced by `delete`. -/
theorem hide_block_unshown_fails :
    Model.empty.shown (NewVertex 0 0 0) = none ∧
      ¬ ∃ m', Model.empty.hide_block (NewVertex 0 0 0) = some m' := by
  refine ⟨rfl, ?_⟩
  rintro ⟨m', hm'⟩
  rw [hide_block_none Model.empty (NewVertex 0 0 0) rfl] at hm'
  exact Option.noConfusion hm'

/-- C7, amended: for every model state and every position `p` that is neither in
the shown set nor in the drawable index, `hide_block(p)` itself fails (nil
dereference in `CallList.delete`); the no-op is the guarded call every caller
makes, `if _, ok := self.shown[p]; ok { self.hide_block(p) }`, which completes and
returns the state unchanged. -/
theorem hide_block_guarded_noop (m : Model) (p : Vertex) (hs : m.shown p = none)
    (hk : m._shown p = none) :
    m.hide_block p = none ∧
      (if (m.shown p).isSome then m.hide_block p else some m) = some m := by
  refine ⟨hide_block_none m p hk, ?_⟩
  rw [hs]
  rfl

theorem hide_block_guarded_noop_witness :
    Model.empty.shown (NewVertex 0 0 0) = none ∧ Model.empty._shown (NewVertex 0 0 0) = none ∧
      (Model.empty.hide_block (NewVertex 0 0 0) = none ∧
        (if (Model.empty.shown (NewVertex 0 0 0)).isSome then
            Model.empty.hide_block (NewVertex 0 0 0)
          else some Model.empty) = some Model.empty) :=
  ⟨rfl, rfl, hide_block_guarded_noop Model.empty (NewVertex 0 0 0) rfl rfl⟩

/-! ## Ray picking -/

theorem xrange_loop_length (stop : Int) :
    ∀ (fuel : Nat) (x : Int), (stop - x).toNat ≤ fuel →
      (xrange_loop stop 1 fuel x).length = (stop - x).toNat := by
  intro fuel
  induction fuel with
  | zero =>
    intro x hx
    simp only [xrange_loop, List.length_nil]
    omega
  | succ n ih =>
    intro x hx
    simp only [xrange_loop]
    by_cases hlt : x < stop
    · rw [if_pos hlt, List.length_cons, ih (x + 1) (by omega)]
      omega
    · rw [if_neg hlt, List.length_nil]
      omega

theorem xrange_length (n : Int) : (xrange 0 n 1).length = n.toNat := by
  unfold xrange
  rw [xrange_loop_length n _ 0 (Nat.le_refl _)]
  simp

/-- Values of `f32` at known `float32` constants: `0.1f`, `1.2f`, a third, the
tie `2^24 + 1` (to even, down) and `2^24 + 3` (to even, up), and values that are
already `float32`. -/
theorem f32_examples :
    f32 (1 / 10) = 13421773 / 134217728 ∧ f32 (6 / 5) = 5033165 / 4194304 ∧
      f32 (1 / 3) = 11184811 / 33554432 ∧ f32 (2 ^ 24 + 1) = 2 ^ 24 ∧
      f32 (2 ^ 24 + 3) = 2 ^ 24 + 4 ∧ f32 0 = 0 ∧ f32 (-5) = -5 ∧ f32 (5 / 8) = 5 / 8 ∧
      f32 (13421773 / 134217728) = 13421773 / 134217728 := by
  refine ⟨by decide!, by decide!, by decide!, by decide!, by decide!, by decide!, by decide!,
    by decide!, by decide!⟩

theorem sample_succ (x y z : ℚ) (v : Vertex) (j : Nat) :
    sample (NewVertex (f32 (x + f32 (v.x / 8))) (f32 (y + f32 (v.y / 8)))
        (f32 (z + f32 (v.z / 8)))) v j =
      sample (NewVertex x y z) v (j + 1) := by
  induction j with
  | zero => rfl
  | succ j ih =>
    rw [sample, ih]
    rfl

theorem sample_zero (x y z : ℚ) (v : Vertex) :
    sample (NewVertex x y z) v 0 = NewVertex x y z := rfl

theorem sample_origin (o v : Vertex) (k : Nat) :
    sample (NewVertex o.x o.y o.z) v k = sample o v k := by
  induction k with
  | zero => rfl
  | succ k ih =>
    rw [sample, ih]
    rfl

/-- Where every exact sum up to step `k` is a `float32` value and so is the
step `direction / 8`, the accumulated sample is the exact one. -/
theorem sample_eq_exact (o v : Vertex) (k : Nat)
    (hstep : f32 (v.x / 8) = v.x / 8 ∧ f32 (v.y / 8) = v.y / 8 ∧ f32 (v.z / 8) = v.z / 8)
    (hrep : ∀ j, j ≤ k → f32 (exact_sample o v j).x = (exact_sample o v j).x ∧
      f32 (exact_sample o v j).y = (exact_sample o v j).y ∧
      f32 (exact_sample o v j).z = (exact_sample o v j).z) :
    sample o v k = exact_sample o v k := by
  induction k with
  | zero => simp [sample, exact_sample]
  | succ k ih =>
    have hk := ih (fun j hj => hrep j (Nat.le_succ_of_le hj))
    have hx : (exact_sample o v k).x + v.x / 8 = (exact_sample o v (k + 1)).x := by
      simp only [exact_sample, NewVertex]; push_cast; ring
    have hy : (exact_sample o v k).y + v.y / 8 = (exact_sample o v (k + 1)).y := by
      simp only [exact_sample, NewVertex]; push_cast; ring
    have hz : (exact_sample o v k).z + v.z / 8 = (exact_sample o v (k + 1)).z := by
      simp only [exact_sample, NewVertex]; push_cast; ring
    obtain ⟨rx, ry, rz⟩ := hrep (k + 1) (Nat.le_refl _)
    rw [sample, hk, hstep.1, hstep.2.1, hstep.2.2, hx, hy, hz, rx, ry, rz]
    rfl

/-- Outcome of the scan loop of `hit_test`, started at `(x, y, z)` with a
`previous` that is nil or unoccupied: it stops at the first occupied sample cell,
or runs through all samples and returns `(nil, nil)`. -/
theorem hit_test_loop_spec (self : Model) (v : Vertex) :
    ∀ (l : List Int) (prev : Vertex) (x y z : ℚ),
      (prev = nilVertex ∨ self.world prev = none) →
      (∃ k, k < l.length ∧
          (∀ j, j < k → self.world (normalize (sample (NewVertex x y z) v j)) = none) ∧
          self.world (normalize (sample (NewVertex x y z) v k)) ≠ none ∧
          self.hit_test_loop v l prev x y z =
            (normalize (sample (NewVertex x y z) v k),
              if k = 0 then prev else normalize (sample (NewVertex x y z) v (k - 1)))) ∨
        ((∀ j, j < l.length → self.world (normalize (sample (NewVertex x y z) v j)) = none) ∧
          self.hit_test_loop v l prev x y z = (nilVertex, nilVertex)) := by
  intro l
  induction l with
  | nil =>
    intro prev x y z _
    exact Or.inr ⟨fun j hj => absurd hj (Nat.not_lt_zero j), rfl⟩
  | cons a l ih =>
    intro prev x y z hprev
    by_cases hhit : normalize (NewVertex x y z) ≠ prev ∧
        (self.world (normalize (NewVertex x y z))).isSome = true
    · left
      refine ⟨0, Nat.succ_pos _, fun j hj => absurd hj (Nat.not_lt_zero j), ?_, ?_⟩
      · rw [sample_zero]
        intro hn
        rw [hn] at hhit
        exact absurd hhit.2 (by simp)
      · simp only [Model.hit_test_loop, if_pos hhit, sample_zero, if_true]
    · have hfree : self.world (normalize (NewVertex x y z)) = none := by
        cases hw : self.world (normalize (NewVertex x y z)) with
        | none => rfl
        | some t =>
          exfalso
          have heq : normalize (NewVertex x y z) = prev := by
            by_contra hne
            exact hhit ⟨hne, by rw [hw]; rfl⟩
          rcases hprev with hp | hp
          · rw [hp] at heq
            have := congrArg Vertex.isNotNil heq
            simp [normalize, NewVertex, nilVertex] at this
          · rw [← heq, hw] at hp
            exact Option.noConfusion hp
      have hstep : self.hit_test_loop v (a :: l) prev x y z =
          self.hit_test_loop v l (normalize (NewVertex x y z))
            (f32 (x + f32 (v.x / 8))) (f32 (y + f32 (v.y / 8)))
            (f32 (z + f32 (v.z / 8))) := by
        simp only [Model.hit_test_loop, if_neg hhit]
      rcases ih (normalize (NewVertex x y z)) (f32 (x + f32 (v.x / 8)))
          (f32 (y + f32 (v.y / 8))) (f32 (z + f32 (v.z / 8)))
          (Or.inr hfree) with ⟨k, hk, hbefore, hocc, hres⟩ | ⟨hall, hres⟩
      · left
        refine ⟨k + 1, by simpa using hk, ?_, ?_, ?_⟩
        · intro j hj
          cases j with
          | zero => rw [sample_zero]; exact hfree
          | succ i => rw [← sample_succ]; exact hbefore i (by omega)
        · rw [← sample_succ]; exact hocc
        · rw [hstep, hres, sample_succ]
          congr 1
          cases k with
          | zero => simp [sample_zero]
          | succ i => simp [sample_succ]
      · right
        refine ⟨?_, by rw [hstep, hres]⟩
        intro j hj
        cases j with
        | zero => rw [sample_zero]; exact hfree
        | succ i =>
          rw [← sample_succ]
          exact hall i (by simpa using hj)

/-- Outcome of `hit_test` for a non-negative `max_distance`. -/
theorem hit_test_spec (self : Model) (origin vector : Vertex) (max_distance : Int)
    (hmax : 0 ≤ max_distance) :
    (∃ k : Nat, (k : Int) < 8 * max_distance ∧
        (∀ j, j < k → self.world (normalize (sample origin vector j)) = none) ∧
        self.world (normalize (sample origin vector k)) ≠ none ∧
        self.hit_test origin vector max_distance =
          (normalize (sample origin vector k),
            if k = 0 then nilVertex else normalize (sample origin vector (k - 1)))) ∨
      ((∀ j : Nat, (j : Int) < 8 * max_distance →
          self.world (normalize (sample origin vector j)) = none) ∧
        self.hit_test origin vector max_distance = (nilVertex, nilVertex)) := by
  have hlen : (xrange 0 (max_distance * 8) 1).length = (max_distance * 8).toNat :=
    xrange_length _
  have hl := hit_test_loop_spec self vector (xrange 0 (max_distance * 8) 1) nilVertex
    origin.x origin.y origin.z (Or.inl rfl)
  simp only [sample_origin, hlen] at hl
  rcases hl with ⟨k, hk, hbefore, hocc, hres⟩ | ⟨hall, hres⟩
  · exact Or.inl ⟨k, by omega, hbefore, hocc, hres⟩
  · exact Or.inr ⟨fun j hj => hall j (by omega), hres⟩

theorem normalize_ne_nil (v : Vertex) : normalize v ≠ nilVertex := by
  intro h
  have := congrArg Vertex.isNotNil h
  simp [normalize, NewVertex, nilVertex] at this

theorem one_block_world (v : Vertex) :
    one_block.world v = if v = NewVertex 0 0 0 then some STONE else none := by
  obtain ⟨m', h', _, hw, _⟩ := add_block_spec Model.empty (NewVertex 0 0 0) STONE inv_empty rfl
  have hm : m' = one_block := by
    have := one_block_eq
    rw [h'] at this
    exact Option.some.inj this
  rw [← hm, hw]
  by_cases e : v = NewVertex 0 0 0
  · rw [e, Function.update_same, if_pos rfl]
  · rw [Function.update_noteq e, if_neg e]
    rfl

/-- C8, counterexample: in the world holding only block `(0,0,0)`,
`hit_test` from `(1.2f, 0, 0)` along `(-0.8f, 0, 0)` with `max_distance = 1`
(both coordinates are `float32` values) returns the non-nil hit `(0,0,0)` with
previous `(1,0,0)`, although `normalize(origin + k*direction/8)` is `(0,0,0)`
for no step `k < 8`: the `float32` sum of step 7 falls below `0.5`, the exact
one does not. -/
theorem hit_test_float_hit :
    one_block.hit_test (NewVertex (5033165 / 4194304) 0 0)
        (NewVertex (-13421773 / 16777216) 0 0) 1 = (NewVertex 0 0 0, NewVertex 1 0 0) ∧
      (NewVertex 0 0 0).isNil = false ∧
      f32 (5033165 / 4194304) = 5033165 / 4194304 ∧
      f32 (-13421773 / 16777216) = -13421773 / 16777216 ∧
      (∀ k : Nat, k < 8 →
        normalize (exact_sample (NewVertex (5033165 / 4194304) 0 0)
          (NewVertex (-13421773 / 16777216) 0 0) k) ≠ NewVertex 0 0 0) ∧
      (∀ k : Nat, k < 8 →
        one_block.world (normalize (exact_sample (NewVertex (5033165 / 4194304) 0 0)
          (NewVertex (-13421773 / 16777216) 0 0) k)) = none) := by
  refine ⟨by decide!, rfl, by decide!, by decide!, by decide!, by decide!⟩

/-- C8, amended (hit test): for `max_distance ≥ 0`, a non-nil hit key returned by
`hit_test` is `normalize(s_k)` for the least step `k < 8*max_distance` whose
rounded cell `normalize(s_k)` is occupied, where `s_0 = origin` and
`s_(k+1) = f32(s_k + f32(direction/8))` is the point the loop accumulates in
`float32` (`sample`); the key is in the world; the returned previous key is the
rounded cell of step `k-1`, absent from the world, and is nil exactly when
`k = 0`.  Where the step `direction/8` and the exact sums `origin + j*direction/8`
up to `k` are `float32` values, `s_k` is `origin + k*direction/8`.  With the
world holding only block `(0,0,0)`, `hit_test((0,0,5), (0,0,-1), 8)` returns hit
`(0,0,0)` and previous `(0,0,1)`. -/
theorem hit_test_first_occupied :
    (∀ (self : Model) (origin vector : Vertex) (max_distance : Int) (hit previous : Vertex),
      0 ≤ max_distance → self.hit_test origin vector max_distance = (hit, previous) →
      hit.isNil = false →
      ∃ k : Nat, (k : Int) < 8 * max_distance ∧
        hit = normalize (sample origin vector k) ∧ self.world hit ≠ none ∧
        (∀ j, j < k → self.world (normalize (sample origin vector j)) = none) ∧
        (k = 0 → previous = nilVertex) ∧
        (0 < k → previous = normalize (sample origin vector (k - 1)) ∧
          self.world previous = none) ∧
        (previous.isNil = true ↔ k = 0)) ∧
    (∀ (origin vector : Vertex) (k : Nat),
      (f32 (vector.x / 8) = vector.x / 8 ∧ f32 (vector.y / 8) = vector.y / 8 ∧
        f32 (vector.z / 8) = vector.z / 8) →
      (∀ j, j ≤ k → f32 (exact_sample origin vector j).x = (exact_sample origin vector j).x ∧
        f32 (exact_sample origin vector j).y = (exact_sample origin vector j).y ∧
        f32 (exact_sample origin vector j).z = (exact_sample origin vector j).z) →
      sample origin vector k = exact_sample origin vector k) ∧
    ((∀ v, one_block.world v ≠ none ↔ v = NewVertex 0 0 0) ∧
      one_block.hit_test (NewVertex 0 0 5) (NewVertex 0 0 (-1)) 8 =
        (NewVertex 0 0 0, NewVertex 0 0 1)) := by
  refine ⟨?_, fun origin vector k hstep hrep => sample_eq_exact origin vector k hstep hrep,
    ?_, by decide!⟩
  · intro self origin vector max_distance hit previous hmax h hnn
    rcases hit_test_spec self origin vector max_distance hmax with
      ⟨k, hk, hbefore, hocc, hres⟩ | ⟨_, hres⟩
    · rw [h] at hres
      have hhit : hit = normalize (sample origin vector k) := congrArg Prod.fst hres
      have hprev : previous =
          if k = 0 then nilVertex else normalize (sample origin vector (k - 1)) :=
        congrArg Prod.snd hres
      refine ⟨k, hk, hhit, by rw [hhit]; exact hocc, hbefore, ?_, ?_, ?_⟩
      · intro hk0
        rw [if_pos hk0] at hprev
        exact hprev
      · intro hpos
        rw [if_neg (by omega)] at hprev
        exact ⟨hprev, by rw [hprev]; exact hbefore (k - 1) (by omega)⟩
      · by_cases hk0 : k = 0
        · rw [if_pos hk0] at hprev
          simp [hprev, hk0, Vertex.isNil, nilVertex]
        · rw [if_neg hk0] at hprev
          simp [hprev, hk0, Vertex.isNil, normalize, NewVertex]
    · rw [h] at hres
      have hhit : hit = nilVertex := congrArg Prod.fst hres
      rw [hhit] at hnn
      simp [Vertex.isNil, nilVertex] at hnn
  · intro v
    rw [one_block_world]
    by_cases e : v = NewVertex 0 0 0 <;> simp [e]

theorem hit_test_first_occupied_witness :
    ((0 : Int) ≤ 8 ∧
      one_block.hit_test (NewVertex 0 0 5) (NewVertex 0 0 (-1)) 8 =
        (NewVertex 0 0 0, NewVertex 0 0 1) ∧
      (NewVertex 0 0 0).isNil = false ∧
      ∃ k : Nat, (k : Int) < 8 * 8 ∧
        NewVertex 0 0 0 = normalize (sample (NewVertex 0 0 5) (NewVertex 0 0 (-1)) k) ∧
        one_block.world (NewVertex 0 0 0) ≠ none ∧
        (∀ j, j < k →
          one_block.world (normalize (sample (NewVertex 0 0 5) (NewVertex 0 0 (-1)) j)) = none) ∧
        (k = 0 → NewVertex 0 0 1 = nilVertex) ∧
        (0 < k →
          NewVertex 0 0 1 = normalize (sample (NewVertex 0 0 5) (NewVertex 0 0 (-1)) (k - 1)) ∧
          one_block.world (NewVertex 0 0 1) = none) ∧
        ((NewVertex 0 0 1).isNil = true ↔ k = 0)) ∧
    sample (NewVertex 0 0 5) (NewVertex 0 0 (-1)) 40 =
      exact_sample (NewVertex 0 0 5) (NewVertex 0 0 (-1)) 40 :=
  ⟨⟨by decide, by decide!, rfl,
    hit_test_first_occupied.1 one_block (NewVertex 0 0 5) (NewVertex 0 0 (-1)) 8
      (NewVertex 0 0 0) (NewVertex 0 0 1) (by decide) (by decide!) rfl⟩,
    hit_test_first_occupied.2.1 (NewVertex 0 0 5) (NewVertex 0 0 (-1)) 40
      (by decide!) (by decide!)⟩

/-- C9, counterexample: in the world holding only block `(0,0,0)`, with
`float32` inputs and `max_distance = 1`: from `(2.6f, 0, 0)` along
`(-2.4f, 0, 0)` `hit_test` returns `(nil, nil)` although
`origin + 7*direction/8` rounds to the occupied key `(0,0,0)`; and from
`(1.2f, 0, 0)` along `(-0.8f, 0, 0)` it returns a hit although no point
`origin + k*direction/8`, `k < 8`, rounds to an occupied key. -/
theorem hit_test_float_miss :
    (one_block.hit_test (NewVertex (5452595 / 2097152) 0 0)
        (NewVertex (-5033165 / 2097152) 0 0) 1 = (nilVertex, nilVertex) ∧
      f32 (5452595 / 2097152) = 5452595 / 2097152 ∧
      f32 (-5033165 / 2097152) = -5033165 / 2097152 ∧
      ((7 : Nat) : Int) < 8 * 1 ∧
      one_block.world (normalize (exact_sample (NewVertex (5452595 / 2097152) 0 0)
        (NewVertex (-5033165 / 2097152) 0 0) 7)) = some STONE) ∧
    (one_block.hit_test (NewVertex (5033165 / 4194304) 0 0)
        (NewVertex (-13421773 / 16777216) 0 0) 1 ≠ (nilVertex, nilVertex) ∧
      ∀ k : Nat, k < 8 →
        one_block.world (normalize (exact_sample (NewVertex (5033165 / 4194304) 0 0)
          (NewVertex (-13421773 / 16777216) 0 0) k)) = none) := by
  refine ⟨⟨by decide!, by decide!, by decide!, by decide, by decide!⟩, by decide!, by decide!⟩

/-- C9, amended (miss): for `max_distance ≥ 0`, `hit_test` returns `(nil, nil)`
iff none of the `8*max_distance` points `s_k` that the loop accumulates in
`float32` (`sample`: `s_0 = origin`, `s_(k+1) = f32(s_k + f32(direction/8))`)
rounds to an occupied key.  The nil vertex differs from every key built by
`NewVertex`, `(0,0,0)` included, so when the first occupied sample cell is the
block at the origin the result carries the non-nil hit key `(0,0,0)` and is not
a miss. -/
theorem hit_test_nil_iff (self : Model) (origin vector : Vertex) (max_distance : Int)
    (hmax : 0 ≤ max_distance) :
    (self.hit_test origin vector max_distance = (nilVertex, nilVertex) ↔
        ∀ k : Nat, (k : Int) < 8 * max_distance →
          self.world (normalize (sample origin vector k)) = none) ∧
      (∀ x y z : ℚ, NewVertex x y z ≠ nilVertex ∧ (NewVertex x y z).isNil = false) ∧
      nilVertex.isNil = true ∧
      (∀ k : Nat, (k : Int) < 8 * max_distance →
        (∀ j, j < k → self.world (normalize (sample origin vector j)) = none) →
        normalize (sample origin vector k) = NewVertex 0 0 0 →
        self.world (NewVertex 0 0 0) ≠ none →
        (self.hit_test origin vector max_distance).1 = NewVertex 0 0 0 ∧
          (self.hit_test origin vector max_distance).1.isNil = false ∧
          self.hit_test origin vector max_distance ≠ (nilVertex, nilVertex)) := by
  have hspec := hit_test_spec self origin vector max_distance hmax
  refine ⟨⟨?_, ?_⟩, ?_, rfl, ?_⟩
  · intro hnil
    rcases hspec with ⟨k, _, _, _, hres⟩ | ⟨hall, _⟩
    · rw [hnil] at hres
      exact absurd (congrArg Prod.fst hres).symm (normalize_ne_nil _)
    · exact hall
  · intro hall
    rcases hspec with ⟨k, hk, _, hocc, _⟩ | ⟨_, hres⟩
    · exact absurd (hall k hk) hocc
    · exact hres
  · intro x y z
    refine ⟨?_, rfl⟩
    intro h
    have := congrArg Vertex.isNotNil h
    simp [NewVertex, nilVertex] at this
  · intro k hk hbefore hkey hocc
    rcases hspec with ⟨k', _, hbefore', hocc', hres⟩ | ⟨hall, _⟩
    · have hkk : k' = k := by
        rcases Nat.lt_trichotomy k' k with hlt | heq | hgt
        · exact absurd (hbefore k' hlt) hocc'
        · exact heq
        · exact absurd (hkey ▸ hbefore' k hgt) hocc
      rw [hkk, hkey] at hres
      rw [hres]
      refine ⟨rfl, rfl, ?_⟩
      intro h
      have := congrArg (fun r => r.1.isNotNil) h
      simp [NewVertex, nilVertex] at this
    · exact absurd (hkey ▸ hall k hk) hocc

theorem hit_test_nil_iff_witness :
    (0 : Int) ≤ 8 ∧
      ((one_block.hit_test (NewVertex 0 0 0) (NewVertex 0 1 0) 8 = (nilVertex, nilVertex) ↔
          ∀ k : Nat, (k : Int) < 8 * 8 →
            one_block.world (normalize (sample (NewVertex 0 0 0) (NewVertex 0 1 0) k)) = none) ∧
        (∀ x y z : ℚ, NewVertex x y z ≠ nilVertex ∧ (NewVertex x y z).isNil = false) ∧
        nilVertex.isNil = true ∧
        (∀ k : Nat, (k : Int) < 8 * 8 →
          (∀ j, j < k →
            one_block.world (normalize (sample (NewVertex 0 0 0) (NewVertex 0 1 0) j)) = none) →
          normalize (sample (NewVertex 0 0 0) (NewVertex 0 1 0) k) = NewVertex 0 0 0 →
          one_block.world (NewVertex 0 0 0) ≠ none →
          (one_block.hit_test (NewVertex 0 0 0) (NewVertex 0 1 0) 8).1 = NewVertex 0 0 0 ∧
            (one_block.hit_test (NewVertex 0 0 0) (NewVertex 0 1 0) 8).1.isNil = false ∧
            one_block.hit_test (NewVertex 0 0 0) (NewVertex 0 1 0) 8 ≠ (nilVertex, nilVertex))) :=
  ⟨by decide, hit_test_nil_iff one_block (NewVertex 0 0 0) (NewVertex 0 1 0) 8 (by decide)⟩

/-! ## Collision -/

theorem xrange_loop_ge (stop : Int) :
    ∀ (fuel : Nat) (x : Int), ∀ y ∈ xrange_loop stop 1 fuel x, x ≤ y := by
  intro fuel
  induction fuel with
  | zero => intro x y hy; simp [xrange_loop] at hy
  | succ n ih =>
    intro x y hy
    simp only [xrange_loop] at hy
    by_cases hlt : x < stop
    · rw [if_pos hlt] at hy
      rcases List.mem_cons.1 hy with e | hmem
      · omega
      · have := ih (x + 1) y hmem
        omega
    · rw [if_neg hlt] at hy
      simp at hy

theorem xrange_nonneg (n : Int) : ∀ y ∈ xrange 0 n 1, 0 ≤ y :=
  xrange_loop_ge n _ 0

theorem faces_coord (face : Vertex) (hf : face ∈ FACES) (i : Int) :
    face.coord i = 0 ∨ face.coord i = 1 ∨ face.coord i = -1 := by
  simp only [FACES, List.mem_cons, List.mem_singleton, List.not_mem_nil, or_false] at hf
  rcases hf with rfl | rfl | rfl | rfl | rfl | rfl <;>
    simp only [Vertex.coord, NewVertex] <;> split_ifs <;> simp

theorem get_eq_coord (v : Vertex) (i : Int) (hi : i = 0 ∨ i = 1 ∨ i = 2) :
    v.get i = some (v.coord i) := by
  rcases hi with rfl | rfl | rfl <;> simp [Vertex.get, Vertex.coord]

theorem set_coord (v w : Vertex) (i j : Int) (f : ℚ) (hj : j = 0 ∨ j = 1 ∨ j = 2)
    (h : v.set i f = some w) : w.coord j = if j = i then f else v.coord j := by
  unfold Vertex.set at h
  by_cases h0 : i = 0
  · subst h0
    rw [if_pos rfl] at h
    cases Option.some.inj h
    rcases hj with rfl | rfl | rfl <;> simp [Vertex.coord]
  · rw [if_neg h0] at h
    by_cases h1 : i = 1
    · subst h1
      rw [if_pos rfl] at h
      cases Option.some.inj h
      rcases hj with rfl | rfl | rfl <;> simp [Vertex.coord]
    · rw [if_neg h1] at h
      by_cases h2 : i = 2
      · subst h2
        rw [if_pos rfl] at h
        cases Option.some.inj h
        rcases hj with rfl | rfl | rfl <;> simp [Vertex.coord]
      · rw [if_neg h2] at h
        exact Option.noConfusion h

theorem set_isSome (v : Vertex) (i : Int) (f : ℚ) (hi : i = 0 ∨ i = 1 ∨ i = 2) :
    ∃ w, v.set i f = some w := by
  rcases hi with rfl | rfl | rfl <;> simp [Vertex.set]

theorem pushed_coord (pi npi fi d : ℚ) (hfi : fi = 1 ∨ fi = -1) (hd : d = (pi - npi) * fi) :
    pi - (d - PAD) * fi = npi + PAD * fi := by
  subst hd
  rcases hfi with h | h <;> subst h <;> ring

theorem collide_heights_spec (np face : Vertex) (hf : face ∈ FACES) (i : Int) (d : ℚ)
    (hi : i = 0 ∨ i = 1 ∨ i = 2) (hfi : face.coord i = 1 ∨ face.coord i = -1)
    (w : Window) (p : Vertex) (hd : d = (p.coord i - np.coord i) * face.coord i)
    (hpad : PAD ≤ d) (hlog : LogOk w.model.world np p w.pushed) :
    ∀ l : List Int, (∀ dy ∈ l, 0 ≤ dy) →
      ∃ w' p', w.collide_heights np face i d l p = some (w', p') ∧ w'.model = w.model ∧
        LogOk w.model.world np p' w'.pushed := by
  intro l
  induction l with
  | nil => intro _; exact ⟨w, p, rfl, rfl, hlog⟩
  | cons dy rest ih =>
    intro hl
    obtain ⟨op1, h1⟩ := set_isSome np 1 (np.coord 1 - (dy : ℚ)) (Or.inr (Or.inl rfl))
    obtain ⟨op, h2⟩ := set_isSome op1 i (op1.coord i + face.coord i) hi
    obtain ⟨p', h3⟩ := set_isSome p i (p.coord i - (d - PAD) * face.coord i) hi
    have hprobe : probe np face i dy = some op := by
      simp only [probe, get_eq_coord np 1 (Or.inr (Or.inl rfl)), get_eq_coord op1 i hi,
        get_eq_coord face i hi, h1, h2, Option.bind_eq_bind, Option.some_bind, Option.pure_def]
    simp only [Window.collide_heights, get_eq_coord np 1 (Or.inr (Or.inl rfl)),
      get_eq_coord op1 i hi, get_eq_coord face i hi, get_eq_coord p i hi, h1, h2, h3,
      Option.bind_eq_bind, Option.some_bind, Option.pure_def]
    by_cases hocc : (w.model.world op).isNone = true
    · rw [if_pos hocc]
      exact ih (fun y hy => hl y (List.mem_cons_of_mem _ hy))
    · rw [if_neg hocc]
      have hp'i : p'.coord i = np.coord i + PAD * face.coord i := by
        rw [set_coord p p' i i _ hi h3, if_pos rfl]
        exact pushed_coord _ _ _ _ hfi hd
      refine ⟨_, p', rfl, ?_, ?_⟩
      · simp only []
        split_ifs <;> rfl
      · have hpushed : (if face = NewVertex 0 (-1) 0 ∨ face = NewVertex 0 1 0 then
            ({ w with dy := 0 } : Window) else w).pushed = w.pushed := by
          split_ifs <;> rfl
        intro e he
        simp only [hpushed, List.mem_append, List.mem_singleton] at he
        rcases he with he | he
        · obtain ⟨hfe, hj, hfj, hpj, hpr, hw⟩ := hlog e he
          refine ⟨hfe, hj, hfj, ?_, hpr, hw⟩
          rw [set_coord p p' i e.2.1 _ hj h3]
          by_cases hji : e.2.1 = i
          · rw [if_pos hji, pushed_coord _ _ _ _ hfi hd]
            rw [hji] at hpj hfj ⊢
            have hd' : d = PAD * e.1.coord i * face.coord i := by
              rw [hd, hpj]; ring
            rw [hd'] at hpad
            unfold PAD at hpad ⊢
            rcases hfi with h | h <;> rcases hfj with h' | h' <;> rw [h, h'] at hpad <;>
              rw [h, h'] <;> norm_num at hpad ⊢
          · rw [if_neg hji]; exact hpj
        · subst he
          refine ⟨hf, hi, hfi, hp'i, ⟨dy, hl dy (List.mem_cons_self _ _), hprobe⟩, ?_⟩
          intro hnone
          apply hocc
          rw [hnone]
          rfl

theorem collide_axis_spec (np face : Vertex) (hf : face ∈ FACES) (height : Int) (i : Int)
    (hi : i = 0 ∨ i = 1 ∨ i = 2) (w : Window) (p : Vertex)
    (hlog : LogOk w.model.world np p w.pushed) :
    ∃ w' p', w.collide_axis np face height p i = some (w', p') ∧ w'.model = w.model ∧
      LogOk w.model.world np p' w'.pushed := by
  simp only [Window.collide_axis, get_eq_coord face i hi, get_eq_coord p i hi,
    get_eq_coord np i hi, Option.bind_eq_bind, Option.some_bind, Option.pure_def]
  by_cases h0 : face.coord i = 0
  · rw [if_pos h0]
    exact ⟨w, p, rfl, rfl, hlog⟩
  · rw [if_neg h0]
    by_cases hd : (p.coord i - np.coord i) * face.coord i < PAD
    · rw [if_pos hd]
      exact ⟨w, p, rfl, rfl, hlog⟩
    · rw [if_neg hd]
      have hfi : face.coord i = 1 ∨ face.coord i = -1 := by
        rcases faces_coord face hf i with h | h
        · exact absurd h h0
        · exact h
      exact collide_heights_spec np face hf i _ hi hfi w p rfl (not_lt.1 hd) hlog _
        (xrange_nonneg height)

theorem collide_axes_spec (np face : Vertex) (hf : face ∈ FACES) (height : Int) (m : Model) :
    ∀ (l : List Int), (∀ i ∈ l, i = 0 ∨ i = 1 ∨ i = 2) → ∀ (w : Window) (p : Vertex),
      w.model = m → LogOk m.world np p w.pushed →
      ∃ w' p', Window.collide_axes np face height l w p = some (w', p') ∧ w'.model = m ∧
        LogOk m.world np p' w'.pushed := by
  intro l
  induction l with
  | nil => intro _ w p hm hlog; exact ⟨w, p, rfl, hm, hlog⟩
  | cons i rest ih =>
    intro hl w p hm hlog
    obtain ⟨w1, p1, h1, hm1, hlog1⟩ :=
      collide_axis_spec np face hf height i (hl i (List.mem_cons_self _ _)) w p (by rwa [hm])
    rw [hm] at hm1 hlog1
    obtain ⟨w2, p2, h2, hm2, hlog2⟩ :=
      ih (fun j hj => hl j (List.mem_cons_of_mem _ hj)) w1 p1 hm1 hlog1
    refine ⟨w2, p2, ?_, hm2, hlog2⟩
    simp only [Window.collide_axes, h1]
    exact h2

theorem collide_faces_spec (np : Vertex) (height : Int) (m : Model) :
    ∀ (l : List Vertex), (∀ f ∈ l, f ∈ FACES) → ∀ (w : Window) (p : Vertex),
      w.model = m → LogOk m.world np p w.pushed →
      ∃ w' p', Window.collide_faces np height l w p = some (w', p') ∧ w'.model = m ∧
        LogOk m.world np p' w'.pushed := by
  intro l
  induction l with
  | nil => intro _ w p hm hlog; exact ⟨w, p, rfl, hm, hlog⟩
  | cons f rest ih =>
    intro hl w p hm hlog
    have hidx : ∀ i ∈ xrange 0 3 1, i = 0 ∨ i = 1 ∨ i = 2 := by decide
    obtain ⟨w1, p1, h1, hm1, hlog1⟩ :=
      collide_axes_spec np f (hl f (List.mem_cons_self _ _)) height m _ hidx w p hm hlog
    obtain ⟨w2, p2, h2, hm2, hlog2⟩ :=
      ih (fun g hg => hl g (List.mem_cons_of_mem _ hg)) w1 p1 hm1 hlog1
    refine ⟨w2, p2, ?_, hm2, hlog2⟩
    simp only [Window.collide_faces, h1]
    exact h2

/-- The method `collide` always completes; every push-back it records is sound
for the position it returns. -/
theorem collide_spec (self : Window) (position : Vertex) (height : Int)
    (hlog : self.pushed = []) :
    ∃ w' r, self.collide position height = some (w', r) ∧ w'.model = self.model ∧
      LogOk self.model.world (normalize position) r w'.pushed := by
  apply collide_faces_spec (normalize position) height self.model FACES (fun f hf => hf)
    self position rfl
  intro e he
  rw [hlog] at he
  simp at he

theorem face_up_of_coord (face : Vertex) (hf : face ∈ FACES) (h : face.coord 1 = 1) :
    face = NewVertex 0 1 0 := by
  simp only [FACES, List.mem_cons, List.mem_singleton, List.not_mem_nil, or_false] at hf
  rcases hf with rfl | rfl | rfl | rfl | rfl | rfl <;>
    first
      | rfl
      | (exfalso; norm_num [Vertex.coord, NewVertex] at h)

theorem int_eq_one_of_bounds (dy : Int) (h1 : (1 : ℚ) / 4 ≤ (dy : ℚ)) (h2 : (dy : ℚ) ≤ 5 / 4) :
    dy = 1 := by
  have h3 : (0 : ℚ) < (dy : ℚ) := by linarith
  have h4 : (dy : ℚ) < 2 := by linarith
  have h5 : 0 < dy := by exact_mod_cast h3
  have h6 : dy < 2 := by exact_mod_cast h4
  omega

theorem entry_inside_iff (world : Vertex → Option TextureType) (np r face : Vertex) (i : Int)
    (op : Vertex) (h : EntryOk world np r (face, i, op)) :
    (inside_extent r op i ↔ op = np) ∧ (op = np → face = NewVertex 0 1 0 ∧ i = 1) := by
  obtain ⟨hf, hi, hfi, hr, ⟨dy, hdy, hprobe⟩, _⟩ := h
  simp only at hf hi hfi hr hprobe
  have hdyq : (0 : ℚ) ≤ (dy : ℚ) := by exact_mod_cast hdy
  obtain ⟨npx, npy, npz, npn⟩ := np
  obtain ⟨rx, ry, rz, rn⟩ := r
  rcases hi with rfl | rfl | rfl
  · simp only [probe, Vertex.get, Vertex.set, Option.bind_eq_bind, Option.some_bind,
      Option.pure_def] at hprobe
    simp at hprobe
    subst hprobe
    simp only [Vertex.coord] at hfi hr
    simp at hr hfi
    have hno : ¬ inside_extent ⟨rx, ry, rz, rn⟩ ⟨npx + face.x, npy - (dy : ℚ), npz, npn⟩ 0 := by
      rintro ⟨ri, oi, h1, h2, h3, h4⟩
      simp [Vertex.get] at h1 h2
      subst h1 h2
      rw [hr] at h3 h4
      unfold PAD at h3 h4
      rcases hfi with h | h <;> rw [h] at h3 h4 <;> linarith
    have hne : ¬ ((⟨npx + face.x, npy - (dy : ℚ), npz, npn⟩ : Vertex) = ⟨npx, npy, npz, npn⟩) := by
      intro heq
      have hx : npx + face.x = npx := congrArg Vertex.x heq
      rcases hfi with h | h <;> rw [h] at hx <;> linarith
    exact ⟨⟨fun hin => absurd hin hno, fun heq => absurd heq hne⟩, fun heq => absurd heq hne⟩
  · simp only [probe, Vertex.get, Vertex.set, Option.bind_eq_bind, Option.some_bind,
      Option.pure_def] at hprobe
    simp at hprobe
    subst hprobe
    simp only [Vertex.coord] at hfi hr
    simp at hr hfi
    have hin : inside_extent ⟨rx, ry, rz, rn⟩ ⟨npx, npy - (dy : ℚ) + face.y, npz, npn⟩ 1 ↔
        (npy - (dy : ℚ) + face.y - 1 / 2 ≤ ry ∧ ry ≤ npy - (dy : ℚ) + face.y + 1 / 2) := by
      constructor
      · rintro ⟨ri, oi, h1, h2, h3, h4⟩
        simp [Vertex.get] at h1 h2
        subst h1 h2
        exact ⟨h3, h4⟩
      · rintro ⟨h3, h4⟩
        exact ⟨ry, npy - (dy : ℚ) + face.y, by simp [Vertex.get], by simp [Vertex.get], h3, h4⟩
    have heq : ((⟨npx, npy - (dy : ℚ) + face.y, npz, npn⟩ : Vertex) = ⟨npx, npy, npz, npn⟩) ↔
        (dy : ℚ) = face.y := by
      constructor
      · intro h
        have hy : npy - (dy : ℚ) + face.y = npy := congrArg Vertex.y h
        linarith
      · intro h
        have : npy - (dy : ℚ) + face.y = npy := by rw [h]; ring
        rw [this]
    rw [hin, heq, hr]
    unfold PAD
    rcases hfi with h | h
    · rw [h]
      refine ⟨⟨?_, ?_⟩, ?_⟩
      · rintro ⟨h3, h4⟩
        have := int_eq_one_of_bounds dy (by linarith) (by linarith)
        rw [this]; norm_num
      · intro hd
        rw [hd]
        constructor <;> linarith
      · intro _
        exact ⟨face_up_of_coord face hf (by simp [Vertex.coord, h]), rfl⟩
    · rw [h]
      refine ⟨⟨?_, ?_⟩, ?_⟩
      · rintro ⟨h3, h4⟩
        exfalso; linarith
      · intro hd
        exfalso; linarith
      · intro hd
        exfalso; linarith
  · simp only [probe, Vertex.get, Vertex.set, Option.bind_eq_bind, Option.some_bind,
      Option.pure_def] at hprobe
    simp at hprobe
    subst hprobe
    simp only [Vertex.coord] at hfi hr
    simp at hr hfi
    have hno : ¬ inside_extent ⟨rx, ry, rz, rn⟩ ⟨npx, npy - (dy : ℚ), npz + face.z, npn⟩ 2 := by
      rintro ⟨ri, oi, h1, h2, h3, h4⟩
      simp [Vertex.get] at h1 h2
      subst h1 h2
      rw [hr] at h3 h4
      unfold PAD at h3 h4
      rcases hfi with h | h <;> rw [h] at h3 h4 <;> linarith
    have hne : ¬ ((⟨npx, npy - (dy : ℚ), npz + face.z, npn⟩ : Vertex) = ⟨npx, npy, npz, npn⟩) := by
      intro heq
      have hx : npz + face.z = npz := congrArg Vertex.z heq
      rcases hfi with h | h <;> rw [h] at hx <;> linarith
    exact ⟨⟨fun hin => absurd hin hno, fun heq => absurd heq hne⟩, fun heq => absurd heq hne⟩

/-- C10, counterexample: with the single block `(0,0,0)` in the world, desired
position `(0, 0.375, 0)` and height 2, `collide` applies one push-back, on the y
axis for face `(0,1,0)`, triggered by the probe of height slice 1, which is the
occupied cell `(0,0,0)` itself; the corrected coordinate `y = 0.25` lies inside
the extent `[-0.5, 0.5]` of that block. -/
theorem collide_pushback_inside_own_cell :
    (1 : Int) ≤ 2 ∧ (Window.standing one_block).pushed = [] ∧
      ∃ w' r, (Window.standing one_block).collide (NewVertex 0 (3 / 8) 0) 2 = some (w', r) ∧
        r = NewVertex 0 (1 / 4) 0 ∧
        w'.pushed = [(NewVertex 0 1 0, 1, NewVertex 0 0 0)] ∧
        one_block.world (NewVertex 0 0 0) ≠ none ∧
        inside_extent r (NewVertex 0 0 0) 1 := by
  have hev : ((Window.standing one_block).collide (NewVertex 0 (3 / 8) 0) 2).map
      (fun x => (x.2, x.1.pushed)) =
      some (NewVertex 0 (1 / 4) 0, [(NewVertex 0 1 0, 1, NewVertex 0 0 0)]) := by decide!
  refine ⟨by decide, rfl, ?_⟩
  cases hc : (Window.standing one_block).collide (NewVertex 0 (3 / 8) 0) 2 with
  | none => rw [hc] at hev; exact Option.noConfusion hev
  | some x =>
    obtain ⟨w', r⟩ := x
    rw [hc] at hev
    simp only [Option.map_some', Option.some.injEq, Prod.mk.injEq] at hev
    obtain ⟨hr, hp⟩ := hev
    refine ⟨w', r, rfl, hr, hp, by decide!, ?_⟩
    rw [hr]
    exact ⟨1 / 4, 0, by decide!, by decide!, by norm_num, by norm_num⟩

/-- C10, amended: for every world, desired position and height `≥ 1`, `collide`
completes, and for each push-back it applied (face, axis `i`, occupied probe
cell `op`) the corrected coordinate on axis `i` lies inside the extent
`centre ± 0.5` of `op` exactly when `op` is the entity's own rounded cell
`normalize(position)`, which is probed only for face `(0,1,0)` on the y axis;
for every other triggering block the corrected coordinate is outside its
extent. -/
theorem collide_pushback_outside (self : Window) (position : Vertex) (height : Int)
    (_ : 1 ≤ height) (hlog : self.pushed = []) :
    ∃ w' r, self.collide position height = some (w', r) ∧
      ∀ face i op, (face, i, op) ∈ w'.pushed →
        self.model.world op ≠ none ∧
        (inside_extent r op i ↔ op = normalize position) ∧
        (op = normalize position → face = NewVertex 0 1 0 ∧ i = 1) := by
  obtain ⟨w', r, hc, _, hok⟩ := collide_spec self position height hlog
  refine ⟨w', r, hc, ?_⟩
  intro face i op he
  have hentry := hok (face, i, op) he
  exact ⟨hentry.2.2.2.2.2, entry_inside_iff _ _ _ _ _ _ hentry⟩

theorem collide_pushback_outside_witness :
    (1 : Int) ≤ 2 ∧ (Window.standing one_block).pushed = [] ∧
      ∃ w' r, (Window.standing one_block).collide (NewVertex 0 (5 / 8) 0) 2 = some (w', r) ∧
        ∀ face i op, (face, i, op) ∈ w'.pushed →
          (Window.standing one_block).model.world op ≠ none ∧
          (inside_extent r op i ↔ op = normalize (NewVertex 0 (5 / 8) 0)) ∧
          (op = normalize (NewVertex 0 (5 / 8) 0) → face = NewVertex 0 1 0 ∧ i = 1) :=
  ⟨by decide, rfl,
    collide_pushback_outside (Window.standing one_block) (NewVertex 0 (5 / 8) 0) 2
      (by decide) rfl⟩

/-! ## Vertex accessors and rounding -/

/-- C18 (component accessors): `v.get(i)` and `v.set(i, f)` fail (panic) iff `i`
is outside `{0, 1, 2}`; `get` returns the x, y, z component for 0, 1, 2; after
`set(i, f)`, `get(i)` returns `f` while the other two components and the nil
flag are unchanged. -/
theorem vertex_get_set (v : Vertex) (i : Int) (f : ℚ) :
    (v.get i = none ↔ ¬ (i = 0 ∨ i = 1 ∨ i = 2)) ∧
      (v.set i f = none ↔ ¬ (i = 0 ∨ i = 1 ∨ i = 2)) ∧
      (v.get 0 = some v.x ∧ v.get 1 = some v.y ∧ v.get 2 = some v.z) ∧
      (∀ w, v.set i f = some w →
        w.get i = some f ∧ (∀ j, j ≠ i → w.get j = v.get j) ∧ w.isNotNil = v.isNotNil) := by
  refine ⟨?_, ?_, ⟨rfl, rfl, rfl⟩, ?_⟩
  · unfold Vertex.get
    by_cases h0 : i = 0
    · simp [h0]
    by_cases h1 : i = 1
    · simp [h1]
    by_cases h2 : i = 2
    · simp [h2]
    simp [h0, h1, h2]
  · unfold Vertex.set
    by_cases h0 : i = 0
    · simp [h0]
    by_cases h1 : i = 1
    · simp [h1]
    by_cases h2 : i = 2
    · simp [h2]
    simp [h0, h1, h2]
  · intro w hw
    unfold Vertex.set at hw
    by_cases h0 : i = 0
    · subst h0
      rw [if_pos rfl] at hw
      cases Option.some.inj hw
      refine ⟨rfl, ?_, rfl⟩
      intro j hj
      simp [Vertex.get, hj]
    rw [if_neg h0] at hw
    by_cases h1 : i = 1
    · subst h1
      rw [if_pos rfl] at hw
      cases Option.some.inj hw
      refine ⟨rfl, ?_, rfl⟩
      intro j hj
      by_cases hj0 : j = 0 <;> simp [Vertex.get, hj, hj0]
    rw [if_neg h1] at hw
    by_cases h2 : i = 2
    · subst h2
      rw [if_pos rfl] at hw
      cases Option.some.inj hw
      refine ⟨rfl, ?_, rfl⟩
      intro j hj
      by_cases hj0 : j = 0 <;> by_cases hj1 : j = 1 <;> simp [Vertex.get, hj, hj0, hj1]
    rw [if_neg h2] at hw
    exact Option.noConfusion hw

theorem round_int (n : Int) : round (n : ℚ) = n := by
  unfold round
  by_cases h : (n : ℚ) < 0
  · rw [if_pos h]
    have : Int.ceil ((n : ℚ) - 1 / 2) = n := by
      rw [Int.ceil_eq_iff]
      constructor <;> norm_num
    rw [this]
  · rw [if_neg h]
    have : Int.floor ((n : ℚ) + 1 / 2) = n := by
      rw [Int.floor_eq_iff]
      constructor <;> norm_num
    rw [this]

/-- The value `round x` as an integer: within `1/2` of `x`, and strictly beyond
`x` from zero when `x` is half-way between two integers. -/
theorem round_spec (x : ℚ) :
    ∃ n : Int, round x = (n : ℚ) ∧ |x - n| ≤ 1 / 2 ∧
      (|x - n| = 1 / 2 → |x| < |(n : ℚ)|) := by
  unfold round
  by_cases h : x < 0
  · rw [if_pos h]
    refine ⟨Int.ceil (x - 1 / 2), rfl, ?_, ?_⟩
    · have h1 := Int.ceil_lt_add_one (x - 1 / 2)
      have h2 := Int.le_ceil (x - 1 / 2)
      rw [abs_le]
      constructor <;> linarith
    · intro habs
      have h1 := Int.ceil_lt_add_one (x - 1 / 2)
      have h2 := Int.le_ceil (x - 1 / 2)
      have hx : x - (Int.ceil (x - 1 / 2) : ℚ) = 1 / 2 := by
        rcases abs_eq (by norm_num : (0 : ℚ) ≤ 1 / 2) |>.1 habs with e | e
        · exact e
        · exfalso; linarith
      have hn : ((Int.ceil (x - 1 / 2) : Int) : ℚ) < 0 := by linarith
      rw [abs_of_neg h, abs_of_neg hn]
      linarith
  · rw [if_neg h]
    have h0 : 0 ≤ x := not_lt.1 h
    refine ⟨Int.floor (x + 1 / 2), rfl, ?_, ?_⟩
    · have h1 := Int.floor_le (x + 1 / 2)
      have h2 := Int.lt_floor_add_one (x + 1 / 2)
      rw [abs_le]
      constructor <;> linarith
    · intro habs
      have h1 := Int.floor_le (x + 1 / 2)
      have h2 := Int.lt_floor_add_one (x + 1 / 2)
      have hx : x - (Int.floor (x + 1 / 2) : ℚ) = -(1 / 2) := by
        rcases abs_eq (by norm_num : (0 : ℚ) ≤ 1 / 2) |>.1 habs with e | e
        · exfalso; linarith
        · exact e
      have hn : (0 : ℚ) < ((Int.floor (x + 1 / 2) : Int) : ℚ) := by linarith
      rw [abs_of_nonneg h0, abs_of_pos hn]
      linarith

theorem nearest_of_half (x : ℚ) (n : Int) (h : |x - n| ≤ 1 / 2) (m : Int) :
    |x - n| ≤ |x - m| := by
  by_cases hmn : m = n
  · rw [hmn]
  · have h1 : (1 : ℚ) ≤ |(n : ℚ) - m| := by
      have : (1 : Int) ≤ |n - m| := by
        have : n - m ≠ 0 := fun e => hmn (by omega)
        exact Int.one_le_abs this
      have h2 : ((1 : Int) : ℚ) ≤ ((|n - m| : Int) : ℚ) := by exact_mod_cast this
      simpa using h2
    have h2 : |(n : ℚ) - m| ≤ |x - n| + |x - m| := by
      have : (n : ℚ) - m = (x - m) - (x - n) := by ring
      rw [this]
      calc |(x - m) - (x - n)| ≤ |x - m| + |x - n| := abs_sub _ _
        _ = |x - n| + |x - m| := add_comm _ _
    linarith

/-- C15 (rounding): `round x` is the integer nearest to `x`, ties going away from
zero (`round(0.5) = 1`, `round(-0.5) = -1`, `round(2.5) = 3`, `round(-2.5) = -3`),
so `|x - round x| ≤ 1/2`; `normalize` rounds each of the three components,
returns a non-nil key with integral components, and is idempotent. -/
theorem round_half_away_from_zero :
    (∀ x : ℚ, ∃ n : Int, round x = (n : ℚ) ∧ |x - round x| ≤ 1 / 2 ∧
      (∀ m : Int, |x - round x| ≤ |x - m|) ∧ (|x - round x| = 1 / 2 → |x| < |round x|)) ∧
    (round (1 / 2) = 1 ∧ round (-1 / 2) = -1 ∧ round (5 / 2) = 3 ∧ round (-5 / 2) = -3) ∧
    (∀ v : Vertex, normalize v = NewVertex (round v.x) (round v.y) (round v.z) ∧
      (normalize v).isNil = false ∧
      (∃ a b c : Int, normalize v = NewVertexInt a b c) ∧
      normalize (normalize v) = normalize v) := by
  refine ⟨?_, ⟨by decide!, by decide!, by decide!, by decide!⟩, ?_⟩
  · intro x
    obtain ⟨n, hn, h1, h2⟩ := round_spec x
    refine ⟨n, hn, ?_, ?_, ?_⟩
    · rw [hn]; exact h1
    · rw [hn]; exact nearest_of_half x n h1
    · rw [hn]; exact h2
  · intro v
    obtain ⟨a, ha, _⟩ := round_spec v.x
    obtain ⟨b, hb, _⟩ := round_spec v.y
    obtain ⟨c, hc, _⟩ := round_spec v.z
    refine ⟨rfl, rfl, ⟨a, b, c, ?_⟩, ?_⟩
    · simp only [normalize, NewVertexInt, ha, hb, hc]
    · simp only [normalize, NewVertex, ha, hb, hc, round_int]

/-! ## Exact form of `collide` -/

theorem set_eq_setc (v : Vertex) (i : Int) (f : ℚ) (hi : i = 0 ∨ i = 1 ∨ i = 2) :
    v.set i f = some (v.setc i f) := by
  rcases hi with rfl | rfl | rfl <;> simp [Vertex.set, Vertex.setc]

theorem collide_heights_eq (np face : Vertex) (i : Int) (d : ℚ)
    (hi : i = 0 ∨ i = 1 ∨ i = 2) (w : Window) (p : Vertex) :
    ∀ l : List Int, w.collide_heights np face i d l p =
      some (match first_probe w.model.world np face i l with
        | none => (w, p)
        | some op => (pushed_window w face i op, p.setc i (p.coord i - (d - PAD) * face.coord i))) := by
  intro l
  induction l with
  | nil => rfl
  | cons dy rest ih =>
    obtain ⟨op1, h1⟩ := set_isSome np 1 (np.coord 1 - (dy : ℚ)) (Or.inr (Or.inl rfl))
    obtain ⟨op, h2⟩ := set_isSome op1 i (op1.coord i + face.coord i) hi
    have hprobe : probe np face i dy = some op := by
      simp only [probe, get_eq_coord np 1 (Or.inr (Or.inl rfl)), get_eq_coord op1 i hi,
        get_eq_coord face i hi, h1, h2, Option.bind_eq_bind, Option.some_bind, Option.pure_def]
    simp only [Window.collide_heights, first_probe, hprobe,
      get_eq_coord np 1 (Or.inr (Or.inl rfl)),
      get_eq_coord op1 i hi, get_eq_coord face i hi, get_eq_coord p i hi, h1, h2,
      set_eq_setc p i _ hi, Option.bind_eq_bind, Option.some_bind, Option.pure_def]
    by_cases hocc : (w.model.world op).isNone = true
    · rw [if_pos hocc, if_pos hocc]
      exact ih
    · rw [if_neg hocc, if_neg hocc]
      rfl

theorem collide_axis_eq (np face : Vertex) (height : Int) (i : Int)
    (hi : i = 0 ∨ i = 1 ∨ i = 2) (w : Window) (p : Vertex) :
    w.collide_axis np face height p i =
      some (if face.coord i = 0 then (w, p)
        else push_step np face i (xrange 0 height 1) (w, p)) := by
  simp only [Window.collide_axis, get_eq_coord face i hi, get_eq_coord p i hi,
    get_eq_coord np i hi, Option.bind_eq_bind, Option.some_bind, Option.pure_def]
  by_cases h0 : face.coord i = 0
  · rw [if_pos h0, if_pos h0]
  · rw [if_neg h0, if_neg h0]
    unfold push_step
    simp only []
    by_cases hd : (p.coord i - np.coord i) * face.coord i < PAD
    · rw [if_pos hd, if_pos hd]
    · rw [if_neg hd, if_neg hd, collide_heights_eq np face i _ hi]

theorem xrange_three : xrange 0 3 1 = [0, 1, 2] := by decide

theorem collide_axes_cons (np face : Vertex) (height : Int) (i : Int) (rest : List Int)
    (hi : i = 0 ∨ i = 1 ∨ i = 2) (w : Window) (p : Vertex) :
    Window.collide_axes np face height (i :: rest) w p =
      Window.collide_axes np face height rest
        (if face.coord i = 0 then (w, p)
          else push_step np face i (xrange 0 height 1) (w, p)).1
        (if face.coord i = 0 then (w, p)
          else push_step np face i (xrange 0 height 1) (w, p)).2 := by
  simp only [Window.collide_axes, collide_axis_eq np face height i hi w p]

/-- For a face whose only non-zero component is on axis `i`, the loop over the
three dimensions is the single step on axis `i`. -/
theorem collide_axes_face (np face : Vertex) (height : Int) (i : Int)
    (hi : i = 0 ∨ i = 1 ∨ i = 2) (hne : face.coord i ≠ 0)
    (hz : ∀ j : Int, (j = 0 ∨ j = 1 ∨ j = 2) → j ≠ i → face.coord j = 0)
    (w : Window) (p : Vertex) :
    Window.collide_axes np face height (xrange 0 3 1) w p =
      some (push_step np face i (xrange 0 height 1) (w, p)) := by
  rw [xrange_three, collide_axes_cons _ _ _ _ _ (Or.inl rfl),
    collide_axes_cons _ _ _ _ _ (Or.inr (Or.inl rfl)),
    collide_axes_cons _ _ _ _ _ (Or.inr (Or.inr rfl))]
  rcases hi with rfl | rfl | rfl
  · rw [if_neg hne, if_pos (hz 1 (Or.inr (Or.inl rfl)) (by decide)),
      if_pos (hz 2 (Or.inr (Or.inr rfl)) (by decide))]
    rfl
  · rw [if_pos (hz 0 (Or.inl rfl) (by decide)), if_neg hne,
      if_pos (hz 2 (Or.inr (Or.inr rfl)) (by decide))]
    rfl
  · rw [if_pos (hz 0 (Or.inl rfl) (by decide)),
      if_pos (hz 1 (Or.inr (Or.inl rfl)) (by decide)), if_neg hne]
    rfl

theorem face_x_coord (c : ℚ) :
    (NewVertex c 0 0).coord 0 = c ∧
      ∀ j : Int, (j = 0 ∨ j = 1 ∨ j = 2) → j ≠ 0 → (NewVertex c 0 0).coord j = 0 := by
  refine ⟨rfl, ?_⟩
  intro j hj hne
  rcases hj with rfl | rfl | rfl
  · exact absurd rfl hne
  · rfl
  · rfl

theorem face_y_coord (c : ℚ) :
    (NewVertex 0 c 0).coord 1 = c ∧
      ∀ j : Int, (j = 0 ∨ j = 1 ∨ j = 2) → j ≠ 1 → (NewVertex 0 c 0).coord j = 0 := by
  refine ⟨rfl, ?_⟩
  intro j hj hne
  rcases hj with rfl | rfl | rfl
  · rfl
  · exact absurd rfl hne
  · rfl

theorem face_z_coord (c : ℚ) :
    (NewVertex 0 0 c).coord 2 = c ∧
      ∀ j : Int, (j = 0 ∨ j = 1 ∨ j = 2) → j ≠ 2 → (NewVertex 0 0 c).coord j = 0 := by
  refine ⟨rfl, ?_⟩
  intro j hj hne
  rcases hj with rfl | rfl | rfl
  · rfl
  · rfl
  · exact absurd rfl hne

/-- The whole of `collide`: of the eighteen face and axis pairs only six have a
non-zero face component, and they run in this order. -/
theorem collide_eq (self : Window) (position : Vertex) (height : Int) :
    self.collide position height =
      some (push_step (normalize position) (NewVertex 0 0 (-1)) 2 (xrange 0 height 1)
        (push_step (normalize position) (NewVertex 0 0 1) 2 (xrange 0 height 1)
          (push_step (normalize position) (NewVertex 1 0 0) 0 (xrange 0 height 1)
            (push_step (normalize position) (NewVertex (-1) 0 0) 0 (xrange 0 height 1)
              (push_step (normalize position) (NewVertex 0 (-1) 0) 1 (xrange 0 height 1)
                (push_step (normalize position) (NewVertex 0 1 0) 1 (xrange 0 height 1)
                  (self, position))))))) := by
  have h0 : (0 : Int) = 0 ∨ (0 : Int) = 1 ∨ (0 : Int) = 2 := Or.inl rfl
  have h1 : (1 : Int) = 0 ∨ (1 : Int) = 1 ∨ (1 : Int) = 2 := Or.inr (Or.inl rfl)
  have h2 : (2 : Int) = 0 ∨ (2 : Int) = 1 ∨ (2 : Int) = 2 := Or.inr (Or.inr rfl)
  have hy : ∀ (c : ℚ), c ≠ 0 → ∀ (w : Window) (p : Vertex),
      Window.collide_axes (normalize position) (NewVertex 0 c 0) height (xrange 0 3 1) w p =
        some (push_step (normalize position) (NewVertex 0 c 0) 1 (xrange 0 height 1) (w, p)) :=
    fun c hc w p => collide_axes_face _ _ _ 1 h1 (by rw [(face_y_coord c).1]; exact hc)
      (face_y_coord c).2 w p
  have hx : ∀ (c : ℚ), c ≠ 0 → ∀ (w : Window) (p : Vertex),
      Window.collide_axes (normalize position) (NewVertex c 0 0) height (xrange 0 3 1) w p =
        some (push_step (normalize position) (NewVertex c 0 0) 0 (xrange 0 height 1) (w, p)) :=
    fun c hc w p => collide_axes_face _ _ _ 0 h0 (by rw [(face_x_coord c).1]; exact hc)
      (face_x_coord c).2 w p
  have hz : ∀ (c : ℚ), c ≠ 0 → ∀ (w : Window) (p : Vertex),
      Window.collide_axes (normalize position) (NewVertex 0 0 c) height (xrange 0 3 1) w p =
        some (push_step (normalize position) (NewVertex 0 0 c) 2 (xrange 0 height 1) (w, p)) :=
    fun c hc w p => collide_axes_face _ _ _ 2 h2 (by rw [(face_z_coord c).1]; exact hc)
      (face_z_coord c).2 w p
  simp only [Window.collide, Window.collide_faces, FACES,
    hy 1 (by norm_num), hy (-1) (by norm_num), hx 1 (by norm_num), hx (-1) (by norm_num),
    hz 1 (by norm_num), hz (-1) (by norm_num)]

theorem setc_coord (v : Vertex) (i j : Int) (f : ℚ) (hi : i = 0 ∨ i = 1 ∨ i = 2)
    (hj : j = 0 ∨ j = 1 ∨ j = 2) : (v.setc i f).coord j = if j = i then f else v.coord j :=
  set_coord v (v.setc i f) i j f hj (set_eq_setc v i f hi)

theorem setc_flag (v : Vertex) (i : Int) (f : ℚ) : (v.setc i f).isNotNil = v.isNotNil := by
  unfold Vertex.setc
  split_ifs <;> rfl

theorem pushed_window_facts (w : Window) (face : Vertex) (i : Int) (op : Vertex) :
    (pushed_window w face i op).model = w.model ∧
      (pushed_window w face i op).pushed = w.pushed ++ [(face, i, op)] ∧
      (pushed_window w face i op).dy =
        (if face = NewVertex 0 (-1) 0 ∨ face = NewVertex 0 1 0 then 0 else w.dy) := by
  unfold pushed_window
  split_ifs <;> exact ⟨rfl, rfl, rfl⟩

/-- One step either changes nothing, or pushes back: then the overlap reached
`PAD`, a probe cell was occupied, and the coordinate lands `PAD` from the rounded
one. -/
theorem push_step_cases (np face : Vertex) (i : Int) (hs : List Int) (s : Window × Vertex)
    (hf : face.coord i = 1 ∨ face.coord i = -1) :
    (push_step np face i hs s = s ∧
        ¬ (PAD ≤ (s.2.coord i - np.coord i) * face.coord i ∧
          ∃ op, first_probe s.1.model.world np face i hs = some op)) ∨
      (∃ op, PAD ≤ (s.2.coord i - np.coord i) * face.coord i ∧
        first_probe s.1.model.world np face i hs = some op ∧
        push_step np face i hs s =
          (pushed_window s.1 face i op, s.2.setc i (np.coord i + PAD * face.coord i))) := by
  unfold push_step
  simp only []
  by_cases hd : (s.2.coord i - np.coord i) * face.coord i < PAD
  · left
    rw [if_pos hd]
    exact ⟨rfl, fun h => absurd h.1 (not_le.2 hd)⟩
  · rw [if_neg hd]
    cases hp : first_probe s.1.model.world np face i hs with
    | none =>
      left
      refine ⟨rfl, ?_⟩
      rintro ⟨_, op, hop⟩
      exact Option.noConfusion hop
    | some op =>
      right
      refine ⟨op, not_lt.1 hd, rfl, ?_⟩
      simp only []
      rw [pushed_coord _ _ _ _ hf rfl]

/-- The two steps of one axis, first face `fa`, then the opposite face `fb`. -/
theorem axis_outcome (np fa fb : Vertex) (i : Int) (hs : List Int) (s : Window × Vertex)
    (hi : i = 0 ∨ i = 1 ∨ i = 2) (hfa : fa.coord i = 1 ∨ fa.coord i = -1)
    (hfb : fb.coord i = -fa.coord i) :
    ∃ L, AxisOutcome np hs fa fb i s (push_step np fb i hs (push_step np fa i hs s)) L := by
  have hfb' : fb.coord i = 1 ∨ fb.coord i = -1 := by
    rcases hfa with h | h <;> rw [hfb, h] <;> norm_num
  rcases push_step_cases np fa i hs s hfa with ⟨ha, hna⟩ | ⟨opa, hda, hpa, ha⟩
  · rw [ha]
    rcases push_step_cases np fb i hs s hfb' with ⟨hb, hnb⟩ | ⟨opb, hdb, hpb, hb⟩
    · rw [hb]
      refine ⟨[], rfl, rfl, fun _ _ _ => rfl, by simp, ?_, ?_⟩
      · intro _
        refine ⟨rfl, rfl, ?_⟩
        rintro f (rfl | rfl)
        · exact hna
        · exact hnb
      · intro e he; simp at he
    · rw [hb]
      obtain ⟨hm, hp, hdy⟩ := pushed_window_facts s.1 fb i opb
      refine ⟨[(fb, i, opb)], hm, setc_flag _ _ _, ?_, hp, ?_, ?_⟩
      · intro j hj hji
        simp only [setc_coord _ _ _ _ hi hj, if_neg hji]
      · intro h; simp at h
      · intro e he
        simp only [List.mem_singleton] at he
        subst he
        refine ⟨rfl, Or.inr rfl, rfl, hdb, hpb, hdy, ?_⟩
        rw [setc_coord _ _ _ _ hi hi, if_pos rfl]
  · rw [ha]
    obtain ⟨hm, hp, hdy⟩ := pushed_window_facts s.1 fa i opa
    have hci : (s.2.setc i (np.coord i + PAD * fa.coord i)).coord i =
        np.coord i + PAD * fa.coord i := by
      rw [setc_coord _ _ _ _ hi hi, if_pos rfl]
    have hskip : push_step np fb i hs
        (pushed_window s.1 fa i opa, s.2.setc i (np.coord i + PAD * fa.coord i)) =
        (pushed_window s.1 fa i opa, s.2.setc i (np.coord i + PAD * fa.coord i)) := by
      unfold push_step
      simp only []
      rw [if_pos]
      rw [hci, hfb]
      unfold PAD
      rcases hfa with h | h <;> rw [h] <;> norm_num
    rw [hskip]
    refine ⟨[(fa, i, opa)], hm, setc_flag _ _ _, ?_, hp, ?_, ?_⟩
    · intro j hj hji
      simp only [setc_coord _ _ _ _ hi hj, if_neg hji]
    · intro h; simp at h
    · intro e he
      simp only [List.mem_singleton] at he
      subst he
      exact ⟨rfl, Or.inl rfl, rfl, hda, hpa, hdy, hci⟩

theorem round_quarter (x : ℚ) :
    round (round x + 1 / 4) = round x ∧ round (round x - 1 / 4) = round x := by
  obtain ⟨n, hn, _⟩ := round_spec x
  rw [hn]
  constructor
  · unfold round
    by_cases h : (n : ℚ) + 1 / 4 < 0
    · rw [if_pos h]
      have : Int.ceil ((n : ℚ) + 1 / 4 - 1 / 2) = n := by
        rw [Int.ceil_eq_iff]; constructor <;> norm_num <;> linarith
      rw [this]
    · rw [if_neg h]
      have : Int.floor ((n : ℚ) + 1 / 4 + 1 / 2) = n := by
        rw [Int.floor_eq_iff]; constructor <;> norm_num <;> linarith
      rw [this]
  · unfold round
    by_cases h : (n : ℚ) - 1 / 4 < 0
    · rw [if_pos h]
      have : Int.ceil ((n : ℚ) - 1 / 4 - 1 / 2) = n := by
        rw [Int.ceil_eq_iff]; constructor <;> norm_num <;> linarith
      rw [this]
    · rw [if_neg h]
      have : Int.floor ((n : ℚ) - 1 / 4 + 1 / 2) = n := by
        rw [Int.floor_eq_iff]; constructor <;> norm_num <;> linarith
      rw [this]

/-- What one axis contributes to the result of `collide`. -/
theorem axis_summary (np fa fb : Vertex) (i : Int) (hs : List Int) (s s2 : Window × Vertex)
    (L : List (Vertex × Int × Vertex)) (h : AxisOutcome np hs fa fb i s s2 L)
    (hfa : fa.coord i = 1 ∨ fa.coord i = -1) (hfb : fb.coord i = 1 ∨ fb.coord i = -1)
    (hnp : np.coord i = round (s.2.coord i)) :
    |s2.2.coord i - s.2.coord i| ≤ 1 / 4 ∧ round (s2.2.coord i) = round (s.2.coord i) ∧
      L.length ≤ 1 ∧
      (∀ e ∈ L, e.2.1 = i ∧ (e.1.coord i = 1 ∨ e.1.coord i = -1) ∧
        s2.2.coord i = round (s.2.coord i) + PAD * e.1.coord i) ∧
      (L = [] → s2.2.coord i = s.2.coord i) := by
  have hsome : ∀ e ∈ L, L = [e] ∧ e.2.1 = i ∧ (e.1.coord i = 1 ∨ e.1.coord i = -1) ∧
      PAD ≤ (s.2.coord i - round (s.2.coord i)) * e.1.coord i ∧
      s2.2.coord i = round (s.2.coord i) + PAD * e.1.coord i := by
    intro e he
    obtain ⟨h1, h2, h3, h4, _, _, h7⟩ := h.some_case e he
    rw [hnp] at h4 h7
    refine ⟨h1, h3, ?_, h4, h7⟩
    rcases h2 with e1 | e1 <;> rw [e1]
    · exact hfa
    · exact hfb
  cases hL : L with
  | nil =>
    obtain ⟨_, hc, _⟩ := h.none_case hL
    rw [hc]
    refine ⟨by norm_num, rfl, by simp, ?_, fun _ => rfl⟩
    intro e he; simp at he
  | cons e rest =>
    have he : e ∈ L := by rw [hL]; exact List.mem_cons_self _ _
    obtain ⟨h1, h2, h3, h4, h5⟩ := hsome e he
    have hrest : rest = [] := by
      rw [hL] at h1
      simpa using h1
    subst hrest
    obtain ⟨n, hn, hhalf, _⟩ := round_spec (s.2.coord i)
    rw [hn] at h4 h5
    rw [abs_le] at hhalf
    unfold PAD at h4 h5
    refine ⟨?_, ?_, by simp, ?_, ?_⟩
    · rw [h5, abs_le]
      rcases h3 with h3 | h3 <;> rw [h3] at h4 ⊢ <;> constructor <;> linarith
    · rw [h5, hn]
      have hq := round_quarter (s.2.coord i)
      rw [hn] at hq
      rcases h3 with h3 | h3 <;> rw [h3]
      · have : (n : ℚ) + 1 / 4 * 1 = (n : ℚ) + 1 / 4 := by ring
        rw [this]; exact hq.1
      · have : (n : ℚ) + 1 / 4 * -1 = (n : ℚ) - 1 / 4 := by ring
        rw [this]; exact hq.2
    · intro e' he'
      simp only [List.mem_singleton] at he'
      subst he'
      rw [hn]
      unfold PAD
      exact ⟨h2, h3, h5⟩
    · intro hnil
      exact absurd hnil (by simp)

/-- The result of `collide` as three axis outcomes, in the order y, x, z. -/
theorem collide_outcome (self : Window) (position : Vertex) (height : Int) :
    ∃ (sy sx r : Window × Vertex) (Ly Lx Lz : List (Vertex × Int × Vertex)),
      self.collide position height = some r ∧
      AxisOutcome (normalize position) (xrange 0 height 1) (NewVertex 0 1 0) (NewVertex 0 (-1) 0) 1
        (self, position) sy Ly ∧
      AxisOutcome (normalize position) (xrange 0 height 1) (NewVertex (-1) 0 0) (NewVertex 1 0 0) 0
        sy sx Lx ∧
      AxisOutcome (normalize position) (xrange 0 height 1) (NewVertex 0 0 1) (NewVertex 0 0 (-1)) 2
        sx r Lz := by
  obtain ⟨Ly, hy⟩ := axis_outcome (normalize position) (NewVertex 0 1 0) (NewVertex 0 (-1) 0) 1
    (xrange 0 height 1) (self, position) (Or.inr (Or.inl rfl)) (Or.inl rfl)
    (by norm_num [Vertex.coord, NewVertex])
  obtain ⟨Lx, hx⟩ := axis_outcome (normalize position) (NewVertex (-1) 0 0) (NewVertex 1 0 0) 0
    (xrange 0 height 1) _ (Or.inl rfl) (Or.inr rfl) (by norm_num [Vertex.coord, NewVertex])
  obtain ⟨Lz, hz⟩ := axis_outcome (normalize position) (NewVertex 0 0 1) (NewVertex 0 0 (-1)) 2
    (xrange 0 height 1) _ (Or.inr (Or.inr rfl)) (Or.inl rfl)
    (by norm_num [Vertex.coord, NewVertex])
  exact ⟨_, _, _, Ly, Lx, Lz, collide_eq self position height, hy, hx, hz⟩

theorem collide_axis_facts (self : Window) (position : Vertex) (height : Int) :
    ∃ (w' : Window) (r : Vertex) (Ly Lx Lz : List (Vertex × Int × Vertex)),
      self.collide position height = some (w', r) ∧ w'.model = self.model ∧
      r.isNotNil = position.isNotNil ∧
      w'.pushed = self.pushed ++ Ly ++ Lx ++ Lz ∧
      AxisFacts position r 1 Ly ∧ AxisFacts position r 0 Lx ∧ AxisFacts position r 2 Lz := by
  obtain ⟨sy, sx, res, Ly, Lx, Lz, hc, hy, hx, hz⟩ := collide_outcome self position height
  have v0 : (0 : Int) = 0 ∨ (0 : Int) = 1 ∨ (0 : Int) = 2 := Or.inl rfl
  have v1 : (1 : Int) = 0 ∨ (1 : Int) = 1 ∨ (1 : Int) = 2 := Or.inr (Or.inl rfl)
  have v2 : (2 : Int) = 0 ∨ (2 : Int) = 1 ∨ (2 : Int) = 2 := Or.inr (Or.inr rfl)
  have hy0 : sy.2.coord 0 = position.coord 0 := hy.others 0 v0 (by decide)
  have hy2 : sy.2.coord 2 = position.coord 2 := hy.others 2 v2 (by decide)
  have hx1 : sx.2.coord 1 = sy.2.coord 1 := hx.others 1 v1 (by decide)
  have hx2 : sx.2.coord 2 = sy.2.coord 2 := hx.others 2 v2 (by decide)
  have hz0 : res.2.coord 0 = sx.2.coord 0 := hz.others 0 v0 (by decide)
  have hz1 : res.2.coord 1 = sx.2.coord 1 := hz.others 1 v1 (by decide)
  have Sy := axis_summary _ _ _ 1 _ _ _ Ly hy (Or.inl rfl) (Or.inr rfl) rfl
  have Sx := axis_summary _ _ _ 0 _ _ _ Lx hx (Or.inr rfl) (Or.inl rfl)
    (by rw [hy0]; rfl)
  have Sz := axis_summary _ _ _ 2 _ _ _ Lz hz (Or.inl rfl) (Or.inr rfl)
    (by rw [hx2, hy2]; rfl)
  refine ⟨res.1, res.2, Ly, Lx, Lz, hc, ?_, ?_, ?_, ?_, ?_, ?_⟩
  · rw [hz.model, hx.model, hy.model]
  · rw [hz.flag, hx.flag, hy.flag]
  · rw [hz.pushed, hx.pushed, hy.pushed]
  · unfold AxisFacts
    rw [hz1, hx1]
    exact Sy
  · unfold AxisFacts
    rw [hz0, ← hy0]
    exact Sx
  · unfold AxisFacts
    rw [← hy2, ← hx2]
    exact Sz

theorem coord_zero (v : Vertex) : v.coord 0 = v.x := rfl

theorem coord_one (v : Vertex) : v.coord 1 = v.y := rfl

theorem coord_two (v : Vertex) : v.coord 2 = v.z := rfl

theorem filter_axis_nil (L : List (Vertex × Int × Vertex)) (a i : Int)
    (h : ∀ e ∈ L, e.2.1 = a) (hne : a ≠ i) :
    L.filter (fun e => decide (e.2.1 = i)) = [] := by
  rw [List.filter_eq_nil_iff]
  intro e he
  simp only [decide_eq_true_eq]
  rw [h e he]
  exact hne

theorem filter_axis_length (Ly Lx Lz : List (Vertex × Int × Vertex))
    (hy : ∀ e ∈ Ly, e.2.1 = 1) (hx : ∀ e ∈ Lx, e.2.1 = 0) (hz : ∀ e ∈ Lz, e.2.1 = 2)
    (ly : Ly.length ≤ 1) (lx : Lx.length ≤ 1) (lz : Lz.length ≤ 1) (i : Int) :
    ((Ly ++ Lx ++ Lz).filter (fun e => decide (e.2.1 = i))).length ≤ 1 := by
  rw [List.filter_append, List.filter_append, List.length_append, List.length_append]
  have fy := List.length_filter_le (fun e : Vertex × Int × Vertex => decide (e.2.1 = i)) Ly
  have fx := List.length_filter_le (fun e : Vertex × Int × Vertex => decide (e.2.1 = i)) Lx
  have fz := List.length_filter_le (fun e : Vertex × Int × Vertex => decide (e.2.1 = i)) Lz
  by_cases h1 : (1 : Int) = i
  · rw [filter_axis_nil Lx 0 i hx (by omega), filter_axis_nil Lz 2 i hz (by omega)]
    simp only [List.length_nil]
    omega
  · rw [filter_axis_nil Ly 1 i hy h1]
    by_cases h0 : (0 : Int) = i
    · rw [filter_axis_nil Lz 2 i hz (by omega)]
      simp only [List.length_nil]
      omega
    · rw [filter_axis_nil Lx 0 i hx h0]
      simp only [List.length_nil]
      omega

/-- C19 (bounded correction): for height `≥ 0`, `collide` completes and the
returned position `r` is within `0.25` of the desired position on every axis;
each axis is corrected at most once (after a push-back the overlap of the
opposite face is exactly `-PAD`); a corrected component equals
`round(p_i) ± 0.25`, an uncorrected one is unchanged; and
`normalize(r) = normalize(p)`. -/
theorem collide_stays_in_cell (self : Window) (position : Vertex) (height : Int)
    (_ : 0 ≤ height) (hlog : self.pushed = []) :
    ∃ w' r, self.collide position height = some (w', r) ∧
      (|r.x - position.x| ≤ 1 / 4 ∧ |r.y - position.y| ≤ 1 / 4 ∧
        |r.z - position.z| ≤ 1 / 4) ∧
      (∀ i : Int, (w'.pushed.filter (fun e => decide (e.2.1 = i))).length ≤ 1) ∧
      (∀ face i op, (face, i, op) ∈ w'.pushed →
        (i = 0 ∨ i = 1 ∨ i = 2) ∧ (face.coord i = 1 ∨ face.coord i = -1) ∧
        r.get i = some (round (position.coord i) + PAD * face.coord i) ∧
        (r.coord i - (normalize position).coord i) * (-(face.coord i)) = -PAD) ∧
      (∀ i : Int, (i = 0 ∨ i = 1 ∨ i = 2) → (∀ e ∈ w'.pushed, e.2.1 ≠ i) →
        r.get i = position.get i) ∧
      normalize r = normalize position := by
  obtain ⟨w', r, Ly, Lx, Lz, hc, _, _, hp, Fy, Fx, Fz⟩ :=
    collide_axis_facts self position height
  rw [hlog, List.nil_append] at hp
  obtain ⟨ay, ry, ly, ey, ny⟩ := Fy
  obtain ⟨ax, rx, lx, ex, nx⟩ := Fx
  obtain ⟨az, rz, lz, ez, nz⟩ := Fz
  have hentry : ∀ (L : List (Vertex × Int × Vertex)) (a : Int), (a = 0 ∨ a = 1 ∨ a = 2) →
      (∀ e ∈ L, e.2.1 = a ∧ (e.1.coord a = 1 ∨ e.1.coord a = -1) ∧
        r.coord a = round (position.coord a) + PAD * e.1.coord a) →
      (normalize position).coord a = round (position.coord a) →
      ∀ face i op, (face, i, op) ∈ L →
        (i = 0 ∨ i = 1 ∨ i = 2) ∧ (face.coord i = 1 ∨ face.coord i = -1) ∧
        r.get i = some (round (position.coord i) + PAD * face.coord i) ∧
        (r.coord i - (normalize position).coord i) * (-(face.coord i)) = -PAD := by
    intro L a ha hL hnp face i op he
    obtain ⟨h1, h2, h3⟩ := hL _ he
    simp only at h1 h2 h3
    subst h1
    refine ⟨ha, h2, ?_, ?_⟩
    · rw [get_eq_coord r i ha, h3]
    · rw [h3, hnp]
      unfold PAD
      rcases h2 with h | h <;> rw [h] <;> norm_num
  refine ⟨w', r, hc, ⟨ax, ay, az⟩, ?_, ?_, ?_, ?_⟩
  · intro i
    rw [hp]
    exact filter_axis_length Ly Lx Lz (fun e he => (ey e he).1) (fun e he => (ex e he).1)
      (fun e he => (ez e he).1) ly lx lz i
  · intro face i op he
    rw [hp] at he
    simp only [List.mem_append] at he
    rcases he with (he | he) | he
    · exact hentry Ly 1 (Or.inr (Or.inl rfl)) ey rfl face i op he
    · exact hentry Lx 0 (Or.inl rfl) ex rfl face i op he
    · exact hentry Lz 2 (Or.inr (Or.inr rfl)) ez rfl face i op he
  · intro i hi hno
    rw [hp] at hno
    have hnil : ∀ (L : List (Vertex × Int × Vertex)), (∀ e ∈ L, e.2.1 = i) →
        (∀ e ∈ L, e ∈ Ly ++ Lx ++ Lz) → L = [] := by
      intro L hL hsub
      cases L with
      | nil => rfl
      | cons e rest =>
        exact absurd (hL e (List.mem_cons_self _ _))
          (hno e (hsub e (List.mem_cons_self _ _)))
    rw [get_eq_coord r i hi, get_eq_coord position i hi]
    rcases hi with rfl | rfl | rfl
    · rw [nx (hnil Lx (fun e he => (ex e he).1) (fun e he => by simp [he]))]
    · rw [ny (hnil Ly (fun e he => (ey e he).1) (fun e he => by simp [he]))]
    · rw [nz (hnil Lz (fun e he => (ez e he).1) (fun e he => by simp [he]))]
  · simp only [normalize]
    rw [coord_zero, coord_zero] at rx
    rw [coord_one, coord_one] at ry
    rw [coord_two, coord_two] at rz
    rw [rx, ry, rz]

theorem collide_stays_in_cell_witness :
    (0 : Int) ≤ 2 ∧ (Window.standing one_block).pushed = [] ∧
      ∃ w' r, (Window.standing one_block).collide (NewVertex (3 / 8) (5 / 8) (1 / 8)) 2 =
          some (w', r) ∧
        (|r.x - (NewVertex (3 / 8) (5 / 8) (1 / 8)).x| ≤ 1 / 4 ∧
          |r.y - (NewVertex (3 / 8) (5 / 8) (1 / 8)).y| ≤ 1 / 4 ∧
          |r.z - (NewVertex (3 / 8) (5 / 8) (1 / 8)).z| ≤ 1 / 4) ∧
        (∀ i : Int, (w'.pushed.filter (fun e => decide (e.2.1 = i))).length ≤ 1) ∧
        (∀ face i op, (face, i, op) ∈ w'.pushed →
          (i = 0 ∨ i = 1 ∨ i = 2) ∧ (face.coord i = 1 ∨ face.coord i = -1) ∧
          r.get i =
            some (round ((NewVertex (3 / 8) (5 / 8) (1 / 8)).coord i) + PAD * face.coord i) ∧
          (r.coord i - (normalize (NewVertex (3 / 8) (5 / 8) (1 / 8))).coord i) *
            (-(face.coord i)) = -PAD) ∧
        (∀ i : Int, (i = 0 ∨ i = 1 ∨ i = 2) → (∀ e ∈ w'.pushed, e.2.1 ≠ i) →
          r.get i = (NewVertex (3 / 8) (5 / 8) (1 / 8)).get i) ∧
        normalize r = normalize (NewVertex (3 / 8) (5 / 8) (1 / 8)) :=
  ⟨by decide, rfl,
    collide_stays_in_cell (Window.standing one_block) (NewVertex (3 / 8) (5 / 8) (1 / 8)) 2
      (by decide) rfl⟩

theorem xrange_loop_mem (stop : Int) (y : Int) :
    ∀ (fuel : Nat) (x : Int), (stop - x).toNat ≤ fuel →
      (y ∈ xrange_loop stop 1 fuel x ↔ x ≤ y ∧ y < stop) := by
  intro fuel
  induction fuel with
  | zero =>
    intro x hx
    simp only [xrange_loop, List.not_mem_nil, false_iff]
    omega
  | succ n ih =>
    intro x hx
    simp only [xrange_loop]
    by_cases hlt : x < stop
    · rw [if_pos hlt, List.mem_cons, ih (x + 1) (by omega)]
      omega
    · rw [if_neg hlt]
      simp only [List.not_mem_nil, false_iff]
      omega

theorem xrange_mem (n y : Int) : y ∈ xrange 0 n 1 ↔ 0 ≤ y ∧ y < n :=
  xrange_loop_mem n y _ 0 (Nat.le_refl _)

theorem first_probe_some_iff (world : Vertex → Option TextureType) (np face : Vertex)
    (i : Int) (hi : i = 0 ∨ i = 1 ∨ i = 2) :
    ∀ l : List Int, (∃ op, first_probe world np face i l = some op) ↔
      ∃ dy ∈ l, ∃ op, probe np face i dy = some op ∧ world op ≠ none := by
  intro l
  induction l with
  | nil => simp [first_probe]
  | cons dy rest ih =>
    obtain ⟨op1, h1⟩ := set_isSome np 1 (np.coord 1 - (dy : ℚ)) (Or.inr (Or.inl rfl))
    obtain ⟨op, h2⟩ := set_isSome op1 i (op1.coord i + face.coord i) hi
    have hprobe : probe np face i dy = some op := by
      simp only [probe, get_eq_coord np 1 (Or.inr (Or.inl rfl)), get_eq_coord op1 i hi,
        get_eq_coord face i hi, h1, h2, Option.bind_eq_bind, Option.some_bind, Option.pure_def]
    simp only [first_probe, hprobe]
    by_cases hocc : (world op).isNone = true
    · rw [if_pos hocc, ih]
      have hnone : world op = none := Option.isNone_iff_eq_none.1 hocc
      constructor
      · rintro ⟨dy', hmem, hrest⟩
        exact ⟨dy', List.mem_cons_of_mem _ hmem, hrest⟩
      · rintro ⟨dy', hmem, op', hp', hw'⟩
        rcases List.mem_cons.1 hmem with e | hmem'
        · subst e
          rw [hprobe] at hp'
          cases Option.some.inj hp'
          exact absurd hnone hw'
        · exact ⟨dy', hmem', op', hp', hw'⟩
    · rw [if_neg hocc]
      constructor
      · intro _
        refine ⟨dy, List.mem_cons_self _ _, op, hprobe, ?_⟩
        intro hnone
        exact hocc (Option.isNone_iff_eq_none.2 hnone)
      · intro _
        exact ⟨op, rfl⟩

/-- C11 (vertical velocity): for height `≥ 0`, `collide` completes; a push-back
for face `(0,1,0)` or `(0,-1,0)` is applied exactly when that face's overlap on
the y axis reaches `PAD` and one of its probe cells of a height slice is
occupied; `dy` is then 0, and otherwise `dy` is unchanged.  The model (world,
sectors, shown) is left as it was. -/
theorem collide_resets_dy (self : Window) (position : Vertex) (height : Int)
    (_ : 0 ≤ height) (hlog : self.pushed = []) :
    ∃ w' r, self.collide position height = some (w', r) ∧
      (w'.model.world = self.model.world ∧ w'.model.sectors = self.model.sectors ∧
        w'.model.shown = self.model.shown) ∧
      ((∃ e ∈ w'.pushed, e.1 = NewVertex 0 1 0 ∨ e.1 = NewVertex 0 (-1) 0) ↔
        ∃ face, (face = NewVertex 0 1 0 ∨ face = NewVertex 0 (-1) 0) ∧
          PAD ≤ (position.y - round position.y) * face.y ∧
          ∃ dy : Int, 0 ≤ dy ∧ dy < height ∧
            ∃ op, probe (normalize position) face 1 dy = some op ∧
              self.model.world op ≠ none) ∧
      ((∃ e ∈ w'.pushed, e.1 = NewVertex 0 1 0 ∨ e.1 = NewVertex 0 (-1) 0) → w'.dy = 0) ∧
      (¬ (∃ e ∈ w'.pushed, e.1 = NewVertex 0 1 0 ∨ e.1 = NewVertex 0 (-1) 0) →
        w'.dy = self.dy) := by
  obtain ⟨sy, sx, res, Ly, Lx, Lz, hc, hy, hx, hz⟩ := collide_outcome self position height
  have v1 : (1 : Int) = 0 ∨ (1 : Int) = 1 ∨ (1 : Int) = 2 := Or.inr (Or.inl rfl)
  have hpushed : res.1.pushed = Ly ++ Lx ++ Lz := by
    rw [hz.pushed, hx.pushed, hy.pushed]
    simp only [hlog, List.nil_append]
  -- the x and z steps never touch `dy`
  have hnv : ∀ f : Vertex, (f = NewVertex (-1) 0 0 ∨ f = NewVertex 1 0 0 ∨
      f = NewVertex 0 0 1 ∨ f = NewVertex 0 0 (-1)) →
      ¬ (f = NewVertex 0 (-1) 0 ∨ f = NewVertex 0 1 0) := by
    rintro f (rfl | rfl | rfl | rfl) <;> decide!
  have hdyx : sx.1.dy = sy.1.dy := by
    cases hL : Lx with
    | nil => exact (hx.none_case hL).1
    | cons e rest =>
      obtain ⟨_, hf, _, _, _, hd, _⟩ := hx.some_case e (by rw [hL]; exact List.mem_cons_self _ _)
      rw [hd, if_neg (hnv e.1 (by rcases hf with h | h <;> simp [h]))]
  have hdyz : res.1.dy = sx.1.dy := by
    cases hL : Lz with
    | nil => exact (hz.none_case hL).1
    | cons e rest =>
      obtain ⟨_, hf, _, _, _, hd, _⟩ := hz.some_case e (by rw [hL]; exact List.mem_cons_self _ _)
      rw [hd, if_neg (hnv e.1 (by rcases hf with h | h <;> simp [h]))]
  have hvert : (∃ e ∈ res.1.pushed, e.1 = NewVertex 0 1 0 ∨ e.1 = NewVertex 0 (-1) 0) ↔
      Ly ≠ [] := by
    rw [hpushed]
    constructor
    · rintro ⟨e, he, hv⟩ hnil
      simp only [hnil, List.nil_append, List.mem_append] at he
      rcases he with he | he
      · obtain ⟨_, hf, _⟩ := hx.some_case e he
        exact hnv e.1 (by rcases hf with h | h <;> simp [h]) (by tauto)
      · obtain ⟨_, hf, _⟩ := hz.some_case e he
        exact hnv e.1 (by rcases hf with h | h <;> simp [h]) (by tauto)
    · intro hne
      cases hL : Ly with
      | nil => exact absurd hL hne
      | cons e rest =>
        have he : e ∈ Ly := by rw [hL]; exact List.mem_cons_self _ _
        obtain ⟨_, hf, _⟩ := hy.some_case e he
        exact ⟨e, by simp [hL], hf⟩
  have hcond : ∀ f : Vertex, (f = NewVertex 0 1 0 ∨ f = NewVertex 0 (-1) 0) →
      ((PAD ≤ (position.coord 1 - (normalize position).coord 1) * f.coord 1 ∧
          ∃ op, first_probe self.model.world (normalize position) f 1 (xrange 0 height 1) =
            some op) ↔
        (PAD ≤ (position.y - round position.y) * f.y ∧
          ∃ dy : Int, 0 ≤ dy ∧ dy < height ∧
            ∃ op, probe (normalize position) f 1 dy = some op ∧
              self.model.world op ≠ none)) := by
    intro f _
    rw [first_probe_some_iff _ _ _ 1 v1]
    have : (position.coord 1 - (normalize position).coord 1) * f.coord 1 =
        (position.y - round position.y) * f.y := rfl
    rw [this]
    constructor
    · rintro ⟨h1, dy, hmem, hrest⟩
      exact ⟨h1, dy, ((xrange_mem height dy).1 hmem).1, ((xrange_mem height dy).1 hmem).2, hrest⟩
    · rintro ⟨h1, dy, h0, hlt, hrest⟩
      exact ⟨h1, dy, (xrange_mem height dy).2 ⟨h0, hlt⟩, hrest⟩
  refine ⟨res.1, res.2, hc, ?_, ?_, ?_, ?_⟩
  · rw [hz.model, hx.model, hy.model]
    exact ⟨rfl, rfl, rfl⟩
  · rw [hvert]
    constructor
    · intro hne
      cases hL : Ly with
      | nil => exact absurd hL hne
      | cons e rest =>
        have he : e ∈ Ly := by rw [hL]; exact List.mem_cons_self _ _
        obtain ⟨_, hf, _, hd, hp, _⟩ := hy.some_case e he
        exact ⟨e.1, hf, (hcond e.1 hf).1 ⟨hd, e.2.2, hp⟩⟩
    · rintro ⟨f, hf, hcf⟩ hnil
      exact (hy.none_case hnil).2.2 f hf ((hcond f hf).2 hcf)
  · rw [hvert]
    intro hne
    cases hL : Ly with
    | nil => exact absurd hL hne
    | cons e rest =>
      have he : e ∈ Ly := by rw [hL]; exact List.mem_cons_self _ _
      obtain ⟨_, hf, _, _, _, hd, _⟩ := hy.some_case e he
      rw [hdyz, hdyx, hd, if_pos (by tauto)]
  · rw [hvert]
    intro hne
    have hnil : Ly = [] := by
      by_contra h
      exact hne h
    rw [hdyz, hdyx]
    exact (hy.none_case hnil).1

theorem collide_resets_dy_witness :
    (0 : Int) ≤ 2 ∧ (Window.standing one_block).pushed = [] ∧
      ∃ w' r, (Window.standing one_block).collide (NewVertex 0 (5 / 8) 0) 2 = some (w', r) ∧
        (w'.model.world = (Window.standing one_block).model.world ∧
          w'.model.sectors = (Window.standing one_block).model.sectors ∧
          w'.model.shown = (Window.standing one_block).model.shown) ∧
        ((∃ e ∈ w'.pushed, e.1 = NewVertex 0 1 0 ∨ e.1 = NewVertex 0 (-1) 0) ↔
          ∃ face, (face = NewVertex 0 1 0 ∨ face = NewVertex 0 (-1) 0) ∧
            PAD ≤ ((NewVertex 0 (5 / 8) 0).y - round (NewVertex 0 (5 / 8) 0).y) * face.y ∧
            ∃ dy : Int, 0 ≤ dy ∧ dy < 2 ∧
              ∃ op, probe (normalize (NewVertex 0 (5 / 8) 0)) face 1 dy = some op ∧
                (Window.standing one_block).model.world op ≠ none) ∧
        ((∃ e ∈ w'.pushed, e.1 = NewVertex 0 1 0 ∨ e.1 = NewVertex 0 (-1) 0) → w'.dy = 0) ∧
        (¬ (∃ e ∈ w'.pushed, e.1 = NewVertex 0 1 0 ∨ e.1 = NewVertex 0 (-1) 0) →
          w'.dy = (Window.standing one_block).dy) :=
  ⟨by decide, rfl,
    collide_resets_dy (Window.standing one_block) (NewVertex 0 (5 / 8) 0) 2 (by decide) rfl⟩

/-! ## Sector sweeps -/

theorem Frame.rfl_frame (m : Model) (T : Vertex → Prop) : Frame m m T :=
  ⟨rfl, rfl, fun _ _ => ⟨rfl, rfl⟩⟩

theorem Frame.trans_frame {m1 m2 m3 : Model} {T : Vertex → Prop} (h12 : Frame m1 m2 T)
    (h23 : Frame m2 m3 T) : Frame m1 m3 T :=
  ⟨h23.world.trans h12.world, h23.sectors.trans h12.sectors,
    fun q hq => ⟨(h23.keep q hq).1.trans (h12.keep q hq).1,
      (h23.keep q hq).2.trans (h12.keep q hq).2⟩⟩

theorem Frame.widen {m m' : Model} {T U : Vertex → Prop} (h : Frame m m' T)
    (hTU : ∀ q, T q → U q) : Frame m m' U :=
  ⟨h.world, h.sectors, fun q hq => h.keep q (fun ht => hq (hTU q ht))⟩

theorem show_result_frame (m : Model) (p : Vertex) : Frame m (show_result m p) (fun q => q = p) :=
  ⟨rfl, rfl, fun q hq => by simp [show_result, Function.update_noteq hq]⟩

/-- A completed `hide_block(p)` changes `shown` and `_shown` at `p` only. -/
theorem hide_block_frame (m m' : Model) (p : Vertex) (h : m.hide_block p = some m') :
    Frame m m' (fun q => q = p) ∧ m'.shown p = none := by
  unfold Model.hide_block Model._hide_block CallList.delete at h
  simp only [] at h
  cases hpar : ((m._shown p).getD CallList.zero).parent with
  | none => rw [hpar] at h; exact Option.noConfusion h
  | some u =>
    rw [hpar] at h
    simp only [] at h
    split_ifs at h <;>
    · cases Option.some.inj h
      refine ⟨⟨rfl, rfl, fun q hq => ?_⟩, ?_⟩
      · simp [Function.update_noteq hq]
      · simp

theorem show_sector_step_spec (m : Model) (p : Vertex) :
    ∃ m', m.show_sector_step p = some m' ∧ Frame m m' (fun q => q = p) ∧
      (RenderOk m → RenderOk m') ∧ BatchMono m m' ∧
      (∀ q, m.shown q ≠ none → m'.shown q ≠ none) ∧
      (m.exposed p = true → m'.shown p ≠ none) := by
  unfold Model.show_sector_step
  by_cases hc : (m.shown p).isNone = true ∧ m.exposed p = true
  · rw [if_pos hc, show_block_eq]
    refine ⟨show_result m p, rfl, show_result_frame m p, ?_, BatchMono.of_show m p, ?_, ?_⟩
    · intro hr
      exact hr.after_show p ((hr.keys p).2 (Option.isNone_iff_eq_none.1 hc.1))
    · intro q hq
      by_cases e : q = p
      · subst e; simp [show_result]
      · simpa [show_result, Function.update_noteq e] using hq
    · intro _; simp [show_result]
  · rw [if_neg hc]
    refine ⟨m, rfl, Frame.rfl_frame m _, fun h => h, BatchMono.refl m, fun _ h => h, ?_⟩
    intro he hnone
    exact hc ⟨Option.isNone_iff_eq_none.2 hnone, he⟩

theorem show_sector_loop_spec :
    ∀ (l : List Vertex) (m : Model),
      ∃ m', Model.show_sector_loop l m = some m' ∧ Frame m m' (fun q => q ∈ l) ∧
        (RenderOk m → RenderOk m') ∧ BatchMono m m' ∧
        (∀ q, m.shown q ≠ none → m'.shown q ≠ none) ∧
        (∀ p ∈ l, m.exposed p = true → m'.shown p ≠ none) := by
  intro l
  induction l with
  | nil =>
    intro m
    exact ⟨m, rfl, Frame.rfl_frame m _, fun h => h, BatchMono.refl m, fun _ h => h,
      fun p hp => by simp at hp⟩
  | cons a l ih =>
    intro m
    obtain ⟨m1, h1, f1, r1, b1, mono1, e1⟩ := show_sector_step_spec m a
    obtain ⟨m2, h2, f2, r2, b2, mono2, e2⟩ := ih m1
    refine ⟨m2, ?_, ?_, fun h => r2 (r1 h), b1.trans b2, fun q hq => mono2 q (mono1 q hq), ?_⟩
    · simp only [Model.show_sector_loop, h1]
      exact h2
    · exact (f1.widen (fun q hq => by rw [hq]; exact List.mem_cons_self _ _)).trans_frame
        (f2.widen (fun q hq => List.mem_cons_of_mem _ hq))
    · intro p hp he
      rcases List.mem_cons.1 hp with e | hmem
      · rw [e]; exact mono2 a (e1 (e ▸ he))
      · exact e2 p hmem (by rw [exposed_congr f1.world]; exact he)

theorem hide_sector_step_frame (m m' : Model) (p : Vertex)
    (h : m.hide_sector_step p = some m') :
    Frame m m' (fun q => q = p) ∧ m'.shown p = none ∧
      (∀ q, m.shown q = none → m'.shown q = none) := by
  unfold Model.hide_sector_step at h
  by_cases hc : (m.shown p).isSome = true
  · rw [if_pos hc] at h
    obtain ⟨hf, hp⟩ := hide_block_frame m m' p h
    refine ⟨hf, hp, ?_⟩
    intro q hq
    by_cases e : q = p
    · rw [e]; exact hp
    · rw [(hf.keep q e).1]; exact hq
  · rw [if_neg hc] at h
    cases Option.some.inj h
    refine ⟨Frame.rfl_frame m _, ?_, fun _ h => h⟩
    cases hs : m.shown p with
    | none => rfl
    | some t => rw [hs] at hc; exact absurd rfl hc

theorem hide_sector_step_total (m : Model) (p : Vertex) (hr : RenderOk m) :
    ∃ m', m.hide_sector_step p = some m' ∧ RenderOk m' ∧ BatchMono m m' := by
  unfold Model.hide_sector_step
  by_cases hc : (m.shown p).isSome = true
  · rw [if_pos hc]
    have hk : m._shown p ≠ none := by
      intro hk
      rw [(hr.keys p).1 hk] at hc
      exact absurd hc (by simp)
    obtain ⟨c, hcs⟩ := Option.ne_none_iff_exists'.1 hk
    obtain ⟨hpar, hmem, _⟩ := hr.handle p c hcs
    exact ⟨hide_result m p c, hide_block_eq m p c hcs hpar hmem, hr.after_hide p c hcs,
      BatchMono.of_hide m p c⟩
  · rw [if_neg hc]
    exact ⟨m, rfl, hr, BatchMono.refl m⟩

theorem hide_sector_loop_frame :
    ∀ (l : List Vertex) (m m' : Model), Model.hide_sector_loop l m = some m' →
      Frame m m' (fun q => q ∈ l) ∧ (∀ p ∈ l, m'.shown p = none) ∧
        (∀ q, m.shown q = none → m'.shown q = none) := by
  intro l
  induction l with
  | nil =>
    intro m m' h
    cases Option.some.inj h
    exact ⟨Frame.rfl_frame m _, fun p hp => by simp at hp, fun _ h => h⟩
  | cons a l ih =>
    intro m m' h
    simp only [Model.hide_sector_loop] at h
    cases h1 : m.hide_sector_step a with
    | none => rw [h1] at h; exact Option.noConfusion h
    | some m1 =>
      rw [h1] at h
      obtain ⟨f1, s1, a1⟩ := hide_sector_step_frame m m1 a h1
      obtain ⟨f2, s2, a2⟩ := ih m1 m' h
      refine ⟨?_, ?_, fun q hq => a2 q (a1 q hq)⟩
      · exact (f1.widen (fun q hq => by rw [hq]; exact List.mem_cons_self _ _)).trans_frame
          (f2.widen (fun q hq => List.mem_cons_of_mem _ hq))
      · intro p hp
        rcases List.mem_cons.1 hp with e | hmem
        · rw [e]; exact a2 a s1
        · exact s2 p hmem

theorem hide_sector_loop_total :
    ∀ (l : List Vertex) (m : Model), RenderOk m →
      ∃ m', Model.hide_sector_loop l m = some m' ∧ RenderOk m' ∧ BatchMono m m' := by
  intro l
  induction l with
  | nil => intro m hr; exact ⟨m, rfl, hr, BatchMono.refl m⟩
  | cons a l ih =>
    intro m hr
    obtain ⟨m1, h1, r1, b1⟩ := hide_sector_step_total m a hr
    obtain ⟨m2, h2, r2, b2⟩ := ih m1 r1
    refine ⟨m2, ?_, r2, b1.trans b2⟩
    simp only [Model.hide_sector_loop, h1]
    exact h2

theorem listed_congr {m m' : Model} (h : m'.sectors = m.sectors) (L : List Vertex)
    (q : Vertex) : listed m' L q ↔ listed m L q := by
  unfold listed
  rw [h]

theorem show_sectors_spec :
    ∀ (L : List Vertex) (m : Model),
      ∃ m', Model.show_sectors L m = some m' ∧ Frame m m' (listed m L) ∧
        (RenderOk m → RenderOk m') ∧ BatchMono m m' ∧
        (∀ q, m.shown q ≠ none → m'.shown q ≠ none) ∧
        (∀ s ∈ L, ∀ p ∈ (m.sectors s).getD [], m.exposed p = true → m'.shown p ≠ none) := by
  intro L
  induction L with
  | nil =>
    intro m
    exact ⟨m, rfl, Frame.rfl_frame m _, fun h => h, BatchMono.refl m, fun _ h => h,
      fun s hs => by simp at hs⟩
  | cons a L ih =>
    intro m
    obtain ⟨m1, h1, f1, r1, b1, mono1, e1⟩ := show_sector_loop_spec ((m.sectors a).getD []) m
    obtain ⟨m2, h2, f2, r2, b2, mono2, e2⟩ := ih m1
    refine ⟨m2, ?_, ?_, fun h => r2 (r1 h), b1.trans b2, fun q hq => mono2 q (mono1 q hq), ?_⟩
    · simp only [Model.show_sectors, Model.show_sector, h1]
      exact h2
    · refine (f1.widen ?_).trans_frame (f2.widen ?_)
      · intro q hq
        exact ⟨a, List.mem_cons_self _ _, hq⟩
      · intro q hq
        obtain ⟨s, hs, hmem⟩ := (listed_congr f1.sectors L q).1 hq
        exact ⟨s, List.mem_cons_of_mem _ hs, hmem⟩
    · intro s hs p hp he
      rcases List.mem_cons.1 hs with e | hmem
      · subst e
        exact mono2 p (e1 p hp he)
      · apply e2 s hmem p
        · rw [f1.sectors]; exact hp
        · rw [exposed_congr f1.world]; exact he

theorem hide_sectors_frame :
    ∀ (L : List Vertex) (m m' : Model), Model.hide_sectors L m = some m' →
      Frame m m' (listed m L) ∧
        (∀ s ∈ L, ∀ p ∈ (m.sectors s).getD [], m'.shown p = none) ∧
        (∀ q, m.shown q = none → m'.shown q = none) := by
  intro L
  induction L with
  | nil =>
    intro m m' h
    cases Option.some.inj h
    exact ⟨Frame.rfl_frame m _, fun s hs => by simp at hs, fun _ h => h⟩
  | cons a L ih =>
    intro m m' h
    simp only [Model.hide_sectors, Model.hide_sector] at h
    cases h1 : Model.hide_sector_loop ((m.sectors a).getD []) m with
    | none => rw [h1] at h; exact Option.noConfusion h
    | some m1 =>
      rw [h1] at h
      obtain ⟨f1, s1, a1⟩ := hide_sector_loop_frame _ m m1 h1
      obtain ⟨f2, s2, a2⟩ := ih m1 m' h
      refine ⟨?_, ?_, fun q hq => a2 q (a1 q hq)⟩
      · refine (f1.widen ?_).trans_frame (f2.widen ?_)
        · intro q hq
          exact ⟨a, List.mem_cons_self _ _, hq⟩
        · intro q hq
          obtain ⟨s, hs, hmem⟩ := (listed_congr f1.sectors L q).1 hq
          exact ⟨s, List.mem_cons_of_mem _ hs, hmem⟩
      · intro s hs p hp
        rcases List.mem_cons.1 hs with e | hmem
        · subst e
          exact a2 p (s1 p hp)
        · apply s2 s hmem p
          rw [f1.sectors]; exact hp

theorem hide_sectors_total :
    ∀ (L : List Vertex) (m : Model), RenderOk m →
      ∃ m', Model.hide_sectors L m = some m' ∧ RenderOk m' ∧ BatchMono m m' := by
  intro L
  induction L with
  | nil => intro m hr; exact ⟨m, rfl, hr, BatchMono.refl m⟩
  | cons a L ih =>
    intro m hr
    obtain ⟨m1, h1, r1, b1⟩ := hide_sector_loop_total ((m.sectors a).getD []) m hr
    obtain ⟨m2, h2, r2, b2⟩ := ih m1 r1
    refine ⟨m2, ?_, r2, b1.trans b2⟩
    simp only [Model.hide_sectors, Model.hide_sector, h1]
    exact h2

/-- A completed `change_sectors` touches only positions listed in a sector that
is shown or hidden. -/
theorem change_sectors_in_frame (m m' : Model) (S H : List Vertex)
    (h : m.change_sectors_in S H = some m') : Frame m m' (listed m (S ++ H)) := by
  unfold Model.change_sectors_in at h
  obtain ⟨m1, h1, f1, _⟩ := show_sectors_spec S m
  rw [h1] at h
  simp only [] at h
  obtain ⟨f2, _⟩ := hide_sectors_frame H m1 m' h
  refine (f1.widen ?_).trans_frame (f2.widen ?_)
  · rintro q ⟨s, hs, hmem⟩
    exact ⟨s, List.mem_append_left _ hs, hmem⟩
  · intro q hq
    obtain ⟨s, hs, hmem⟩ := (listed_congr f1.sectors H q).1 hq
    exact ⟨s, List.mem_append_right _ hs, hmem⟩

theorem change_sectors_in_total (m : Model) (S H : List Vertex) (hr : RenderOk m) :
    ∃ m', m.change_sectors_in S H = some m' ∧ RenderOk m' ∧ BatchMono m m' := by
  unfold Model.change_sectors_in
  obtain ⟨m1, h1, _, r1, b1, _⟩ := show_sectors_spec S m
  obtain ⟨m2, h2, r2, b2⟩ := hide_sectors_total H m1 (r1 hr)
  rw [h1]
  exact ⟨m2, h2, r2, b1.trans b2⟩

theorem VertexSet.mem_add (vs : VertexSet) (w v : Vertex) :
    v ∈ VertexSet.add vs w ↔ v ∈ vs ∨ v = w := by
  unfold VertexSet.add
  by_cases h : w ∈ vs
  · rw [if_pos h]
    constructor
    · exact Or.inl
    · rintro (h' | h')
      · exact h'
      · rw [h']; exact h
  · rw [if_neg h, List.mem_append, List.mem_singleton]

theorem VertexSet.mem_Remove (vs1 vs2 : VertexSet) (v : Vertex) :
    v ∈ VertexSet.Remove vs1 vs2 ↔ v ∈ vs1 ∧ v ∉ vs2 := by
  unfold VertexSet.Remove
  rw [List.mem_filter, decide_eq_true_eq]

theorem sector_sets_step_mem (b a : Vertex) (pad dx : Int) (s : VertexSet × VertexSet)
    (dz : Int) (v : Vertex) :
    (v ∈ (sector_sets_step b a pad dx s dz).1 ↔ v ∈ s.1 ∨
        (b.isNil = false ∧ PowInt dx 2 + PowInt 0 2 + PowInt dz 2 ≤ PowInt (pad + 1) 2 ∧
          v = NewVertex (b.x + (dx : ℚ)) (b.y + ((0 : Int) : ℚ)) (b.z + (dz : ℚ)))) ∧
      (v ∈ (sector_sets_step b a pad dx s dz).2 ↔ v ∈ s.2 ∨
        (a.isNil = false ∧ PowInt dx 2 + PowInt 0 2 + PowInt dz 2 ≤ PowInt (pad + 1) 2 ∧
          v = NewVertex (a.x + (dx : ℚ)) (a.y + ((0 : Int) : ℚ)) (a.z + (dz : ℚ)))) := by
  unfold sector_sets_step
  simp only []
  by_cases ht : PowInt dx 2 + PowInt 0 2 + PowInt dz 2 > PowInt (pad + 1) 2
  · rw [if_pos ht]
    have hn : ¬ (PowInt dx 2 + PowInt 0 2 + PowInt dz 2 ≤ PowInt (pad + 1) 2) := not_le.2 ht
    simp [hn]
  · rw [if_neg ht]
    have hn : PowInt dx 2 + PowInt 0 2 + PowInt dz 2 ≤ PowInt (pad + 1) 2 := not_lt.1 ht
    constructor
    · cases hb : b.isNil <;> simp [hb, hn, VertexSet.mem_add]
    · cases ha : a.isNil <;> simp [ha, hn, VertexSet.mem_add]

theorem sector_sets_inner_mem (b a : Vertex) (pad dx : Int) (v : Vertex) :
    ∀ (l : List Int) (s : VertexSet × VertexSet),
      (v ∈ (l.foldl (sector_sets_step b a pad dx) s).1 ↔ v ∈ s.1 ∨
          (b.isNil = false ∧ ∃ dz ∈ l,
            PowInt dx 2 + PowInt 0 2 + PowInt dz 2 ≤ PowInt (pad + 1) 2 ∧
            v = NewVertex (b.x + (dx : ℚ)) (b.y + ((0 : Int) : ℚ)) (b.z + (dz : ℚ)))) ∧
        (v ∈ (l.foldl (sector_sets_step b a pad dx) s).2 ↔ v ∈ s.2 ∨
          (a.isNil = false ∧ ∃ dz ∈ l,
            PowInt dx 2 + PowInt 0 2 + PowInt dz 2 ≤ PowInt (pad + 1) 2 ∧
            v = NewVertex (a.x + (dx : ℚ)) (a.y + ((0 : Int) : ℚ)) (a.z + (dz : ℚ)))) := by
  intro l
  induction l with
  | nil => intro s; simp
  | cons dz l ih =>
    intro s
    rw [List.foldl_cons]
    obtain ⟨i1, i2⟩ := ih (sector_sets_step b a pad dx s dz)
    obtain ⟨s1, s2⟩ := sector_sets_step_mem b a pad dx s dz v
    rw [i1, i2, s1, s2]
    constructor
    · constructor
      · rintro ((h | ⟨hb, ht, hv⟩) | ⟨hb, dz', hm, ht, hv⟩)
        · exact Or.inl h
        · exact Or.inr ⟨hb, dz, List.mem_cons_self _ _, ht, hv⟩
        · exact Or.inr ⟨hb, dz', List.mem_cons_of_mem _ hm, ht, hv⟩
      · rintro (h | ⟨hb, dz', hm, ht, hv⟩)
        · exact Or.inl (Or.inl h)
        · rcases List.mem_cons.1 hm with e | hm'
          · subst e; exact Or.inl (Or.inr ⟨hb, ht, hv⟩)
          · exact Or.inr ⟨hb, dz', hm', ht, hv⟩
    · constructor
      · rintro ((h | ⟨hb, ht, hv⟩) | ⟨hb, dz', hm, ht, hv⟩)
        · exact Or.inl h
        · exact Or.inr ⟨hb, dz, List.mem_cons_self _ _, ht, hv⟩
        · exact Or.inr ⟨hb, dz', List.mem_cons_of_mem _ hm, ht, hv⟩
      · rintro (h | ⟨hb, dz', hm, ht, hv⟩)
        · exact Or.inl (Or.inl h)
        · rcases List.mem_cons.1 hm with e | hm'
          · subst e; exact Or.inl (Or.inr ⟨hb, ht, hv⟩)
          · exact Or.inr ⟨hb, dz', hm', ht, hv⟩

theorem sector_sets_outer_mem (b a : Vertex) (pad : Int) (l2 : List Int) (v : Vertex) :
    ∀ (l1 : List Int) (s : VertexSet × VertexSet),
      (v ∈ (l1.foldl (fun s dx => l2.foldl (sector_sets_step b a pad dx) s) s).1 ↔ v ∈ s.1 ∨
          (b.isNil = false ∧ ∃ dx ∈ l1, ∃ dz ∈ l2,
            PowInt dx 2 + PowInt 0 2 + PowInt dz 2 ≤ PowInt (pad + 1) 2 ∧
            v = NewVertex (b.x + (dx : ℚ)) (b.y + ((0 : Int) : ℚ)) (b.z + (dz : ℚ)))) ∧
        (v ∈ (l1.foldl (fun s dx => l2.foldl (sector_sets_step b a pad dx) s) s).2 ↔ v ∈ s.2 ∨
          (a.isNil = false ∧ ∃ dx ∈ l1, ∃ dz ∈ l2,
            PowInt dx 2 + PowInt 0 2 + PowInt dz 2 ≤ PowInt (pad + 1) 2 ∧
            v = NewVertex (a.x + (dx : ℚ)) (a.y + ((0 : Int) : ℚ)) (a.z + (dz : ℚ)))) := by
  intro l1
  induction l1 with
  | nil => intro s; simp
  | cons dx l1 ih =>
    intro s
    rw [List.foldl_cons]
    obtain ⟨i1, i2⟩ := ih (l2.foldl (sector_sets_step b a pad dx) s)
    obtain ⟨s1, s2⟩ := sector_sets_inner_mem b a pad dx v l2 s
    rw [i1, i2, s1, s2]
    constructor
    · constructor
      · rintro ((h | ⟨hb, dz, hz, ht, hv⟩) | ⟨hb, dx', hm, dz, hz, ht, hv⟩)
        · exact Or.inl h
        · exact Or.inr ⟨hb, dx, List.mem_cons_self _ _, dz, hz, ht, hv⟩
        · exact Or.inr ⟨hb, dx', List.mem_cons_of_mem _ hm, dz, hz, ht, hv⟩
      · rintro (h | ⟨hb, dx', hm, dz, hz, ht, hv⟩)
        · exact Or.inl (Or.inl h)
        · rcases List.mem_cons.1 hm with e | hm'
          · subst e; exact Or.inl (Or.inr ⟨hb, dz, hz, ht, hv⟩)
          · exact Or.inr ⟨hb, dx', hm', dz, hz, ht, hv⟩
    · constructor
      · rintro ((h | ⟨hb, dz, hz, ht, hv⟩) | ⟨hb, dx', hm, dz, hz, ht, hv⟩)
        · exact Or.inl h
        · exact Or.inr ⟨hb, dx, List.mem_cons_self _ _, dz, hz, ht, hv⟩
        · exact Or.inr ⟨hb, dx', List.mem_cons_of_mem _ hm, dz, hz, ht, hv⟩
      · rintro (h | ⟨hb, dx', hm, dz, hz, ht, hv⟩)
        · exact Or.inl (Or.inl h)
        · rcases List.mem_cons.1 hm with e | hm'
          · subst e; exact Or.inl (Or.inr ⟨hb, dz, hz, ht, hv⟩)
          · exact Or.inr ⟨hb, dx', hm', dz, hz, ht, hv⟩

theorem xrange_mem_from (a n y : Int) : y ∈ xrange a n 1 ↔ a ≤ y ∧ y < n :=
  xrange_loop_mem n y _ a (Nat.le_refl _)

/-- The sets built by `change_sectors` are the padded neighbourhoods of the
non-nil centres. -/
theorem sector_sets_mem (before after v : Vertex) :
    (v ∈ (sector_sets before after).1 ↔ before.isNil = false ∧ in_neighbourhood before v) ∧
      (v ∈ (sector_sets before after).2 ↔ after.isNil = false ∧ in_neighbourhood after v) := by
  have hcond : ∀ c : Vertex,
      (∃ dx ∈ xrange (-4) (4 + 1) 1, ∃ dz ∈ xrange (-4) (4 + 1) 1,
        PowInt dx 2 + PowInt 0 2 + PowInt dz 2 ≤ PowInt (4 + 1) 2 ∧
        v = NewVertex (c.x + (dx : ℚ)) (c.y + ((0 : Int) : ℚ)) (c.z + (dz : ℚ))) ↔
      in_neighbourhood c v := by
    intro c
    unfold in_neighbourhood
    constructor
    · rintro ⟨dx, hx, dz, hz, ht, hv⟩
      rw [xrange_mem_from] at hx hz
      refine ⟨dx, dz, hx.1, by omega, hz.1, by omega, ?_, ?_⟩
      · simp only [PowInt] at ht
        norm_num at ht
        exact ht
      · rw [hv]; simp
    · rintro ⟨dx, dz, h1, h2, h3, h4, ht, hv⟩
      refine ⟨dx, (xrange_mem_from _ _ _).2 ⟨h1, by omega⟩, dz,
        (xrange_mem_from _ _ _).2 ⟨h3, by omega⟩, ?_, ?_⟩
      · simp only [PowInt]
        norm_num
        exact ht
      · rw [hv]; simp
  obtain ⟨o1, o2⟩ := sector_sets_outer_mem before after 4 (xrange (-4) (4 + 1) 1) v
    (xrange (-4) (4 + 1) 1) (NewVertexSet, NewVertexSet)
  unfold sector_sets
  simp only []
  rw [o1, o2, hcond, hcond]
  simp [NewVertexSet]

theorem far_block_eq : Model.empty.add_block (NewVertex 80 0 0) STONE = some far_block :=
  some_getD_of_isSome _ (by decide!)

theorem reachable_far_block : Reachable far_block :=
  Reachable.add (NewVertex 80 0 0) STONE Reachable.empty rfl far_block_eq

theorem sector_key_int (dx dz : Int) :
    NewVertex ((NewVertex 0 0 0).x + (dx : ℚ)) ((NewVertex 0 0 0).y + 0)
      ((NewVertex 0 0 0).z + (dz : ℚ)) = NewVertexInt dx 0 dz := by
  simp [NewVertex, NewVertexInt]

/-- C13, counterexample: the block `(80,0,0)` is exposed and listed in the sector
`(5,0,0)`, whose key satisfies `5² + 0² ≤ 25`.  Once hidden (by
`change_sectors((5,0,0), nil)`) it is still not shown after
`change_sectors(nil, (0,0,0))`; and when shown it is still shown after
`change_sectors(nil, (0,0,0))` followed by `change_sectors((0,0,0), nil)`. -/
theorem change_sectors_misses_sector_five :
    far_block.sectors (NewVertex 5 0 0) = some [NewVertex 80 0 0] ∧
      (5 : Int) ^ 2 + (0 : Int) ^ 2 ≤ 25 ∧
      ((far_block.change_sectors (NewVertex 5 0 0) nilVertex).bind
          (fun m => m.change_sectors nilVertex (NewVertex 0 0 0))).map
        (fun m1 => (m1.sectors (NewVertex 5 0 0), m1.exposed (NewVertex 80 0 0),
          m1.shown (NewVertex 80 0 0))) =
        some (some [NewVertex 80 0 0], true, none) ∧
      ((far_block.change_sectors nilVertex (NewVertex 0 0 0)).bind
          (fun m1 => m1.change_sectors (NewVertex 0 0 0) nilVertex)).map
        (fun m2 => (m2.sectors (NewVertex 5 0 0), m2.shown (NewVertex 80 0 0))) =
        some (some [NewVertex 80 0 0], some STONE) := by
  refine ⟨by decide!, by decide, by decide!, by decide!⟩

theorem sweep_keys (s : Vertex) (h : in_neighbourhood (NewVertex 0 0 0) s) :
    ∃ dx dz : Int, -4 ≤ dx ∧ dx ≤ 4 ∧ -4 ≤ dz ∧ dz ≤ 4 ∧ dx ^ 2 + dz ^ 2 ≤ 25 ∧
      s = NewVertexInt dx 0 dz := by
  obtain ⟨dx, dz, a, b, c, d, e, hs⟩ := h
  exact ⟨dx, dz, a, b, c, d, e, hs.trans (sector_key_int dx dz)⟩

/-- A sweep over sectors of the neighbourhood of `(0,0,0)` leaves the world and
the sector lists alone, and the shown status of every position listed in none
of these sectors. -/
theorem sweep_frame (m m' : Model) (S H : List Vertex)
    (h : m.change_sectors_in S H = some m')
    (hkeys : ∀ s ∈ S ++ H, in_neighbourhood (NewVertex 0 0 0) s) :
    m'.world = m.world ∧ m'.sectors = m.sectors ∧
      ∀ q, (∀ dx dz : Int, -4 ≤ dx → dx ≤ 4 → -4 ≤ dz → dz ≤ 4 → dx ^ 2 + dz ^ 2 ≤ 25 →
          ∀ l, m.sectors (NewVertexInt dx 0 dz) = some l → q ∉ l) →
        m'.shown q = m.shown q := by
  have f := change_sectors_in_frame m m' S H h
  refine ⟨f.world, f.sectors, fun q hq => (f.keep q ?_).1⟩
  rintro ⟨s, hs, hmem⟩
  obtain ⟨dx, dz, a, b, c, d, e, rfl⟩ := sweep_keys s (hkeys s hs)
  cases hl : m.sectors (NewVertexInt dx 0 dz) with
  | none => rw [hl] at hmem; simp at hmem
  | some l =>
    rw [hl] at hmem
    exact hq dx dz a b c d e l hl hmem

/-- C13, amended: from a state whose shown set, drawable index and batch are
consistent, `change_sectors(nil, (0,0,0))` completes for every iteration order,
and afterwards every exposed block listed in a sector `(dx, 0, dz)` with
`-4 ≤ dx, dz ≤ 4` and `dx² + dz² ≤ 25` is shown; a following
`change_sectors((0,0,0), nil)` completes and leaves no block listed in those
sectors shown.  Both calls leave the world and the sector lists unchanged, and
the shown status of every position listed in none of those sectors. -/
theorem sector_sweep (m : Model) (hr : RenderOk m) (r1 : Option Model)
    (h1 : m.change_sectors_run nilVertex (NewVertex 0 0 0) r1) :
    ∃ m1, r1 = some m1 ∧
      (∀ dx dz : Int, -4 ≤ dx → dx ≤ 4 → -4 ≤ dz → dz ≤ 4 → dx ^ 2 + dz ^ 2 ≤ 25 →
        ∀ l, m1.sectors (NewVertexInt dx 0 dz) = some l →
          ∀ p ∈ l, m1.exposed p = true → m1.shown p ≠ none) ∧
      (m1.world = m.world ∧ m1.sectors = m.sectors ∧
        ∀ q, (∀ dx dz : Int, -4 ≤ dx → dx ≤ 4 → -4 ≤ dz → dz ≤ 4 → dx ^ 2 + dz ^ 2 ≤ 25 →
            ∀ l, m.sectors (NewVertexInt dx 0 dz) = some l → q ∉ l) →
          m1.shown q = m.shown q) ∧
      ∀ r2, m1.change_sectors_run (NewVertex 0 0 0) nilVertex r2 →
        ∃ m2, r2 = some m2 ∧
          (∀ dx dz : Int, -4 ≤ dx → dx ≤ 4 → -4 ≤ dz → dz ≤ 4 → dx ^ 2 + dz ^ 2 ≤ 25 →
            ∀ l, m2.sectors (NewVertexInt dx 0 dz) = some l → ∀ p ∈ l, m2.shown p = none) ∧
          (m2.world = m1.world ∧ m2.sectors = m1.sectors ∧
            ∀ q, (∀ dx dz : Int, -4 ≤ dx → dx ≤ 4 → -4 ≤ dz → dz ≤ 4 →
                dx ^ 2 + dz ^ 2 ≤ 25 →
                ∀ l, m1.sectors (NewVertexInt dx 0 dz) = some l → q ∉ l) →
              m2.shown q = m1.shown q) := by
  have hin : ∀ dx dz : Int, -4 ≤ dx → dx ≤ 4 → -4 ≤ dz → dz ≤ 4 → dx ^ 2 + dz ^ 2 ≤ 25 →
      in_neighbourhood (NewVertex 0 0 0) (NewVertexInt dx 0 dz) :=
    fun dx dz a b c d e => ⟨dx, dz, a, b, c, d, e, (sector_key_int dx dz).symm⟩
  have hnil : ∀ v, v ∉ (sector_sets nilVertex (NewVertex 0 0 0)).1 ∧
      v ∉ (sector_sets (NewVertex 0 0 0) nilVertex).2 := by
    intro v
    constructor
    · intro hv
      have := ((sector_sets_mem nilVertex (NewVertex 0 0 0) v).1.1 hv).1
      exact absurd this (by decide)
    · intro hv
      have := ((sector_sets_mem (NewVertex 0 0 0) nilVertex v).2.1 hv).1
      exact absurd this (by decide)
  obtain ⟨S, H, hS, hHp, rfl⟩ := h1
  obtain ⟨ms, hs, fs, rs, _, monos, es⟩ := show_sectors_spec S m
  obtain ⟨m1, hh, r1', _⟩ := hide_sectors_total H ms (rs hr)
  -- nothing is hidden by the first call: the hide set is empty
  have hH : H = [] := by
    have hempty : VertexSet.Remove (sector_sets nilVertex (NewVertex 0 0 0)).1
        (sector_sets nilVertex (NewVertex 0 0 0)).2 = [] := by
      rw [List.eq_nil_iff_forall_not_mem]
      intro v hv
      exact (hnil v).1 ((VertexSet.mem_Remove _ _ v).1 hv).1
    rw [hempty] at hHp
    exact List.Perm.eq_nil hHp
  subst hH
  simp only [Model.hide_sectors] at hh
  cases Option.some.inj hh
  have hrun1 : m.change_sectors_in S [] = some ms := by
    unfold Model.change_sectors_in
    rw [hs]
    rfl
  have hSkeys : ∀ s ∈ S ++ [], in_neighbourhood (NewVertex 0 0 0) s := by
    intro s hs'
    rw [List.append_nil, hS.mem_iff, VertexSet.mem_Remove] at hs'
    exact ((sector_sets_mem nilVertex (NewVertex 0 0 0) s).2.1 hs'.1).2
  refine ⟨ms, hrun1, ?_, sweep_frame m ms S [] hrun1 hSkeys, ?_⟩
  · intro dx dz a b c d e l hl p hp hexp
    have hmem : NewVertexInt dx 0 dz ∈ S := by
      rw [hS.mem_iff, VertexSet.mem_Remove]
      exact ⟨(sector_sets_mem nilVertex (NewVertex 0 0 0) _).2.2 ⟨rfl, hin dx dz a b c d e⟩,
        (hnil _).1⟩
    apply es (NewVertexInt dx 0 dz) hmem p
    · rw [← fs.sectors, hl]; exact hp
    · rw [← exposed_congr fs.world]; exact hexp
  · rintro r2 ⟨S2, H2, hS2, hH2, rfl⟩
    obtain ⟨m2s, h2s, f2s, r2s, _, _, _⟩ := show_sectors_spec S2 ms
    have hS2nil : S2 = [] := by
      have hempty : VertexSet.Remove (sector_sets (NewVertex 0 0 0) nilVertex).2
          (sector_sets (NewVertex 0 0 0) nilVertex).1 = [] := by
        rw [List.eq_nil_iff_forall_not_mem]
        intro v hv
        exact (hnil v).2 ((VertexSet.mem_Remove _ _ v).1 hv).1
      rw [hempty] at hS2
      exact List.Perm.eq_nil hS2
    subst hS2nil
    obtain ⟨m2, h2h, _, _⟩ := hide_sectors_total H2 ms (rs hr)
    obtain ⟨f2h, hid, _⟩ := hide_sectors_frame H2 ms m2 h2h
    have hrun2 : ms.change_sectors_in [] H2 = some m2 := by
      unfold Model.change_sectors_in
      simp only [Model.show_sectors]
      exact h2h
    have hHkeys : ∀ s ∈ [] ++ H2, in_neighbourhood (NewVertex 0 0 0) s := by
      intro s hs'
      rw [List.nil_append, hH2.mem_iff, VertexSet.mem_Remove] at hs'
      exact ((sector_sets_mem (NewVertex 0 0 0) nilVertex s).1.1 hs'.1).2
    refine ⟨m2, hrun2, ?_, sweep_frame ms m2 [] H2 hrun2 hHkeys⟩
    intro dx dz a b c d e l hl p hp
    have hmem : NewVertexInt dx 0 dz ∈ H2 := by
      rw [hH2.mem_iff, VertexSet.mem_Remove]
      exact ⟨(sector_sets_mem (NewVertex 0 0 0) nilVertex _).1.2 ⟨rfl, hin dx dz a b c d e⟩,
        (hnil _).2⟩
    apply hid (NewVertexInt dx 0 dz) hmem p
    rw [← f2h.sectors, hl]; exact hp

theorem hidden_block_eq :
    one_block.change_sectors (NewVertex 0 0 0) nilVertex = some hidden_block :=
  some_getD_of_isSome _ (by decide!)

theorem render_hidden_block : RenderOk hidden_block := by
  obtain ⟨m', h, r, _⟩ := change_sectors_in_total one_block
    ((sector_sets (NewVertex 0 0 0) nilVertex).2.Remove (sector_sets (NewVertex 0 0 0) nilVertex).1)
    ((sector_sets (NewVertex 0 0 0) nilVertex).1.Remove (sector_sets (NewVertex 0 0 0) nilVertex).2)
    reachable_one_block.inv.render
  have e : one_block.change_sectors (NewVertex 0 0 0) nilVertex = some m' := h
  rw [hidden_block_eq] at e
  rw [Option.some.inj e]
  exact r

theorem sector_sweep_witness :
    (RenderOk hidden_block ∧
      hidden_block.sectors (NewVertexInt 0 0 0) = some [NewVertex 0 0 0] ∧
      hidden_block.exposed (NewVertex 0 0 0) = true ∧
      hidden_block.shown (NewVertex 0 0 0) = none ∧
      hidden_block.change_sectors_run nilVertex (NewVertex 0 0 0)
        (hidden_block.change_sectors nilVertex (NewVertex 0 0 0))) ∧
      ∃ m1, hidden_block.change_sectors nilVertex (NewVertex 0 0 0) = some m1 ∧
        (∀ dx dz : Int, -4 ≤ dx → dx ≤ 4 → -4 ≤ dz → dz ≤ 4 → dx ^ 2 + dz ^ 2 ≤ 25 →
          ∀ l, m1.sectors (NewVertexInt dx 0 dz) = some l →
            ∀ p ∈ l, m1.exposed p = true → m1.shown p ≠ none) ∧
        (m1.world = hidden_block.world ∧ m1.sectors = hidden_block.sectors ∧
          ∀ q, (∀ dx dz : Int, -4 ≤ dx → dx ≤ 4 → -4 ≤ dz → dz ≤ 4 → dx ^ 2 + dz ^ 2 ≤ 25 →
              ∀ l, hidden_block.sectors (NewVertexInt dx 0 dz) = some l → q ∉ l) →
            m1.shown q = hidden_block.shown q) ∧
        ∀ r2, m1.change_sectors_run (NewVertex 0 0 0) nilVertex r2 →
          ∃ m2, r2 = some m2 ∧
            (∀ dx dz : Int, -4 ≤ dx → dx ≤ 4 → -4 ≤ dz → dz ≤ 4 → dx ^ 2 + dz ^ 2 ≤ 25 →
              ∀ l, m2.sectors (NewVertexInt dx 0 dz) = some l →
                ∀ p ∈ l, m2.shown p = none) ∧
            (m2.world = m1.world ∧ m2.sectors = m1.sectors ∧
              ∀ q, (∀ dx dz : Int, -4 ≤ dx → dx ≤ 4 → -4 ≤ dz → dz ≤ 4 →
                  dx ^ 2 + dz ^ 2 ≤ 25 →
                  ∀ l, m1.sectors (NewVertexInt dx 0 dz) = some l → q ∉ l) →
                m2.shown q = m1.shown q) :=
  ⟨⟨render_hidden_block, by decide!, by decide!, by decide!,
      ⟨_, _, List.Perm.refl _, List.Perm.refl _, rfl⟩⟩,
    sector_sweep hidden_block render_hidden_block _
      ⟨_, _, List.Perm.refl _, List.Perm.refl _, rfl⟩⟩

/-- C14 (frame of `change_sectors`): for non-nil `before` and `after` and every
iteration order, the sectors shown are those of the neighbourhood of `after`
only and the sectors hidden those of the neighbourhood of `before` only; a
completed call leaves `world` and `sectors` unchanged, and the shown status and
drawable of every block that is not listed in a sector lying in exactly one of
the two neighbourhoods; `change_sectors(s, s)` returns the state unchanged.  From
a consistent state the call completes. -/
theorem change_sectors_frame (m : Model) (before after : Vertex)
    (hb : before.isNil = false) (ha : after.isNil = false) (result : Option Model)
    (hrun : m.change_sectors_run before after result) :
    (∀ s, (s ∈ (sector_sets before after).2.Remove (sector_sets before after).1 ↔
          in_neighbourhood after s ∧ ¬ in_neighbourhood before s) ∧
        (s ∈ (sector_sets before after).1.Remove (sector_sets before after).2 ↔
          in_neighbourhood before s ∧ ¬ in_neighbourhood after s)) ∧
      (RenderOk m → ∃ m', result = some m') ∧
      (∀ m', result = some m' →
        m'.world = m.world ∧ m'.sectors = m.sectors ∧
        ∀ p, (¬ ∃ s l, ((in_neighbourhood after s ∧ ¬ in_neighbourhood before s) ∨
              (in_neighbourhood before s ∧ ¬ in_neighbourhood after s)) ∧
            m.sectors s = some l ∧ p ∈ l) →
          m'.shown p = m.shown p ∧ m'._shown p = m._shown p) ∧
      (before = after → result = some m) := by
  have hsets : ∀ s, (s ∈ (sector_sets before after).2.Remove (sector_sets before after).1 ↔
        in_neighbourhood after s ∧ ¬ in_neighbourhood before s) ∧
      (s ∈ (sector_sets before after).1.Remove (sector_sets before after).2 ↔
        in_neighbourhood before s ∧ ¬ in_neighbourhood after s) := by
    intro s
    obtain ⟨h1, h2⟩ := sector_sets_mem before after s
    rw [VertexSet.mem_Remove, VertexSet.mem_Remove, h1, h2]
    simp [hb, ha]
  obtain ⟨S, H, hS, hH, rfl⟩ := hrun
  refine ⟨hsets, ?_, ?_, ?_⟩
  · intro hr
    obtain ⟨m', h', _⟩ := change_sectors_in_total m S H hr
    exact ⟨m', h'⟩
  · intro m' h'
    have hf := change_sectors_in_frame m m' S H h'
    refine ⟨hf.world, hf.sectors, ?_⟩
    intro p hp
    apply hf.keep p
    rintro ⟨s, hs, hmem⟩
    apply hp
    cases hl : m.sectors s with
    | none => rw [hl] at hmem; simp at hmem
    | some l =>
      rw [hl] at hmem
      refine ⟨s, l, ?_, hl, hmem⟩
      rcases List.mem_append.1 hs with h | h
      · exact Or.inl ((hsets s).1.1 (hS.mem_iff.1 h))
      · exact Or.inr ((hsets s).2.1 (hH.mem_iff.1 h))
  · intro heq
    subst heq
    have hSnil : S = [] := by
      cases S with
      | nil => rfl
      | cons s rest =>
        have := (hsets s).1.1 (hS.mem_iff.1 (List.mem_cons_self _ _))
        exact absurd this.1 this.2
    have hHnil : H = [] := by
      cases H with
      | nil => rfl
      | cons s rest =>
        have := (hsets s).2.1 (hH.mem_iff.1 (List.mem_cons_self _ _))
        exact absurd this.1 this.2
    rw [hSnil, hHnil]
    rfl

theorem change_sectors_frame_witness :
    (NewVertex 0 0 0).isNil = false ∧ (NewVertex 1 0 0).isNil = false ∧
      far_block.change_sectors_run (NewVertex 0 0 0) (NewVertex 1 0 0)
        (far_block.change_sectors (NewVertex 0 0 0) (NewVertex 1 0 0)) ∧
      ((∀ s, (s ∈ (sector_sets (NewVertex 0 0 0) (NewVertex 1 0 0)).2.Remove
              (sector_sets (NewVertex 0 0 0) (NewVertex 1 0 0)).1 ↔
            in_neighbourhood (NewVertex 1 0 0) s ∧ ¬ in_neighbourhood (NewVertex 0 0 0) s) ∧
          (s ∈ (sector_sets (NewVertex 0 0 0) (NewVertex 1 0 0)).1.Remove
              (sector_sets (NewVertex 0 0 0) (NewVertex 1 0 0)).2 ↔
            in_neighbourhood (NewVertex 0 0 0) s ∧ ¬ in_neighbourhood (NewVertex 1 0 0) s)) ∧
        (RenderOk far_block →
          ∃ m', far_block.change_sectors (NewVertex 0 0 0) (NewVertex 1 0 0) = some m') ∧
        (∀ m', far_block.change_sectors (NewVertex 0 0 0) (NewVertex 1 0 0) = some m' →
          m'.world = far_block.world ∧ m'.sectors = far_block.sectors ∧
          ∀ p, (¬ ∃ s l,
              ((in_neighbourhood (NewVertex 1 0 0) s ∧ ¬ in_neighbourhood (NewVertex 0 0 0) s) ∨
                (in_neighbourhood (NewVertex 0 0 0) s ∧
                  ¬ in_neighbourhood (NewVertex 1 0 0) s)) ∧
              far_block.sectors s = some l ∧ p ∈ l) →
            m'.shown p = far_block.shown p ∧ m'._shown p = far_block._shown p) ∧
        (NewVertex 0 0 0 = NewVertex 1 0 0 →
          far_block.change_sectors (NewVertex 0 0 0) (NewVertex 1 0 0) = some far_block)) :=
  ⟨rfl, rfl, ⟨_, _, List.Perm.refl _, List.Perm.refl _, rfl⟩,
    change_sectors_frame far_block (NewVertex 0 0 0) (NewVertex 1 0 0) rfl rfl _
      ⟨_, _, List.Perm.refl _, List.Perm.refl _, rfl⟩⟩

/-! ## World generation -/

theorem for_each_est {α σ : Type} (f : α → σ → Option σ) (I P : σ → Prop) (a0 : α)
    (l : List α)
    (hstep : ∀ a ∈ l, ∀ s, I s → ∃ s', f a s = some s' ∧ I s' ∧ ((a = a0 ∨ P s) → P s'))
    (s : σ) (hI : I s) (h0 : a0 ∈ l ∨ P s) :
    ∃ s', for_each f l s = some s' ∧ I s' ∧ P s' := by
  induction l generalizing s with
  | nil =>
    rcases h0 with h0 | h0
    · simp at h0
    · exact ⟨s, rfl, hI, h0⟩
  | cons a rest ih =>
    obtain ⟨s1, h1, hI1, hP1⟩ := hstep a (List.mem_cons_self _ _) s hI
    have h0' : a0 ∈ rest ∨ P s1 := by
      rcases h0 with h0 | h0
      · rcases List.mem_cons.1 h0 with e | e
        · exact Or.inr (hP1 (Or.inl e.symm))
        · exact Or.inl e
      · exact Or.inr (hP1 (Or.inr h0))
    obtain ⟨s2, h2, hI2, hP2⟩ :=
      ih (fun b hb => hstep b (List.mem_cons_of_mem _ hb)) s1 hI1 h0'
    exact ⟨s2, by simp only [for_each, h1]; exact h2, hI2, hP2⟩

theorem for_each_rel {α σ : Type} (f : α → σ → Option σ) (I : σ → Prop) (R : σ → σ → Prop)
    (hrefl : ∀ s, R s s) (htrans : ∀ a b c, R a b → R b c → R a c) (l : List α)
    (hstep : ∀ a ∈ l, ∀ s, I s → ∃ s', f a s = some s' ∧ I s' ∧ R s s')
    (s : σ) (hI : I s) :
    ∃ s', for_each f l s = some s' ∧ I s' ∧ R s s' := by
  induction l generalizing s with
  | nil => exact ⟨s, rfl, hI, hrefl s⟩
  | cons a rest ih =>
    obtain ⟨s1, h1, hI1, hR1⟩ := hstep a (List.mem_cons_self _ _) s hI
    obtain ⟨s2, h2, hI2, hR2⟩ := ih (fun b hb => hstep b (List.mem_cons_of_mem _ hb)) s1 hI1
    exact ⟨s2, by simp only [for_each, h1]; exact h2, hI2, htrans _ _ _ hR1 hR2⟩

theorem SameOff.same (W : Vertex → Prop) (m : Model) : SameOff W m m := fun _ _ => rfl

theorem SameOff.chain {W : Vertex → Prop} {a b c : Model} (h1 : SameOff W a b)
    (h2 : SameOff W b c) : SameOff W a c := fun q hq => (h2 q hq).trans (h1 q hq)

theorem SameOff.weaken {W V : Vertex → Prop} {a b : Model} (h : SameOff W a b)
    (hWV : ∀ q, W q → V q) : SameOff V a b := fun q hq => h q (fun hw => hq (hWV q hw))

theorem NewVertexInt_inj (x y z x' y' z' : Int) :
    NewVertexInt x y z = NewVertexInt x' y' z' ↔ x = x' ∧ y = y' ∧ z = z' := by
  simp [NewVertexInt, NewVertex]

theorem add_block_at (m : Model) (x y z : Int) (t : TextureType) (h : Inv m) :
    ∃ m', m.add_block (NewVertexInt x y z) t = some m' ∧ Inv m' ∧
      m'.world = Function.update m.world (NewVertexInt x y z) (some t) := by
  obtain ⟨m', h1, h2, h3, _⟩ := add_block_spec m (NewVertexInt x y z) t h rfl
  exact ⟨m', h1, h2, h3⟩

theorem xrange_wall : xrange (-2) 3 1 = [-2, -1, 0, 1, 2] := by decide

theorem build_wall_spec (m : Model) (x z : Int) (h : Inv m) :
    ∃ m', m.build_wall x 0 z = some m' ∧ Inv m' ∧
      (∀ y : Int, -2 ≤ y → y ≤ 2 → m'.world (NewVertexInt x y z) = some STONE) ∧
      (∀ q, (∀ y : Int, -2 ≤ y → y ≤ 2 → q ≠ NewVertexInt x y z) →
        m'.world q = m.world q) := by
  obtain ⟨m1, h1, i1, w1⟩ := add_block_at m x (0 + -2) z STONE h
  obtain ⟨m2, h2, i2, w2⟩ := add_block_at m1 x (0 + -1) z STONE i1
  obtain ⟨m3, h3, i3, w3⟩ := add_block_at m2 x (0 + 0) z STONE i2
  obtain ⟨m4, h4, i4, w4⟩ := add_block_at m3 x (0 + 1) z STONE i3
  obtain ⟨m5, h5, i5, w5⟩ := add_block_at m4 x (0 + 2) z STONE i4
  refine ⟨m5, ?_, i5, ?_, ?_⟩
  · unfold Model.build_wall
    rw [xrange_wall]
    simp only [for_each, h1, h2, h3, h4, h5]
  · intro y hy1 hy2
    rw [w5, w4, w3, w2, w1]
    have hy : y = -2 ∨ y = -1 ∨ y = 0 ∨ y = 1 ∨ y = 2 := by omega
    rcases hy with e | e | e | e | e <;> subst e <;>
      simp [Function.update_apply, NewVertexInt_inj]
  · intro q hq
    rw [w5, w4, w3, w2, w1]
    have e1 := hq (-2) (by omega) (by omega)
    have e2 := hq (-1) (by omega) (by omega)
    have e3 := hq 0 (by omega) (by omega)
    have e4 := hq 1 (by omega) (by omega)
    have e5 := hq 2 (by omega) (by omega)
    simp only [zero_add, Int.zero_add] at *
    rw [Function.update_noteq, Function.update_noteq, Function.update_noteq,
      Function.update_noteq, Function.update_noteq] <;> assumption

theorem vertex_int_coords (x y z : Int) :
    (NewVertexInt x y z).x = (x : ℚ) ∧ (NewVertexInt x y z).y = (y : ℚ) ∧
      (NewVertexInt x y z).z = (z : ℚ) := ⟨rfl, rfl, rfl⟩

theorem build_column_spec (m : Model) (x z : Int) (h : Inv m) :
    ∃ m', m.build_column 80 0 x z = some m' ∧ Inv m' ∧ ColSpec x z m'.world ∧
      SameOff (fun q => (q.x = (x : ℚ) ∧ q.z = (z : ℚ)) ∧ FloorW q) m m' := by
  obtain ⟨m1, h1, i1, w1⟩ := add_block_at m x (0 - 2) z GRASS h
  obtain ⟨m2, h2, i2, w2⟩ := add_block_at m1 x (0 - 3) z STONE i1
  have hf : ∀ y : Int, y = -2 ∨ y = -3 →
      ((NewVertexInt x y z).x = (x : ℚ) ∧ (NewVertexInt x y z).z = (z : ℚ)) ∧
        FloorW (NewVertexInt x y z) := by
    intro y hy
    refine ⟨⟨rfl, rfl⟩, ?_⟩
    rcases hy with e | e
    · exact Or.inl (by show ((y : Int) : ℚ) = -2; exact_mod_cast e)
    · exact Or.inr (Or.inl (by show ((y : Int) : ℚ) = -3; exact_mod_cast e))
  have hs2 : SameOff (fun q => (q.x = (x : ℚ) ∧ q.z = (z : ℚ)) ∧ FloorW q) m m2 := by
    intro q hq
    have e1 : q ≠ NewVertexInt x (0 - 2) z := fun e => hq (e ▸ hf _ (by omega))
    have e2 : q ≠ NewVertexInt x (0 - 3) z := fun e => hq (e ▸ hf _ (by omega))
    rw [w2, w1, Function.update_noteq e2, Function.update_noteq e1]
  by_cases hp : x = -80 ∨ x = 80 ∨ z = -80 ∨ z = 80
  · obtain ⟨m3, h3, i3, hw3, hframe3⟩ := build_wall_spec m2 x z i2
    refine ⟨m3, ?_, i3, ⟨?_, ?_, fun _ => hw3⟩, ?_⟩
    · simp only [Model.build_column, h1, h2]
      rw [if_pos (by simpa using hp)]
      exact h3
    · rw [hframe3 _ (fun y hy1 hy2 e => by
        rw [NewVertexInt_inj] at e; omega), w2]
      simp
    · intro hint; omega
    · intro q hq
      rw [hframe3 q (fun y hy1 hy2 e => hq (by
        subst e
        refine ⟨⟨rfl, rfl⟩, Or.inr (Or.inr ?_)⟩
        rcases hp with e | e | e | e
        · exact Or.inl (by show ((x : Int) : ℚ) = -80; exact_mod_cast e)
        · exact Or.inr (Or.inl (by show ((x : Int) : ℚ) = 80; exact_mod_cast e))
        · exact Or.inr (Or.inr (Or.inl (by show ((z : Int) : ℚ) = -80; exact_mod_cast e)))
        · exact Or.inr (Or.inr (Or.inr (by show ((z : Int) : ℚ) = 80; exact_mod_cast e)))))]
      exact hs2 q hq
  · refine ⟨m2, ?_, i2, ⟨?_, ?_, fun hper => absurd hper hp⟩, hs2⟩
    · simp only [Model.build_column, h1, h2]
      rw [if_neg (by simpa using hp)]
    · rw [w2]; simp
    · intro _
      rw [w2, w1, Function.update_noteq (by rw [Ne, NewVertexInt_inj]; omega)]
      simp

theorem ColSpec.carry_over {x z : Int} {w w' : Vertex → Option TextureType}
    (h : ∀ y : Int, w' (NewVertexInt x y z) = w (NewVertexInt x y z)) (hc : ColSpec x z w) :
    ColSpec x z w' := by
  obtain ⟨h1, h2, h3⟩ := hc
  refine ⟨by rw [h]; exact h1, fun hi => by rw [h]; exact h2 hi, fun hp y hy1 hy2 => ?_⟩
  rw [h]; exact h3 hp y hy1 hy2

theorem for_each_unique {α σ : Type} {f : α → σ → Option σ} {l : List α} {s a b : σ}
    (ha : for_each f l s = some a) (hb : for_each f l s = some b) : a = b :=
  Option.some.inj (ha.symm.trans hb)

theorem build_row_spec (m : Model) (x : Int) (h : Inv m) :
    ∃ m', for_each (fun z (m : Model) => m.build_column 80 0 x z)
        (xrange (-80) (80 + 1) 1) m = some m' ∧ Inv m' ∧
      SameOff (fun q => q.x = (x : ℚ) ∧ FloorW q) m m' ∧
      ∀ z : Int, -80 ≤ z → z ≤ 80 → ColSpec x z m'.world := by
  obtain ⟨m', h', hi', hs'⟩ := for_each_rel
    (fun z (m : Model) => m.build_column 80 0 x z) Inv
    (SameOff (fun q => q.x = (x : ℚ) ∧ FloorW q)) (SameOff.same _)
    (fun _ _ _ => SameOff.chain) (xrange (-80) (80 + 1) 1)
    (fun z _ s hs => by
      obtain ⟨s', e, i, _, f⟩ := build_column_spec s x z hs
      exact ⟨s', e, i, f.weaken (fun q hq => ⟨hq.1.1, hq.2⟩)⟩) m h
  refine ⟨m', h', hi', hs', fun z0 hz1 hz2 => ?_⟩
  obtain ⟨m'', h'', _, hc⟩ := for_each_est
    (fun z (m : Model) => m.build_column 80 0 x z) Inv
    (fun m => ColSpec x z0 m.world) z0 (xrange (-80) (80 + 1) 1)
    (fun z _ s hs => by
      obtain ⟨s', e, i, c, f⟩ := build_column_spec s x z hs
      refine ⟨s', e, i, fun hor => ?_⟩
      by_cases hz : z = z0
      · exact hz ▸ c
      · rcases hor with hor | hor
        · exact absurd hor hz
        · refine ColSpec.carry_over (fun y => f _ ?_) hor
          rintro ⟨⟨_, e2⟩, _⟩
          have e3 : ((z0 : Int) : ℚ) = (z : ℚ) := e2
          exact hz (by exact_mod_cast e3.symm)) m h
    (Or.inl ((xrange_mem_from _ _ _).2 ⟨hz1, by omega⟩))
  rw [← for_each_unique h'' h']
  exact hc

theorem build_floor_spec (m : Model) (h : Inv m) :
    ∃ m', m.build_floor 80 1 0 = some m' ∧ Inv m' ∧ SameOff FloorW m m' ∧
      ∀ x z : Int, -80 ≤ x → x ≤ 80 → -80 ≤ z → z ≤ 80 → ColSpec x z m'.world := by
  obtain ⟨m', h', hi', hs'⟩ := for_each_rel
    (fun x (m : Model) => for_each (fun z (m : Model) => m.build_column 80 0 x z)
      (xrange (-80) (80 + 1) 1) m) Inv (SameOff FloorW) (SameOff.same _)
    (fun _ _ _ => SameOff.chain) (xrange (-80) (80 + 1) 1)
    (fun x _ s hs => by
      obtain ⟨s', e, i, f, _⟩ := build_row_spec s x hs
      exact ⟨s', e, i, f.weaken (fun q hq => hq.2)⟩) m h
  refine ⟨m', h', hi', hs', fun x0 z0 hx1 hx2 hz1 hz2 => ?_⟩
  obtain ⟨m'', h'', _, hc⟩ := for_each_est
    (fun x (m : Model) => for_each (fun z (m : Model) => m.build_column 80 0 x z)
      (xrange (-80) (80 + 1) 1) m) Inv
    (fun m => ColSpec x0 z0 m.world) x0 (xrange (-80) (80 + 1) 1)
    (fun x _ s hs => by
      obtain ⟨s', e, i, f, c⟩ := build_row_spec s x hs
      refine ⟨s', e, i, fun hor => ?_⟩
      by_cases hx : x = x0
      · exact hx ▸ c z0 hz1 hz2
      · rcases hor with hor | hor
        · exact absurd hor hx
        · refine ColSpec.carry_over (fun y => f _ ?_) hor
          rintro ⟨e2, _⟩
          have e3 : ((x0 : Int) : ℚ) = (x : ℚ) := e2
          exact hx (by exact_mod_cast e3.symm)) m h
    (Or.inl ((xrange_mem_from _ _ _).2 ⟨hx1, by omega⟩))
  rw [← for_each_unique h'' h']
  exact hc

theorem random_randint_spec (g : Rand) (lo hi : Int) (h : lo < hi) :
    ∃ v g', random_randint g lo hi = some (v, g') ∧ lo ≤ v ∧ v < hi := by
  have hpos : 0 < hi - lo := by omega
  have h1 := Int.emod_nonneg ((g 0 : Nat) : Int) (ne_of_gt hpos)
  have h2 := Int.emod_lt_of_pos ((g 0 : Nat) : Int) hpos
  refine ⟨((g 0 : Nat) : Int) % (hi - lo) + lo, fun k => g (k + 1), ?_, by omega, by omega⟩
  simp only [random_randint, rand_Intn, if_neg (not_le.2 hpos)]

theorem random_choice_spec (g : Rand) :
    ∃ t g', random_choice g [GRASS, SAND, BRICK] = some (t, g') := by
  obtain ⟨n, g', h, h1, h2⟩ := random_randint_spec g 0 (([GRASS, SAND, BRICK].length : Nat) : Int)
    (by decide)
  have hn : n = 0 ∨ n = 1 ∨ n = 2 := by
    simp only [List.length_cons, List.length_nil] at h2
    omega
  rcases hn with e | e | e <;> subst e
  · exact ⟨GRASS, g', by simp only [random_choice, h]; rfl⟩
  · exact ⟨SAND, g', by simp only [random_choice, h]; rfl⟩
  · exact ⟨BRICK, g', by simp only [random_choice, h]; rfl⟩

theorem hill_cell_spec (m : Model) (a b s y x z : Int) (t : TextureType) (h : Inv m)
    (hy : -1 ≤ y) (hx1 : -80 < x) (hx2 : x < 80) (hz1 : -80 < z) (hz2 : z < 80) :
    ∃ m', m.hill_cell a b s y x z t = some m' ∧ Inv m' ∧ SameOff HillW m m' := by
  unfold Model.hill_cell
  split_ifs with c1 c2
  · exact ⟨m, rfl, h, SameOff.same _ _⟩
  · exact ⟨m, rfl, h, SameOff.same _ _⟩
  · obtain ⟨m', h1, i1, w1⟩ := add_block_at m x y z t h
    refine ⟨m', h1, i1, fun q hq => ?_⟩
    have hne : q ≠ NewVertexInt x y z := by
      intro e
      apply hq
      subst e
      have c3 : (25 : Int) ≤ x ^ 2 + z ^ 2 := by
        have : ¬ (PowInt (x - 0) 2 + PowInt (z - 0) 2 < PowInt 5 2) := c2
        simp only [PowInt, sub_zero] at this
        norm_num at this
        exact this
      refine ⟨?_, ?_, ?_, ?_, ?_, ?_⟩
      · show (-1 : ℚ) ≤ ((y : Int) : ℚ); exact_mod_cast hy
      · show (25 : ℚ) ≤ ((x : Int) : ℚ) ^ 2 + ((z : Int) : ℚ) ^ 2; exact_mod_cast c3
      · show (-80 : ℚ) < ((x : Int) : ℚ); exact_mod_cast hx1
      · show ((x : Int) : ℚ) < 80; exact_mod_cast hx2
      · show (-80 : ℚ) < ((z : Int) : ℚ); exact_mod_cast hz1
      · show ((z : Int) : ℚ) < 80; exact_mod_cast hz2
    rw [w1, Function.update_noteq hne]

theorem hill_layer_spec (m : Model) (a b s y : Int) (t : TextureType) (h : Inv m)
    (hy : -1 ≤ y) (ha1 : -70 ≤ a) (ha2 : a < 70) (hb1 : -70 ≤ b) (hb2 : b < 70)
    (hs : s ≤ 7) :
    ∃ m', m.hill_layer a b s y t = some m' ∧ Inv m' ∧ SameOff HillW m m' := by
  unfold Model.hill_layer
  refine for_each_rel _ Inv (SameOff HillW) (SameOff.same _) (fun _ _ _ => SameOff.chain) _
    (fun x hx m1 i1 => ?_) m h
  rw [xrange_mem_from] at hx
  refine for_each_rel _ Inv (SameOff HillW) (SameOff.same _) (fun _ _ _ => SameOff.chain) _
    (fun z hz m2 i2 => ?_) m1 i1
  rw [xrange_mem_from] at hz
  exact hill_cell_spec m2 a b s y x z t i2 hy (by omega) (by omega) (by omega) (by omega)

theorem hill_layers_spec (a b : Int) (t : TextureType) (ys : List Int) (s : Int) (m : Model)
    (h : Inv m) (hy : ∀ y ∈ ys, -1 ≤ y) (ha1 : -70 ≤ a) (ha2 : a < 70) (hb1 : -70 ≤ b)
    (hb2 : b < 70) (hs : s ≤ 7) :
    ∃ m', Model.hill_layers a b 1 t ys s m = some m' ∧ Inv m' ∧ SameOff HillW m m' := by
  induction ys generalizing s m with
  | nil => exact ⟨m, rfl, h, SameOff.same _ _⟩
  | cons y rest ih =>
    obtain ⟨m1, h1, i1, f1⟩ := hill_layer_spec m a b s y t h
      (hy y (List.mem_cons_self _ _)) ha1 ha2 hb1 hb2 hs
    obtain ⟨m2, h2, i2, f2⟩ := ih (s - 1) m1 i1
      (fun y' hy' => hy y' (List.mem_cons_of_mem _ hy')) (by omega)
    exact ⟨m2, by simp only [Model.hill_layers, h1]; exact h2, i2, f1.chain f2⟩

theorem build_hill_spec (st : Rand × Model) (h : Inv st.2) :
    ∃ st', Model.build_hill (80 - 10) st = some st' ∧ Inv st'.2 ∧
      SameOff HillW st.2 st'.2 := by
  obtain ⟨a, g1, e1, ha1, ha2⟩ := random_randint_spec st.1 (-(80 - 10)) (80 - 10) (by decide)
  obtain ⟨b, g2, e2, hb1, hb2⟩ := random_randint_spec g1 (-(80 - 10)) (80 - 10) (by decide)
  obtain ⟨hh, g3, e3, hh1, hh2⟩ := random_randint_spec g2 1 6 (by decide)
  obtain ⟨s, g4, e4, hs1, hs2⟩ := random_randint_spec g3 4 8 (by decide)
  obtain ⟨t, g5, e5⟩ := random_choice_spec g4
  obtain ⟨m', e6, i6, f6⟩ := hill_layers_spec a b t (xrange (-1) (-1 + hh) 1) s st.2 h
    (fun y hy => ((xrange_mem_from _ _ _).1 hy).1) (by omega) (by omega) (by omega)
    (by omega) (by omega)
  exact ⟨(g5, m'), by simp only [Model.build_hill, e1, e2, e3, e4, e5, e6], i6, f6⟩

theorem build_world_spec (m : Model) (h : Inv m) (g : Rand) :
    ∃ g' mf m', m.build_floor 80 1 0 = some mf ∧
      m.build_world g = some (g', m') ∧ Inv m' ∧
      SameOff FloorW m mf ∧ SameOff HillW mf m' ∧
      ∀ x z : Int, -80 ≤ x → x ≤ 80 → -80 ≤ z → z ≤ 80 → ColSpec x z mf.world := by
  obtain ⟨mf, e1, i1, f1, c1⟩ := build_floor_spec m h
  obtain ⟨st, e2, i2, f2⟩ := for_each_rel (fun (_ : Int) st => Model.build_hill (80 - 10) st)
    (fun st => Inv st.2) (fun st st' => SameOff HillW st.2 st'.2) (fun _ => SameOff.same _ _)
    (fun _ _ _ => SameOff.chain) (xrange 0 120 1)
    (fun _ _ st hst => build_hill_spec st hst) (g, mf) i1
  refine ⟨st.1, mf, st.2, e1, ?_, i2, f1, f2, c1⟩
  unfold Model.build_world
  simp only [e1]
  exact e2

/-- Claim C16: for every state of the pseudo-random source, `build_world` on the
fresh model of `NewModel` completes, and in the resulting world no position with
`y ≥ -1` and `x^2 + z^2 < 25` holds a block; inside this disk a block lies only
at `y = -2` or `y = -3`, where the GRASS and STONE base layers are. -/
theorem build_world_spawn_clear (g : Rand) :
    ∃ g' m', NewModel g = some (g', m') ∧
      (∀ q : Vertex, -1 ≤ q.y → q.x ^ 2 + q.z ^ 2 < 25 → m'.world q = none) ∧
      (∀ q : Vertex, q.x ^ 2 + q.z ^ 2 < 25 → m'.world q ≠ none → q.y = -2 ∨ q.y = -3) ∧
      (∀ x z : Int, x ^ 2 + z ^ 2 < 25 →
        m'.world (NewVertexInt x (-2) z) = some GRASS ∧
        m'.world (NewVertexInt x (-3) z) = some STONE) := by
  obtain ⟨g', mf, m', _, e, _, f1, f2, c⟩ := build_world_spec Model.empty inv_empty g
  have hout : ∀ q : Vertex, q.x ^ 2 + q.z ^ 2 < 25 → m'.world q ≠ none →
      q.y = -2 ∨ q.y = -3 := by
    intro q hd hne
    have hH : ¬ HillW q := fun hw => absurd hw.2.1 (not_le.2 hd)
    rw [f2 q hH] at hne
    by_contra hy
    apply hne
    rw [f1 q ?_]
    · rfl
    · rintro (h | h | h | h | h | h)
      · exact hy (Or.inl h)
      · exact hy (Or.inr h)
      all_goals rw [h] at hd; nlinarith [sq_nonneg q.x, sq_nonneg q.z]
  refine ⟨g', m', e, fun q hy hd => ?_, hout, fun x z hd => ?_⟩
  · by_contra hne
    rcases hout q hd hne with h | h <;> rw [h] at hy <;> norm_num at hy
  · have hx : -80 < x ∧ x < 80 := by constructor <;> nlinarith [sq_nonneg x, sq_nonneg z]
    have hz : -80 < z ∧ z < 80 := by constructor <;> nlinarith [sq_nonneg x, sq_nonneg z]
    obtain ⟨c1, c2, _⟩ := c x z (by omega) (by omega) (by omega) (by omega)
    have hH : ∀ y : Int, y < -1 → ¬ HillW (NewVertexInt x y z) := by
      intro y hy hw
      have h1 : (-1 : ℚ) ≤ ((y : Int) : ℚ) := hw.1
      have h2 : (-1 : Int) ≤ y := by exact_mod_cast h1
      omega
    rw [f2 _ (hH _ (by decide)), f2 _ (hH _ (by decide))]
    exact ⟨c2 ⟨hx.1, hx.2, hz.1, hz.2⟩, c1⟩

/-- Claim C17: for every state of the pseudo-random source, `build_world` on the
fresh model of `NewModel` completes, and for all integers `x, z` of `[-80, 80]`
the resulting world holds STONE at `(x, -3, z)`, GRASS at `(x, -2, z)` when
`|x| < 80` and `|z| < 80`, and STONE at `(x, y, z)` for every `y` of `-2 .. 2`
when `|x| = 80` or `|z| = 80`; the hills leave these positions as the first loop
wrote them. -/
theorem build_world_floor_and_walls (g : Rand) :
    ∃ g' m', NewModel g = some (g', m') ∧
      ∀ x z : Int, -80 ≤ x → x ≤ 80 → -80 ≤ z → z ≤ 80 →
        m'.world (NewVertexInt x (-3) z) = some STONE ∧
        ((-80 < x ∧ x < 80 ∧ -80 < z ∧ z < 80) →
          m'.world (NewVertexInt x (-2) z) = some GRASS) ∧
        ((x = -80 ∨ x = 80 ∨ z = -80 ∨ z = 80) →
          ∀ y : Int, -2 ≤ y → y ≤ 2 → m'.world (NewVertexInt x y z) = some STONE) := by
  obtain ⟨g', mf, m', _, e, _, _, f2, c⟩ := build_world_spec Model.empty inv_empty g
  refine ⟨g', m', e, fun x z hx1 hx2 hz1 hz2 => ?_⟩
  obtain ⟨c1, c2, c3⟩ := c x z hx1 hx2 hz1 hz2
  have hH : ∀ y : Int, y < -1 → ¬ HillW (NewVertexInt x y z) := by
    intro y hy hw
    have h1 : (-1 : ℚ) ≤ ((y : Int) : ℚ) := hw.1
    have h2 : (-1 : Int) ≤ y := by exact_mod_cast h1
    omega
  refine ⟨by rw [f2 _ (hH _ (by decide))]; exact c1,
    fun hi => by rw [f2 _ (hH _ (by decide))]; exact c2 hi, fun hp y hy1 hy2 => ?_⟩
  rw [f2 _ ?_]
  · exact c3 hp y hy1 hy2
  · rintro ⟨_, _, h3, h4, h5, h6⟩
    have h3' : (-80 : Int) < x := by
      have : (-80 : ℚ) < ((x : Int) : ℚ) := h3
      exact_mod_cast this
    have h4' : x < (80 : Int) := by
      have : ((x : Int) : ℚ) < 80 := h4
      exact_mod_cast this
    have h5' : (-80 : Int) < z := by
      have : (-80 : ℚ) < ((z : Int) : ℚ) := h5
      exact_mod_cast this
    have h6' : z < (80 : Int) := by
      have : ((z : Int) : ℚ) < 80 := h6
      exact_mod_cast this
    omega

/-! ## Falling onto a flat floor -/

theorem probe_y (np face op : Vertex) (i dy : Int) (h : probe np face i dy = some op) :
    op.y = if i = 1 then np.y - (dy : ℚ) + face.y else np.y - (dy : ℚ) := by
  unfold probe at h
  simp only [Vertex.get, Vertex.set, if_neg (show ¬ ((1 : Int) = 0) by decide), if_true,
    Option.bind_eq_bind, Option.some_bind, Option.pure_def, bind_pure_comp] at h
  by_cases h0 : i = 0
  · subst h0
    simp at h
    rw [← h]
    simp
  · by_cases h1 : i = 1
    · subst h1
      simp at h
      rw [← h]
      simp
    · by_cases h2 : i = 2
      · subst h2
        simp at h
        rw [← h]
        simp
      · simp [h0, h1, h2] at h

theorem push_step_skip (np face : Vertex) (i : Int) (hs : List Int) (s : Window × Vertex)
    (hi : i = 0 ∨ i = 1 ∨ i = 2) (hf : face.coord i = 1 ∨ face.coord i = -1)
    (h : ¬ (PAD ≤ (s.2.coord i - np.coord i) * face.coord i ∧
        ∃ dy ∈ hs, ∃ op, probe np face i dy = some op ∧ s.1.model.world op ≠ none)) :
    push_step np face i hs s = s := by
  rcases push_step_cases np face i hs s hf with h1 | ⟨op, hd, hp, _⟩
  · exact h1.1
  · exact absurd ⟨hd, (first_probe_some_iff _ np face i hi hs).1 ⟨op, hp⟩⟩ h

theorem xrange_two : xrange 0 2 1 = [0, 1] := by decide

theorem round_ge_one (y : ℚ) (h : 3 / 4 < y) : 1 ≤ round y := by
  unfold round
  rw [if_neg (by linarith)]
  have : (1 : Int) ≤ Int.floor (y + 1 / 2) := Int.le_floor.2 (by push_cast; linarith)
  exact_mod_cast this

theorem round_eq_one (y : ℚ) (h1 : 1 / 2 ≤ y) (h2 : y ≤ 3 / 4) : round y = 1 := by
  unfold round
  rw [if_neg (by linarith)]
  have : Int.floor (y + 1 / 2) = 1 := by
    rw [Int.floor_eq_iff]
    constructor <;> push_cast <;> linarith
  rw [this]
  norm_num

/-- Above the floor layer no lateral or upward probe of `collide` meets a block:
with `np.y ≥ 1` these probes lie at `y ≥ 0`. -/
theorem push_step_air (w : Window) (p np face : Vertex) (i : Int)
    (hair : ∀ q : Vertex, q.y ≠ -1 → w.model.world q = none)
    (hi : i = 0 ∨ i = 1 ∨ i = 2) (hf : face.coord i = 1 ∨ face.coord i = -1)
    (hnp : 1 ≤ np.y) (hface : i = 1 → face.y = 1) :
    push_step np face i (xrange 0 2 1) (w, p) = (w, p) := by
  refine push_step_skip np face i _ (w, p) hi hf ?_
  rintro ⟨_, dy, hdy, op, hop, hne⟩
  rw [xrange_mem] at hdy
  have hy := probe_y np face op i dy hop
  apply hne
  apply hair
  have h1 : (0 : ℚ) ≤ (dy : ℚ) := by exact_mod_cast hdy.1
  have h2 : (dy : ℚ) ≤ 1 := by
    have : dy ≤ 1 := by omega
    exact_mod_cast this
  rw [hy]
  split_ifs with e
  · rw [hface e]; intro hc; linarith
  · intro hc; linarith

theorem collide_high (w : Window) (p : Vertex)
    (hair : ∀ q : Vertex, q.y ≠ -1 → w.model.world q = none) (hy : 3 / 4 < p.y) :
    w.collide p 2 = some (w, p) := by
  have hnp : 1 ≤ (normalize p).y := round_ge_one p.y hy
  rw [collide_eq]
  rw [push_step_air w p _ (NewVertex 0 1 0) 1 hair (by decide) (Or.inl rfl) hnp (fun _ => rfl)]
  have hdown : push_step (normalize p) (NewVertex 0 (-1) 0) 1 (xrange 0 2 1) (w, p) = (w, p) := by
    refine push_step_skip _ _ 1 _ (w, p) (by decide) (Or.inr rfl) ?_
    rintro ⟨hd, dy, hdy, op, hop, hne⟩
    rw [xrange_mem] at hdy
    have hy2 := probe_y _ _ op 1 dy hop
    rw [if_pos rfl] at hy2
    have hopy : op.y = -1 := by
      by_contra hc
      exact hne (hair op hc)
    have h2 : (dy : ℚ) ≤ 1 := by
      have : dy ≤ 1 := by omega
      exact_mod_cast this
    have hfy : (NewVertex 0 (-1) 0).y = -1 := rfl
    rw [hfy] at hy2
    have hd2 : PAD ≤ (p.y - (normalize p).y) * (-1) := hd
    unfold PAD at hd2
    linarith
  rw [hdown]
  rw [push_step_air w p _ (NewVertex (-1) 0 0) 0 hair (by decide) (Or.inr rfl) hnp
    (fun e => absurd e (by decide))]
  rw [push_step_air w p _ (NewVertex 1 0 0) 0 hair (by decide) (Or.inl rfl) hnp
    (fun e => absurd e (by decide))]
  rw [push_step_air w p _ (NewVertex 0 0 1) 2 hair (by decide) (Or.inl rfl) hnp
    (fun e => absurd e (by decide))]
  rw [push_step_air w p _ (NewVertex 0 0 (-1)) 2 hair (by decide) (Or.inr rfl) hnp
    (fun e => absurd e (by decide))]

theorem pushed_window_input (w : Window) (face : Vertex) (i : Int) (op : Vertex) :
    (pushed_window w face i op).flying = w.flying ∧
      (pushed_window w face i op).strafe = w.strafe := by
  unfold pushed_window
  split_ifs <;> exact ⟨rfl, rfl⟩

/-- Landing: a position with `1/2 ≤ y ≤ 3/4` over an occupied floor cell at
`y = -1` is pushed up to `y = 3/4` by the downward face, and `dy` is reset. -/
theorem collide_land (w : Window) (p : Vertex)
    (hair : ∀ q : Vertex, q.y ≠ -1 → w.model.world q = none)
    (hfloor : w.model.world (NewVertex (round p.x) (-1) (round p.z)) ≠ none)
    (h1 : 1 / 2 ≤ p.y) (h2 : p.y ≤ 3 / 4) :
    ∃ w', w.collide p 2 = some (w', p.setc 1 (3 / 4)) ∧ w'.dy = 0 ∧
      w'.flying = w.flying ∧ w'.strafe = w.strafe ∧ w'.model = w.model := by
  have hr : round p.y = 1 := round_eq_one p.y h1 h2
  have hnp : (normalize p).y = 1 := hr
  have hnp1 : 1 ≤ (normalize p).y := le_of_eq hnp.symm
  have hopen : w.model.world (NewVertex (round p.x) (1 - ((0 : Int) : ℚ) + -1) (round p.z))
      = none := hair _ (by show (1 - ((0 : Int) : ℚ) + -1 : ℚ) ≠ -1; norm_num)
  have hfp : first_probe w.model.world (normalize p) (NewVertex 0 (-1) 0) 1 (xrange 0 2 1) =
      some (NewVertex (round p.x) (-1) (round p.z)) := by
    rw [xrange_two]
    have e0 : probe (normalize p) (NewVertex 0 (-1) 0) 1 0 =
        some (NewVertex (round p.x) (1 - ((0 : Int) : ℚ) + -1) (round p.z)) := by
      simp [probe, Vertex.get, Vertex.set, normalize, NewVertex, hr]
    have e1 : probe (normalize p) (NewVertex 0 (-1) 0) 1 1 =
        some (NewVertex (round p.x) (-1) (round p.z)) := by
      simp [probe, Vertex.get, Vertex.set, normalize, NewVertex, hr]
    simp only [first_probe, e0, e1, hopen, Option.isNone_none, if_true]
    rw [if_neg]
    intro hc
    rw [Option.isNone_iff_eq_none] at hc
    exact hfloor hc
  have hdown : push_step (normalize p) (NewVertex 0 (-1) 0) 1 (xrange 0 2 1) (w, p) =
      (pushed_window w (NewVertex 0 (-1) 0) 1 (NewVertex (round p.x) (-1) (round p.z)),
        p.setc 1 (3 / 4)) := by
    unfold push_step
    simp only [hfp, coord_one, hnp]
    have hfy : (NewVertex 0 (-1) 0).y = -1 := rfl
    rw [hfy, if_neg (by unfold PAD; linarith)]
    congr 2
    unfold PAD
    ring
  obtain ⟨hm, _, hdy⟩ := pushed_window_facts w (NewVertex 0 (-1) 0) 1
    (NewVertex (round p.x) (-1) (round p.z))
  obtain ⟨hfl, hst⟩ := pushed_window_input w (NewVertex 0 (-1) 0) 1
    (NewVertex (round p.x) (-1) (round p.z))
  have hair2 : ∀ q : Vertex, q.y ≠ -1 →
      (pushed_window w (NewVertex 0 (-1) 0) 1
        (NewVertex (round p.x) (-1) (round p.z))).model.world q = none := by
    intro q hq
    rw [hm]
    exact hair q hq
  refine ⟨_, ?_, ?_, hfl, hst, hm⟩
  · rw [collide_eq]
    rw [push_step_air w p _ (NewVertex 0 1 0) 1 hair (by decide) (Or.inl rfl) hnp1
      (fun _ => rfl)]
    rw [hdown]
    rw [push_step_air _ _ _ (NewVertex (-1) 0 0) 0 hair2 (by decide) (Or.inr rfl) hnp1
      (fun e => absurd e (by decide))]
    rw [push_step_air _ _ _ (NewVertex 1 0 0) 0 hair2 (by decide) (Or.inl rfl) hnp1
      (fun e => absurd e (by decide))]
    rw [push_step_air _ _ _ (NewVertex 0 0 1) 2 hair2 (by decide) (Or.inl rfl) hnp1
      (fun e => absurd e (by decide))]
    rw [push_step_air _ _ _ (NewVertex 0 0 (-1)) 2 hair2 (by decide) (Or.inr rfl) hnp1
      (fun e => absurd e (by decide))]
  · rw [hdy, if_pos (Or.inl rfl)]

theorem substep_eq (motion : Window → Vertex) (m : Model) (x z y v h : ℚ) (w : Window)
    (hw : Falling m x z y v w) :
    w._update motion h =
      match ({ w with dy := max (v - h * 20) (-50) } : Window).collide
          (NewVertex x (y + max (v - h * 20) (-50) * h) z) 2 with
      | none => none
      | some (w2, p) => some { w2 with position := p } := by
  obtain ⟨hfly, hstrafe, _, hpos, hdy⟩ := hw
  unfold Window._update Window.get_motion_vector
  simp only [hfly, hstrafe, hpos, hdy, GRAVITY, TERMINAL_VELOCITY, PLAYER_HEIGHT, WALKING_SPEED,
    NewVertex]
  simp

theorem substep_fall (motion : Window → Vertex) (m : Model) (x z y v h : ℚ) (w : Window)
    (hw : Falling m x z y v w)
    (hair : ∀ q : Vertex, q.y ≠ -1 → m.world q = none)
    (hy : 3 / 4 < y + max (v - h * 20) (-50) * h) :
    ∃ w', w._update motion h = some w' ∧
      Falling m x z (y + max (v - h * 20) (-50) * h) (max (v - h * 20) (-50)) w' := by
  rw [substep_eq motion m x z y v h w hw]
  obtain ⟨hfly, hstrafe, hm, hpos, hdy⟩ := hw
  rw [collide_high _ _ (by intro q hq; show w.model.world q = none; rw [hm]; exact hair q hq)
    hy]
  exact ⟨_, rfl, ⟨hfly, hstrafe, hm, rfl, rfl⟩⟩

theorem substep_land (motion : Window → Vertex) (m : Model) (x z y v h : ℚ) (w : Window)
    (hw : Falling m x z y v w)
    (hair : ∀ q : Vertex, q.y ≠ -1 → m.world q = none)
    (hfloor : m.world (NewVertex (round x) (-1) (round z)) ≠ none)
    (h1 : 1 / 2 ≤ y + max (v - h * 20) (-50) * h)
    (h2 : y + max (v - h * 20) (-50) * h ≤ 3 / 4) :
    ∃ w', w._update motion h = some w' ∧ Falling m x z (3 / 4) 0 w' := by
  rw [substep_eq motion m x z y v h w hw]
  obtain ⟨hfly, hstrafe, hm, hpos, hdy⟩ := hw
  obtain ⟨w2, e, hdy2, hfl2, hst2, hm2⟩ := collide_land
    ({ w with dy := max (v - h * 20) (-50) } : Window)
    (NewVertex x (y + max (v - h * 20) (-50) * h) z)
    (by intro q hq; show w.model.world q = none; rw [hm]; exact hair q hq)
    (by show w.model.world _ ≠ none; rw [hm]; exact hfloor) h1 h2
  rw [e]
  exact ⟨_, rfl, ⟨hfl2.trans hfly, hst2.trans hstrafe, hm2.trans hm, rfl, hdy2⟩⟩

theorem fall_y_succ (h : ℚ) (j : Nat) :
    fall_y h (j + 1) = fall_y h j + -(20 * h * (((j + 1 : Nat)) : ℚ)) * h := by
  unfold fall_y
  push_cast
  ring

/-- One sub-step from a state of the fall leads to the next state of the fall,
provided the sub-step `h` is at most `1/40` and the free fall cannot jump over
the landing window `[1/2, 3/4]`. -/
theorem fall_step (motion : Window → Vertex) (m : Model) (x z h : ℚ) (j : Nat) (w : Window)
    (hair : ∀ q : Vertex, q.y ≠ -1 → m.world q = none)
    (hfloor : m.world (NewVertex (round x) (-1) (round z)) ≠ none)
    (h0 : 0 ≤ h) (h40 : h ≤ 1 / 40)
    (hland : ∀ i : Nat, 3 / 4 < fall_y h i → 3 / 4 < fall_y h (i + 1) ∨ 1 / 2 ≤ fall_y h (i + 1))
    (hw : FallState m x z h j w) :
    ∃ w', w._update motion h = some w' ∧ FallState m x z h (j + 1) w' := by
  rcases hw with ⟨hf, hy⟩ | hr
  · have hb : (0 : ℚ) ≤ h * (j : ℚ) := mul_nonneg h0 (Nat.cast_nonneg j)
    have hv : max (-(20 * h * (j : ℚ)) - h * 20) (-50) = -(20 * h * (((j + 1 : Nat)) : ℚ)) := by
      push_cast
      rw [max_eq_left]
      · ring
      · unfold fall_y at hy
        by_contra hc
        push_neg at hc
        have ha : 5 / 2 < h * (j : ℚ) + h := by linarith
        nlinarith [mul_nonneg hb (by linarith : (0 : ℚ) ≤ h * (j : ℚ) + h)]
    have hnext : fall_y h j + max (-(20 * h * (j : ℚ)) - h * 20) (-50) * h = fall_y h (j + 1) := by
      rw [hv, fall_y_succ]
    by_cases hhigh : 3 / 4 < fall_y h (j + 1)
    · obtain ⟨w', e, hf'⟩ := substep_fall motion m x z _ _ h w hf hair (by rw [hnext]; exact hhigh)
      rw [hnext, hv] at hf'
      exact ⟨w', e, Or.inl ⟨hf', hhigh⟩⟩
    · have hlow : 1 / 2 ≤ fall_y h (j + 1) := (hland j hy).resolve_left hhigh
      obtain ⟨w', e, hf'⟩ := substep_land motion m x z _ _ h w hf hair hfloor
        (by rw [hnext]; exact hlow) (by rw [hnext]; exact not_lt.1 hhigh)
      exact ⟨w', e, Or.inr hf'⟩
  · have hv : max ((0 : ℚ) - h * 20) (-50) = -(h * 20) := by
      rw [max_eq_left] <;> linarith
    obtain ⟨w', e, hf'⟩ := substep_land motion m x z _ _ h w hr hair hfloor
      (by rw [hv]; nlinarith) (by rw [hv]; nlinarith)
    exact ⟨w', e, Or.inr hf'⟩

theorem fall_steps (motion : Window → Vertex) (m : Model) (x z h : ℚ)
    (hair : ∀ q : Vertex, q.y ≠ -1 → m.world q = none)
    (hfloor : m.world (NewVertex (round x) (-1) (round z)) ≠ none)
    (h0 : 0 ≤ h) (h40 : h ≤ 1 / 40)
    (hland : ∀ i : Nat, 3 / 4 < fall_y h i → 3 / 4 < fall_y h (i + 1) ∨ 1 / 2 ≤ fall_y h (i + 1))
    (l : List Int) (j : Nat) (w : Window) (hw : FallState m x z h j w) :
    ∃ w', for_each (fun (_ : Int) (w : Window) => w._update motion h) l w = some w' ∧
      FallState m x z h (j + l.length) w' := by
  induction l generalizing j w with
  | nil => exact ⟨w, rfl, hw⟩
  | cons a rest ih =>
    obtain ⟨w1, e1, s1⟩ := fall_step motion m x z h j w hair hfloor h0 h40 hland hw
    obtain ⟨w2, e2, s2⟩ := ih (j + 1) w1 s1
    refine ⟨w2, by simp only [for_each, e1]; exact e2, ?_⟩
    rw [List.length_cons, show j + (rest.length + 1) = j + 1 + rest.length by omega]
    exact s2

theorem FallState.of_sector (m : Model) (x z h : ℚ) (j : Nat) (w : Window) (s : Vertex)
    (hw : FallState m x z h j w) :
    FallState m x z h j (if s ≠ w.sector then { w with sector := s } else w) := by
  split_ifs
  · rcases hw with ⟨hf, hy⟩ | hr
    · exact Or.inl ⟨⟨hf.flying, hf.strafe, hf.model, hf.position, hf.dy⟩, hy⟩
    · exact Or.inr ⟨hr.flying, hr.strafe, hr.model, hr.position, hr.dy⟩
  · exact hw

theorem xrange_eight : xrange 0 8 1 = [0, 1, 2, 3, 4, 5, 6, 7] := by decide

theorem update_eq_steps (motion : Window → Vertex) (w : Window) (dt : ℚ) :
    w.update motion dt = w.update_steps motion dt 8 := by
  unfold Window.update Window.update_steps
  simp only [xrange_eight]
  rfl

theorem update_steps_spec (motion : Window → Vertex) (m : Model) (x z dt : ℚ)
    (hair : ∀ q : Vertex, q.y ≠ -1 → m.world q = none)
    (hfloor : m.world (NewVertex (round x) (-1) (round z)) ≠ none)
    (h0 : 0 ≤ dt)
    (hland : ∀ i : Nat, 3 / 4 < fall_y (min dt (1 / 5) / 8) i →
      3 / 4 < fall_y (min dt (1 / 5) / 8) (i + 1) ∨ 1 / 2 ≤ fall_y (min dt (1 / 5) / 8) (i + 1))
    (r j : Nat) (w : Window) (hw : FallState m x z (min dt (1 / 5) / 8) j w) :
    ∃ w', w.update_steps motion dt r = some w' ∧
      FallState m x z (min dt (1 / 5) / 8) (j + min r 8) w' := by
  have hh0 : 0 ≤ min dt (1 / 5) / 8 := div_nonneg (le_min h0 (by norm_num)) (by norm_num)
  have hh40 : min dt (1 / 5) / 8 ≤ 1 / 40 := by
    have := min_le_right dt (1 / 5)
    linarith
  obtain ⟨w', e, s⟩ := fall_steps motion m x z _ hair hfloor hh0 hh40 hland
    ((xrange 0 8 1).take r) j _ (FallState.of_sector m x z _ j w (sectorize w.position) hw)
  refine ⟨w', ?_, ?_⟩
  · unfold Window.update_steps
    simp only [Int.cast_ofNat]
    exact e
  · rw [List.length_take, xrange_eight] at s
    exact s

theorem updates_spec (motion : Window → Vertex) (m : Model) (x z dt : ℚ)
    (hair : ∀ q : Vertex, q.y ≠ -1 → m.world q = none)
    (hfloor : m.world (NewVertex (round x) (-1) (round z)) ≠ none)
    (h0 : 0 ≤ dt)
    (hland : ∀ i : Nat, 3 / 4 < fall_y (min dt (1 / 5) / 8) i →
      3 / 4 < fall_y (min dt (1 / 5) / 8) (i + 1) ∨ 1 / 2 ≤ fall_y (min dt (1 / 5) / 8) (i + 1))
    (k j : Nat) (w : Window) (hw : FallState m x z (min dt (1 / 5) / 8) j w) :
    ∃ wk, Window.updates motion dt k w = some wk ∧
      FallState m x z (min dt (1 / 5) / 8) (j + 8 * k) wk := by
  induction k generalizing j w with
  | zero => exact ⟨w, rfl, hw⟩
  | succ k ih =>
    obtain ⟨w1, e1, s1⟩ := update_steps_spec motion m x z dt hair hfloor h0 hland 8 j w hw
    rw [← update_eq_steps] at e1
    obtain ⟨w2, e2, s2⟩ := ih (j + min 8 8) w1 s1
    refine ⟨w2, by simp only [Window.updates, e1]; exact e2, ?_⟩
    rw [show j + 8 * (k + 1) = j + min 8 8 + 8 * k by simp; omega]
    exact s2

/-- Sub-steps of at most `1/64` (calls with `dt ≤ 1/8`) cannot jump over the
landing window: the last free-fall step is shorter than `1/4`. -/
theorem land_small (h : ℚ) (h0 : 0 ≤ h) (h64 : h ≤ 1 / 64) (i : Nat)
    (hy : 3 / 4 < fall_y h i) : 3 / 4 < fall_y h (i + 1) ∨ 1 / 2 ≤ fall_y h (i + 1) := by
  right
  rw [fall_y_succ]
  unfold fall_y at hy ⊢
  push_cast
  have hb : (0 : ℚ) ≤ h * (i : ℚ) := mul_nonneg h0 (Nat.cast_nonneg i)
  by_cases ha : h * (i : ℚ) + h ≤ 4 / 5
  · nlinarith [mul_le_mul h64 ha (by linarith) (by norm_num : (0 : ℚ) ≤ 1 / 64)]
  · push_neg at ha
    exfalso
    have hb2 : 4 / 5 - 1 / 64 < h * (i : ℚ) := by linarith
    nlinarith [mul_lt_mul hb2 (le_of_lt ha) (by norm_num) hb]

/-- Sub-steps of exactly `1/40` (calls with `dt ≥ 1/5`, clamped) land at the 26th
sub-step, at `y = 0.6125`. -/
theorem land_clamped (i : Nat) (hy : 3 / 4 < fall_y (1 / 40) i) :
    3 / 4 < fall_y (1 / 40) (i + 1) ∨ 1 / 2 ≤ fall_y (1 / 40) (i + 1) := by
  right
  unfold fall_y at hy ⊢
  have hi : i ≤ 25 := by
    by_contra hc
    have h26 : (26 : ℚ) ≤ (i : ℚ) := by
      have : 26 ≤ i := by omega
      exact_mod_cast this
    nlinarith
  have hi2 : (i : ℚ) ≤ 25 := by exact_mod_cast hi
  have hi0 : (0 : ℚ) ≤ (i : ℚ) := Nat.cast_nonneg i
  push_cast
  nlinarith

theorem land_of_range (dt : ℚ) (hdt : 0 < dt) (hrange : dt ≤ 1 / 8 ∨ 1 / 5 ≤ dt) (i : Nat)
    (hy : 3 / 4 < fall_y (min dt (1 / 5) / 8) i) :
    3 / 4 < fall_y (min dt (1 / 5) / 8) (i + 1) ∨ 1 / 2 ≤ fall_y (min dt (1 / 5) / 8) (i + 1) := by
  rcases hrange with h | h
  · have e : min dt (1 / 5) = dt := min_eq_left (by linarith)
    rw [e] at hy ⊢
    exact land_small (dt / 8) (by linarith) (by linarith) i hy
  · have e : min dt (1 / 5) / 8 = 1 / 40 := by
      rw [min_eq_right h]; norm_num
    rw [e] at hy ⊢
    exact land_clamped i hy

/-- Once the free-fall height is no longer above `3/4`, a state of the fall is
the resting state. -/
theorem FallState.rest (m : Model) (x z h : ℚ) (j : Nat) (w : Window)
    (hw : FallState m x z h j w) (hj : fall_y h j ≤ 3 / 4) : Falling m x z (3 / 4) 0 w := by
  rcases hw with ⟨_, hy⟩ | hr
  · exact absurd hy (not_lt.2 hj)
  · exact hr

theorem FallState.above (m : Model) (x z h : ℚ) (j : Nat) (w : Window)
    (hw : FallState m x z h j w) : 3 / 4 ≤ w.position.y := by
  rcases hw with ⟨hf, hy⟩ | hr
  · rw [hf.position]; exact le_of_lt hy
  · rw [hr.position]; exact le_refl _

theorem FallState.start (m : Model) (x z h : ℚ) (w : Window) (hw : Falling m x z 5 0 w) :
    FallState m x z h 0 w := by
  left
  have e : fall_y h 0 = 5 := by unfold fall_y; simp
  rw [e]
  refine ⟨?_, by norm_num⟩
  simpa using hw

theorem fall_y_late (h : ℚ) (j : Nat) (hj : 7 / 10 ≤ h * (j : ℚ)) : fall_y h j ≤ 3 / 4 := by
  unfold fall_y
  have hj0 : (0 : ℚ) ≤ (j : ℚ) := Nat.cast_nonneg j
  have hh : 0 < h := by
    by_contra hc
    push_neg at hc
    nlinarith
  nlinarith [mul_le_mul hj hj (by norm_num) (by linarith : (0 : ℚ) ≤ h * (j : ℚ)),
    mul_pos hh hh, mul_nonneg (mul_nonneg (le_of_lt hh) (le_of_lt hh)) hj0]

/-- Run of the fall: every state reached by `k` calls of `update(dt)` followed
by `r` sub-steps of the next call is a state of the fall at sub-step
`8 * k + min r 8`. -/
theorem fall_run_spec (motion : Window → Vertex) (w : Window) (x z dt : ℚ)
    (hfly : w.flying = false) (hstrafe : w.strafe = (0, 0))
    (hpos : w.position = NewVertex x 5 z) (hdy : w.dy = 0)
    (hair : ∀ q : Vertex, q.y ≠ -1 → w.model.world q = none)
    (hfloor : w.model.world (NewVertex (round x) (-1) (round z)) ≠ none)
    (hdt : 0 < dt) (hrange : dt ≤ 1 / 8 ∨ 1 / 5 ≤ dt) (k r : Nat) :
    ∃ wk ws, Window.updates motion dt k w = some wk ∧
      wk.update_steps motion dt r = some ws ∧
      FallState w.model x z (min dt (1 / 5) / 8) (8 * k) wk ∧
      FallState w.model x z (min dt (1 / 5) / 8) (8 * k + min r 8) ws := by
  have hstart := FallState.start w.model x z (min dt (1 / 5) / 8) w
    ⟨hfly, hstrafe, rfl, hpos, hdy⟩
  obtain ⟨wk, ek, sk⟩ := updates_spec motion w.model x z dt hair hfloor (le_of_lt hdt)
    (land_of_range dt hdt hrange) k 0 w hstart
  rw [Nat.zero_add] at sk
  obtain ⟨ws, es, ss⟩ := update_steps_spec motion w.model x z dt hair hfloor (le_of_lt hdt)
    (land_of_range dt hdt hrange) r (8 * k) wk sk
  exact ⟨wk, ws, ek, es, sk, ss⟩

/-- Where the fall of the collision scenario ends on the floor: in a world with
no block outside the layer `y = -1` and a block under the entity, a non-flying
entity of height 2 without strafe input that starts at `y = 5` with zero
vertical velocity and is advanced by repeated `update(dt)` calls with
`0 < dt ≤ 1/8` or `dt ≥ 1/5` (a sufficient condition, not a necessary one) stays
at `y ≥ 3/4` at every sub-step, and once `k * min(dt, 1/5) ≥ 7/10` it rests at
`y = 3/4` (its feet cell `round(y) - 1` is `0`) with `dy = 0`; each call is the
eight sub-steps of `update_steps`. -/
theorem fall_settles_on_floor (motion : Window → Vertex) (w : Window) (x z dt : ℚ)
    (hfly : w.flying = false) (hstrafe : w.strafe = (0, 0))
    (hpos : w.position = NewVertex x 5 z) (hdy : w.dy = 0)
    (hair : ∀ q : Vertex, q.y ≠ -1 → w.model.world q = none)
    (hfloor : w.model.world (NewVertex (round x) (-1) (round z)) ≠ none)
    (hdt : 0 < dt) (hrange : dt ≤ 1 / 8 ∨ 1 / 5 ≤ dt) :
    (∀ k r : Nat, ∃ wk ws, Window.updates motion dt k w = some wk ∧
        wk.update motion dt = wk.update_steps motion dt 8 ∧
        wk.update_steps motion dt r = some ws ∧ 3 / 4 ≤ ws.position.y) ∧
    (∀ k : Nat, 7 / 10 ≤ (k : ℚ) * min dt (1 / 5) →
      ∃ wk, Window.updates motion dt k w = some wk ∧
        wk.position = NewVertex x (3 / 4) z ∧ round wk.position.y - 1 = 0 ∧ wk.dy = 0) := by
  constructor
  · intro k r
    obtain ⟨wk, ws, ek, es, _, ss⟩ :=
      fall_run_spec motion w x z dt hfly hstrafe hpos hdy hair hfloor hdt hrange k r
    exact ⟨wk, ws, ek, update_eq_steps motion wk dt, es,
      FallState.above _ _ _ _ _ ws ss⟩
  · intro k hk
    obtain ⟨wk, _, ek, _, sk, _⟩ :=
      fall_run_spec motion w x z dt hfly hstrafe hpos hdy hair hfloor hdt hrange k 0
    have hrest := FallState.rest _ _ _ _ _ wk sk (fall_y_late _ _ (by
      push_cast
      linarith))
    refine ⟨wk, ek, hrest.position, ?_, hrest.dy⟩
    rw [hrest.position]
    show round (3 / 4) - 1 = 0
    rw [round_eq_one (3 / 4) (by norm_num) (le_refl _)]
    norm_num

theorem flat_floor_air (q : Vertex) (hq : q.y ≠ -1) : flat_floor.world q = none := by
  simp [flat_floor, hq]

theorem fall_settles_on_floor_witness :
    (∀ k r : Nat, ∃ wk ws,
        Window.updates (fun _ => NewVertex 0 0 0) (1 / 60) k (Window.falling flat_floor) = some wk ∧
        wk.update (fun _ => NewVertex 0 0 0) (1 / 60) =
          wk.update_steps (fun _ => NewVertex 0 0 0) (1 / 60) 8 ∧
        wk.update_steps (fun _ => NewVertex 0 0 0) (1 / 60) r = some ws ∧
        3 / 4 ≤ ws.position.y) ∧
    (∀ k : Nat, 7 / 10 ≤ (k : ℚ) * min (1 / 60) (1 / 5) →
      ∃ wk, Window.updates (fun _ => NewVertex 0 0 0) (1 / 60) k (Window.falling flat_floor)
          = some wk ∧
        wk.position = NewVertex 0 (3 / 4) 0 ∧ round wk.position.y - 1 = 0 ∧ wk.dy = 0) :=
  fall_settles_on_floor (fun _ => NewVertex 0 0 0) (Window.falling flat_floor) 0 0 (1 / 60)
    rfl rfl rfl rfl flat_floor_air (by decide!) (by norm_num) (Or.inl (by norm_num))

/-- C12, failing input: on the flat STONE floor at `y = -1` (a block under the
entity, no block outside the layer `y = -1`), the entity that falls from
`y = 5` with `dy = 0` under `update(49/250)` is still above the floor after
three calls (`y = 1.3985`), and after the fifth sub-step of the fourth call it
is at `y = -0.222175` with `dy = -14.21`: the sub-steps ended at `0.786`,
`0.462`, `0.126` and `-0.222` without a push-back.  After eight calls it is
below `y = -5`, under the floor.  With `dt = 1/5` the same fall rests at
`y = 3/4`, feet cell `0`, with `dy = 0` after every number `k ≥ 4` of calls. -/
theorem fall_through_floor :
    (flat_floor.world (NewVertex 0 (-1) 0) = some STONE ∧
      ∀ q : Vertex, q.y ≠ -1 → flat_floor.world q = none) ∧
    ((Window.updates (fun _ => NewVertex 0 0 0) (49 / 250) 3 (Window.falling flat_floor)).map
        (fun w => w.position)) = some (NewVertex 0 (2797 / 2000) 0) ∧
    (((Window.updates (fun _ => NewVertex 0 0 0) (49 / 250) 3 (Window.falling flat_floor)).bind
        (fun w => w.update_steps (fun _ => NewVertex 0 0 0) (49 / 250) 5)).map
          (fun w => (w.position, w.dy))) =
      some (NewVertex 0 (-8887 / 40000) 0, -1421 / 100) ∧
    ((Window.updates (fun _ => NewVertex 0 0 0) (49 / 250) 8 (Window.falling flat_floor)).map
        (fun w => decide (w.position.y < -5))) = some true ∧
    (∀ k : Nat, 4 ≤ k →
      (Window.updates (fun _ => NewVertex 0 0 0) (1 / 5) k (Window.falling flat_floor)).map
          (fun w => (w.position, round w.position.y - 1, w.dy)) =
        some (NewVertex 0 (3 / 4) 0, 0, 0)) := by
  refine ⟨⟨by decide!, flat_floor_air⟩, by decide!, by decide!, by decide!, fun k hk => ?_⟩
  obtain ⟨wk, _, ek, _, sk, _⟩ := fall_run_spec (fun _ => NewVertex 0 0 0)
    (Window.falling flat_floor) 0 0 (1 / 5) rfl rfl rfl rfl flat_floor_air (by decide!)
    (by norm_num) (Or.inr (le_refl _)) k 0
  have hk4 : (4 : ℚ) ≤ (k : ℚ) := by exact_mod_cast hk
  have hrest := FallState.rest _ _ _ _ _ wk sk (fall_y_late _ _ (by
    rw [min_self]
    push_cast
    linarith))
  rw [ek, Option.map_some', hrest.position, hrest.dy]
  have hr : round (NewVertex 0 (3 / 4) 0).y - 1 = 0 := by
    show round (3 / 4) - 1 = 0
    rw [round_eq_one (3 / 4) (by norm_num) (le_refl _)]
    norm_num
  rw [hr]

end Minecraft
